import Mathlib

/-!
# Clustering of 24-bit labels with a union-find forest

A shallow embedding of `vertex.hpp`, `graph.hpp`, `graph.cpp` and `clusterBig.cpp`.

* A `bitset<NUM_BITS>` is the natural number whose binary digits are its bits
  (bit `i` of the bitset is `Nat.testBit x i`).
* A `Vertex*` is the position of the vertex in `vertex_vector` (every allocated
  `Vertex` is pushed there exactly once, so positions and addresses correspond);
  `nullptr` in the map is `none`.
* `unordered_map<bitset, Vertex*>` is a finite partial function: `none` means the
  key has no entry, `some none` an entry holding `nullptr`.
* The recursion of `Graph::find` is given fuel; the theorems show that the fuel
  handed over by `find` is always enough on the forests the program builds.
-/

namespace ClusterBig

/-! ## Data model -/

/-- Width of the labels: `#define NUM_BITS 24`. -/
def NUM_BITS : Nat := 24

/-- Width of `unsigned int`. -/
def UINT_BITS : Nat := 32

/-- Method `bitset::flip(i)`: toggles bit `i`. -/
def flip (x i : Nat) : Nat := x ^^^ 2 ^ i

/-- Class `Vertex` of `vertex.hpp`. The constructor leaves `parent` null and the
only allocation site (`loadFromFile`) overwrites it with the vertex's own address in
the next statement, so `parent` is modelled as an address. -/
structure Vertex where
  name : Nat
  rank : Nat
  parent : Nat
  deriving DecidableEq

/-- The type `unordered_map<bitset<NUM_BITS>, Vertex*>`. -/
abbrev VertexMap := Nat → Option (Option Nat)

/-- Class `Graph` of `graph.hpp`. -/
structure Graph where
  vertex_map : VertexMap
  vertex_vector : List Vertex

/-- The graph built by the constructor `Graph::Graph`. -/
def Graph.empty : Graph := ⟨fun _ => none, []⟩

/-- `vertex_map[k]` used as a value: the stored pointer; a key without entry gets an
entry holding `nullptr`. -/
def mapIndex (m : VertexMap) (k : Nat) : VertexMap × Option Nat :=
  match m k with
  | some v => (m, v)
  | none => (fun k' => if k' = k then some none else m k', none)

/-- `vertex_map[k] = p`. -/
def mapAssign (m : VertexMap) (k : Nat) (p : Option Nat) : VertexMap :=
  fun k' => if k' = k then some p else m k'

/-- Field access `n->parent` (an address outside the vector is never dereferenced by
the program; the model reads it as a self-loop). -/
def parentOf (g : Graph) (n : Nat) : Nat :=
  match g.vertex_vector[n]? with
  | some v => v.parent
  | none => n

/-- Field access `n->rank`. -/
def rankOf (g : Graph) (n : Nat) : Nat :=
  match g.vertex_vector[n]? with
  | some v => v.rank
  | none => 0

/-- Field access `n->name`. -/
def nameOf (g : Graph) (n : Nat) : Nat :=
  match g.vertex_vector[n]? with
  | some v => v.name
  | none => 0

/-- Assignment `n->parent = p`. -/
def setParent (g : Graph) (n p : Nat) : Graph :=
  match g.vertex_vector[n]? with
  | some v => { g with vertex_vector := g.vertex_vector.set n { v with parent := p } }
  | none => g

/-- Assignment `n->rank = r`. -/
def setRank (g : Graph) (n r : Nat) : Graph :=
  match g.vertex_vector[n]? with
  | some v => { g with vertex_vector := g.vertex_vector.set n { v with rank := r } }
  | none => g

/-! ## Loading -/

/-- Constructor `bitset<NUM_BITS>(line)`: only the first `NUM_BITS` characters of the
string are read, most significant bit first; `invalid_argument` is thrown (here `none`)
when one of them is neither `0` nor `1`. A shorter string gives the low bits. -/
def bitsetOfString (line : List Char) : Option Nat :=
  if (line.take NUM_BITS).all (fun c => c == '0' || c == '1') then
    some ((line.take NUM_BITS).foldl (fun acc c => 2 * acc + (if c == '1' then 1 else 0)) 0)
  else none

/-- Body of the reading loop of `loadFromFile` once `current` is constructed. -/
def loadLabel (g : Graph) (current : Nat) : Graph :=
  match mapIndex g.vertex_map current with
  | (m1, some _) => { g with vertex_map := m1 }
  | (m1, none) =>
    let currentVertex := g.vertex_vector.length
    { vertex_map := mapAssign m1 current (some currentVertex)
      vertex_vector := g.vertex_vector ++ [⟨current, 0, currentVertex⟩] }

/-- The reading loop applied to labels that are already constructed. -/
def loadLabels (g : Graph) (labels : List Nat) : Graph :=
  labels.foldl loadLabel g

/-- The reading loop `while (getline(*in, line))` over the lines that `getline` delivers. -/
def loadLines : List String → Graph → Option Graph
  | [], g => some g
  | line :: rest, g =>
    match bitsetOfString (line.data.filter (fun c => c != ' ')) with
    | none => none
    | some current => loadLines rest (loadLabel g current)

/-- State of an `ifstream`: the two state bits the program can observe and the lines
not yet read. -/
structure IfStream where
  failbit : Bool
  eofbit : Bool
  rest : List String

/-- Constructor `ifstream(filename)`; the argument is `none` when the file cannot be
opened, otherwise its lines. Opening never sets `eofbit`. -/
def IfStream.open : Option (List String) → IfStream
  | none => ⟨true, false, []⟩
  | some ls => ⟨false, false, ls⟩

/-- Function `getline(*in, line)`: fails on a stream in a failed state or without a line left. -/
def IfStream.getline (s : IfStream) : IfStream × Option String :=
  if s.failbit then (s, none)
  else
    match s.rest with
    | [] => ({ s with failbit := true, eofbit := true }, none)
    | l :: ls => ({ s with rest := ls }, some l)

/-- The lines that successive `getline` calls will deliver. -/
def IfStream.pending (s : IfStream) : List String :=
  if s.failbit then [] else s.rest

/-- Method `Graph::loadFromFile`. The result is `none` when the `bitset` constructor throws. -/
def loadFromFile (file : Option (List String)) (g : Graph) : Option (Bool × Graph) :=
  let s := IfStream.open file
  if s.eofbit then some (false, g)
  else
    let s1 := s.getline.1
    match loadLines s1.pending g with
    | none => none
    | some g1 => some (true, g1)

/-! ## Union-find -/

/-- Method `Graph::find` with a bound on the recursion depth. -/
def findAux : Nat → Graph → Nat → Option (Graph × Nat)
  | 0, _, _ => none
  | fuel + 1, g, n =>
    if n ≠ parentOf g n then
      match findAux fuel g (parentOf g n) with
      | none => none
      | some (g1, r) =>
        let g2 := setParent g1 n r
        some (g2, parentOf g2 n)
    else some (g, parentOf g n)

/-- Method `Graph::find`: the recursion may go as deep as there are vertices. -/
def find (g : Graph) (n : Nat) : Option (Graph × Nat) :=
  findAux g.vertex_vector.length g n

/-- Method `Graph::merge`. -/
def merge (g : Graph) (u v : Nat) : Option Graph :=
  match find g u with
  | none => none
  | some (g1, uParent) =>
    match find g1 v with
    | none => none
    | some (g2, vParent) =>
      let g3 :=
        if rankOf g2 uParent > rankOf g2 vParent then setParent g2 vParent uParent
        else setParent g2 uParent vParent
      if rankOf g3 uParent = rankOf g3 vParent then
        some (setRank g3 vParent ((rankOf g3 vParent + 1) % 2 ^ UINT_BITS))
      else some g3

/-! ## Clustering -/

/-- Body shared by both loops of `Graph::cluster` once `current` is computed: the
state is the graph together with `treeEdges`. -/
def tryEdge (it current : Nat) (st : Graph × Nat) : Option (Graph × Nat) :=
  match mapIndex st.1.vertex_map current with
  | (m1, none) => some ({ st.1 with vertex_map := m1 }, st.2)
  | (m1, some currentVertex) =>
    match find { st.1 with vertex_map := m1 } currentVertex with
    | none => none
    | some (g1, currentParent) =>
      match find g1 it with
      | none => none
      | some (g2, itParent) =>
        if currentParent ≠ itParent then
          match merge g2 currentVertex it with
          | none => none
          | some g3 => some (g3, (st.2 + 1) % 2 ^ UINT_BITS)
        else some (g2, st.2)

/-- First loop of `Graph::cluster` for one vertex: edges of weight 1. -/
def phase1Vertex (st : Graph × Nat) (it : Nat) : Option (Graph × Nat) :=
  (List.range NUM_BITS).foldlM
    (fun st i => tryEdge it (flip (nameOf st.1 it) i) st) st

/-- Second loop of `Graph::cluster` for one vertex: edges of weight 2. -/
def phase2Vertex (st : Graph × Nat) (it : Nat) : Option (Graph × Nat) :=
  (List.range (NUM_BITS - 1)).foldlM
    (fun st i =>
      (List.range' (i + 1) (NUM_BITS - (i + 1))).foldlM
        (fun st j => tryEdge it (flip (flip (nameOf st.1 it) i) j) st) st) st

/-- Method `Graph::cluster`: the final graph and the returned `unsigned int`. -/
def cluster (g : Graph) : Option (Graph × Nat) :=
  match (List.range g.vertex_vector.length).foldlM phase1Vertex (g, 0) with
  | none => none
  | some st1 =>
    match (List.range st1.1.vertex_vector.length).foldlM phase2Vertex st1 with
    | none => none
    | some st2 =>
      some (st2.1, (st2.1.vertex_vector.length + 2 ^ UINT_BITS - st2.2) % 2 ^ UINT_BITS)

/-! ## Specification vocabulary -/

/-- Hamming distance of two labels: the number of the `NUM_BITS` bit positions at which
they differ. -/
def hamming (x y : Nat) : Nat :=
  (List.range NUM_BITS).countP (fun i => x.testBit i != y.testBit i)

/-- Number of vertices, `vertex_vector.size()`. -/
def size (g : Graph) : Nat := g.vertex_vector.length

/-- The pointer stored for a key, `none` when there is no entry or a null one. -/
def lookup (g : Graph) (k : Nat) : Option Nat :=
  match g.vertex_map k with
  | some p => p
  | none => none

/-- The labels of `vertex_vector`, in order. -/
def names (g : Graph) : List Nat := g.vertex_vector.map Vertex.name

/-- The vertex reached from `x` by following parent pointers `size g` times: the root of
the tree of `x` when the parent pointers form a forest. -/
def root (g : Graph) (x : Nat) : Nat := (parentOf g)^[size g] x

/-- The representative that `find` returns, the state dropped. -/
def findRep (g : Graph) (x : Nat) : Option Nat := (find g x).map Prod.snd

/-- The parent pointers form a forest: they stay inside the vector and some measure
strictly decreases along every pointer that is not a self-loop. -/
structure Forest (g : Graph) : Prop where
  closed : ∀ i, i < size g → parentOf g i < size g
  acyclic : ∃ d : Nat → Nat, ∀ i, parentOf g i ≠ i → d (parentOf g i) < d i

/-- Number of vertices that are their own parent. -/
def numRoots (g : Graph) : Nat :=
  ((Finset.range (size g)).filter (fun i => parentOf g i = i)).card

/-- Two vertices whose labels are at Hamming distance at most 2. -/
def Adj (g : Graph) (i j : Nat) : Prop :=
  i < size g ∧ j < size g ∧ hamming (nameOf g i) (nameOf g j) ≤ 2

/-- Vertices joined by a path of vertices with consecutive labels at distance at most 2. -/
def Conn (g : Graph) : Nat → Nat → Prop := Relation.ReflTransGen (Adj g)

/-- The distinct elements of a list, each once, in order of first occurrence. -/
def distinctInOrder : List Nat → List Nat
  | [] => []
  | x :: xs => x :: (distinctInOrder xs).filter (fun y => y ≠ x)

/-- A line of the input that is valid: once the blanks are removed, exactly `NUM_BITS`
characters, each `0` or `1`. -/
def ValidLine (line : String) : Prop :=
  (line.data.filter (fun c => c != ' ')).length = NUM_BITS ∧
  ∀ c ∈ line.data.filter (fun c => c != ' '), c = '0' ∨ c = '1'

/-- The label that `loadFromFile` constructs from a line (blanks removed, then the
`bitset` constructor). -/
def lineLabel (line : String) : Nat :=
  (bitsetOfString (line.data.filter (fun c => c != ' '))).getD 0

/-- The store after loading: labels are distinct `NUM_BITS`-bit numbers, the map sends
exactly the label of vertex `i` to `i`, and every vertex is a root of rank 0. -/
structure Loaded (g : Graph) : Prop where
  nodup : (names g).Nodup
  bound : ∀ i, i < size g → nameOf g i < 2 ^ NUM_BITS
  look : ∀ k i, lookup g k = some i ↔ i < size g ∧ nameOf g i = k
  nonull : ∀ k, g.vertex_map k ≠ some none
  self : ∀ i, parentOf g i = i
  rank0 : ∀ i, rankOf g i = 0

/-- Forest states reachable from a loaded graph by calls of `find` and `merge`. -/
inductive Reachable : Graph → Prop
  | load (labels : List Nat) (h : ∀ v ∈ labels, v < 2 ^ NUM_BITS) :
      Reachable (loadLabels Graph.empty labels)
  | find (g : Graph) (x : Nat) (g1 : Graph) (r : Nat) :
      Reachable g → x < size g → find g x = some (g1, r) → Reachable g1
  | merge (g : Graph) (u v : Nat) (g1 : Graph) :
      Reachable g → u < size g → v < size g → merge g u v = some g1 → Reachable g1

/-- The graph `g1` differs from `g` at most by pointers redirected to the root of their
tree (what path compression does). -/
structure Compress (g g1 : Graph) : Prop where
  size : size g1 = size g
  names : nameOf g1 = nameOf g
  ranks : rankOf g1 = rankOf g
  map : g1.vertex_map = g.vertex_map
  parent : ∀ y, parentOf g1 y = parentOf g y ∨ parentOf g1 y = root g y

/-- What a call `merge(u, v)` on the forest `g` leaves behind in `g1`: the store is
untouched, the pointers are still a forest; when `u` and `v` were in different trees one
of the two roots (`a`) now hangs under the other (`b`), otherwise roots are unchanged. -/
structure Merged (g : Graph) (u v : Nat) (g1 : Graph) : Prop where
  size : size g1 = size g
  names : nameOf g1 = nameOf g
  map : g1.vertex_map = g.vertex_map
  forest : Forest g1
  diff : root g u ≠ root g v → ∃ a b, a ≠ b ∧
    ((a = root g u ∧ b = root g v) ∨ (a = root g v ∧ b = root g u)) ∧
    (∀ y, root g1 y = if root g y = a then b else root g y) ∧
    (∀ y, parentOf g1 y = y ↔ (parentOf g y = y ∧ y ≠ a))
  same : root g u = root g v →
    root g1 = root g ∧ ∀ y, parentOf g1 y = y ↔ parentOf g y = y

/-- Invariant of the two loops of `cluster` started on the loaded graph `g0`; the state
is the current graph with the current value of `treeEdges`. -/
structure CInv (g0 : Graph) (st : Graph × Nat) : Prop where
  len : size st.1 = size g0
  names : nameOf st.1 = nameOf g0
  look : lookup st.1 = lookup g0
  forest : Forest st.1
  count : numRoots st.1 + st.2 = size g0
  sound : ∀ x y, x < size g0 → y < size g0 → root st.1 x = root st.1 y → Conn g0 x y

/-- Vertices that share a root in the earlier state still share one in the later state. -/
def Keeps (s s1 : Graph × Nat) : Prop :=
  ∀ x y, root s.1 x = root s.1 y → root s1.1 x = root s1.1 y

/-- What `cluster` leaves behind when started on the loaded graph `g0`: the final graph
`g1` and the returned number `k`. -/
structure Clustered (g0 g1 : Graph) (k : Nat) : Prop where
  len : size g1 = size g0
  names : nameOf g1 = nameOf g0
  forest : Forest g1
  count : k = numRoots g1
  sound : ∀ x y, x < size g0 → y < size g0 → root g1 x = root g1 y → Conn g0 x y
  complete : ∀ x y, x < size g0 → y < size g0 →
    hamming (nameOf g0 x) (nameOf g0 y) ≤ 2 → root g1 x = root g1 y

/-- Forest states reached from a loaded graph by calls of `find` and by calls of `merge`
on vertices in different components. -/
inductive Proper : Graph → Prop
  | load (labels : List Nat) (h : ∀ v ∈ labels, v < 2 ^ NUM_BITS) :
      Proper (loadLabels Graph.empty labels)
  | find (g : Graph) (x : Nat) (g1 : Graph) (r : Nat) :
      Proper g → x < size g → find g x = some (g1, r) → Proper g1
  | merge (g : Graph) (u v : Nat) (g1 : Graph) :
      Proper g → u < size g → v < size g → findRep g u ≠ findRep g v →
      merge g u v = some g1 → Proper g1

/-- The state `g2` is reached from `g` by a further sequence of calls of `find` and of
calls of `merge` on vertices in different components. -/
inductive Later : Graph → Graph → Prop
  | refl (g : Graph) : Later g g
  | find (g g1 : Graph) (x : Nat) (g2 : Graph) (r : Nat) :
      Later g g1 → x < size g1 → find g1 x = some (g2, r) → Later g g2
  | merge (g g1 : Graph) (u v : Nat) (g2 : Graph) :
      Later g g1 → u < size g1 → v < size g1 → findRep g1 u ≠ findRep g1 v →
      merge g1 u v = some g2 → Later g g2

/-- Constant `EXPECTED_ARGS` of `clusterBig.cpp`. -/
def EXPECTED_ARGS : Nat := 2

/-- Function `main` of `clusterBig.cpp`, given `argc` and the file that `argv[1]` names
(`none` when it cannot be opened). The result is the number printed after
`Number Clusters:` (if the program gets that far) and the exit code; `none` when an
exception escapes. The value returned by `loadFromFile` is not looked at, and `main`
ends without a `return` statement, that is with exit code 0. -/
def main (argc : Nat) (file : Option (List String)) : Option (Option Nat × Int) :=
  if argc ≠ EXPECTED_ARGS then some (none, -1)
  else
    match loadFromFile file Graph.empty with
    | none => none
    | some (_, g) =>
      match cluster g with
      | none => none
      | some (_, clusterNum) => some (some clusterNum, 0)

/-- Number of vertices in the tree of the root `r`. -/
def treeSize (g : Graph) (r : Nat) : Nat :=
  ((Finset.range (size g)).filter (fun i => root g i = r)).card

/-- Invariant of union by rank: on a forest whose size fits an `unsigned int`, ranks
strictly increase along parent pointers and a root of rank `k` has at least `2 ^ k`
vertices in its tree. -/
structure Ranked (g : Graph) : Prop where
  forest : Forest g
  bound : size g < 2 ^ UINT_BITS
  mono : ∀ x, parentOf g x ≠ x → rankOf g x < rankOf g (parentOf g x)
  big : ∀ r, r < size g → parentOf g r = r → 2 ^ rankOf g r ≤ treeSize g r

/-- The labels that the first loop of `cluster` looks up for a vertex named `x`, in the
order of the loop: bit `i` flipped, `0 ≤ i < NUM_BITS`. -/
def candidates1 (x : Nat) : List Nat :=
  (List.range NUM_BITS).map (fun i => flip x i)

/-- The labels that the second loop of `cluster` looks up for a vertex named `x`, in the
order of the loops: bits `i` and `j` flipped, `0 ≤ i < NUM_BITS - 1`, `i < j < NUM_BITS`. -/
def candidates2 (x : Nat) : List Nat :=
  (List.range (NUM_BITS - 1)).flatMap (fun i =>
    (List.range' (i + 1) (NUM_BITS - (i + 1))).map (fun j => flip (flip x i) j))

/-- First loop of `Graph::cluster` (all edges of weight 1), started on `g` with
`treeEdges = 0`. -/
def phase1 (g : Graph) : Option (Graph × Nat) :=
  (List.range g.vertex_vector.length).foldlM phase1Vertex (g, 0)

/-- Second loop of `Graph::cluster` (all edges of weight 2), started on the state left by
the first loop. -/
def phase2 (st : Graph × Nat) : Option (Graph × Nat) :=
  (List.range st.1.vertex_vector.length).foldlM phase2Vertex st

/-- Two vertices whose labels are at Hamming distance exactly 1. -/
def Adj1 (g : Graph) (i j : Nat) : Prop :=
  i < size g ∧ j < size g ∧ hamming (nameOf g i) (nameOf g j) = 1

/-- Invariant of the loops of `cluster` that also follows the map and a relation `A`
along which merged vertices are joined. -/
structure LInv (A : Nat → Nat → Prop) (g0 : Graph) (st : Graph × Nat) : Prop where
  base : CInv g0 st
  soundA : ∀ x y, x < size g0 → y < size g0 → root st.1 x = root st.1 y →
    Relation.ReflTransGen A x y
  keep : ∀ k, g0.vertex_map k ≠ none → st.1.vertex_map k = g0.vertex_map k
  fresh : ∀ k, g0.vertex_map k = none →
    st.1.vertex_map k = none ∨ st.1.vertex_map k = some none

/-- From the earlier to the later state: vertices that share a root keep sharing one,
`treeEdges` does not go down, and entries of the map stay as they are. -/
def Grows (s s1 : Graph × Nat) : Prop :=
  Keeps s s1 ∧ s.2 ≤ s1.2 ∧
    ∀ k, s.1.vertex_map k ≠ none → s1.1.vertex_map k = s.1.vertex_map k

/-- Vertices `x` and `y` of `g` are joined by a chain of vertices of `g` whose
consecutive labels are at Hamming distance exactly 1. -/
def Joined1 (g : Graph) (x y : Nat) : Prop :=
  ∃ path : List Nat, path.head? = some x ∧ path.getLast? = some y ∧
    (∀ v ∈ path, v < size g) ∧
    List.Chain' (fun a b => hamming (nameOf g a) (nameOf g b) = 1) path

/-- The vector that a line of digits denotes: the binary number written by its digits
once the blanks are removed, the leftmost digit being the most significant one. This is
stated with the library's `Nat.ofDigits` (least significant digit first, hence the
`reverse`), without reference to the loader. -/
def lineVector (line : String) : Nat :=
  Nat.ofDigits 2
    ((line.data.filter (fun c => c != ' ')).reverse.map (fun c => if c == '1' then 1 else 0))

/-- Example state: the labels 0, 1, 2, 3 loaded. -/
def demo0 : Graph := loadLabels Graph.empty [0, 1, 2, 3]

/-- Example state: `demo0` after `merge(0, 1)`. -/
def demo1 : Graph := (merge demo0 0 1).getD demo0

/-- Example state: `demo1` after `merge(2, 3)`. -/
def demo2 : Graph := (merge demo1 2 3).getD demo1

/-- Example state: `demo2` after `merge(0, 2)`; vertex 0 now reaches its root 3 through
vertex 1. -/
def demo3 : Graph := (merge demo2 0 2).getD demo2

/-- Example state: two roots whose ranks both hold the largest `unsigned int`. -/
def maxRankPair : Graph :=
  setRank (setRank (loadLabels Graph.empty [0, 1]) 0 (2 ^ UINT_BITS - 1)) 1 (2 ^ UINT_BITS - 1)

/-! ## Forests of pointers, abstractly -/

section Pointers

variable {p : Nat → Nat} {n : Nat}

theorem iter_lt (hlt : ∀ i, i < n → p i < n) {x : Nat} (hx : x < n) (k : Nat) :
    p^[k] x < n := by
  induction k with
  | zero => simpa using hx
  | succ k ih => rw [Function.iterate_succ_apply']; exact hlt _ ih

theorem iter_fixed_of_le {x : Nat} {k m : Nat} (hk : p (p^[k] x) = p^[k] x) (hkm : k ≤ m) :
    p^[m] x = p^[k] x := by
  obtain ⟨j, rfl⟩ := Nat.exists_eq_add_of_le hkm
  rw [Nat.add_comm, Function.iterate_add_apply]
  exact Function.iterate_fixed hk j

theorem measure_iter_le {d : Nat → Nat} (hd : ∀ i, p i ≠ i → d (p i) < d i) (x k : Nat) :
    d (p^[k] x) ≤ d x := by
  induction k with
  | zero => simp
  | succ k ih =>
    rw [Function.iterate_succ_apply']
    by_cases h : p (p^[k] x) = p^[k] x
    · rw [h]; exact ih
    · exact le_trans (le_of_lt (hd _ h)) ih

theorem measure_strict {d : Nat → Nat} (hd : ∀ i, p i ≠ i → d (p i) < d i) (x m : Nat)
    (hnf : ∀ k, k < m → p (p^[k] x) ≠ p^[k] x) :
    ∀ a b, a < b → b ≤ m → d (p^[b] x) < d (p^[a] x) := by
  intro a b hab
  induction b with
  | zero => omega
  | succ b ih =>
    intro hb
    rw [Function.iterate_succ_apply']
    have h1 : d (p (p^[b] x)) < d (p^[b] x) := hd _ (hnf b (by omega))
    rcases Nat.lt_or_ge a b with h | h
    · exact lt_trans h1 (ih h (by omega))
    · have : a = b := by omega
      subst this; exact h1

/-- In a forest on `n` vertices a root is reached in fewer than `n` steps. -/
theorem exists_fixed (hlt : ∀ i, i < n → p i < n)
    (hd : ∃ d : Nat → Nat, ∀ i, p i ≠ i → d (p i) < d i) {x : Nat} (hx : x < n) :
    ∃ k, k < n ∧ p (p^[k] x) = p^[k] x := by
  by_contra hcon
  push_neg at hcon
  obtain ⟨d, hd⟩ := hd
  have hstrict := measure_strict hd x n hcon
  have hcard : (Finset.range n).card < (Finset.range (n + 1)).card := by simp
  obtain ⟨a, ha, b, hb, hab, heq⟩ :=
    Finset.exists_ne_map_eq_of_card_lt_of_maps_to hcard
      (fun k _ => Finset.mem_range.mpr (iter_lt hlt hx k))
  rw [Finset.mem_range] at ha hb
  rcases Nat.lt_or_gt_of_ne hab with h | h
  · have := hstrict a b h (by omega); rw [heq] at this; exact lt_irrefl _ this
  · have := hstrict b a h (by omega); rw [heq] at this; exact lt_irrefl _ this

theorem iter_n_fixed (hlt : ∀ i, i < n → p i < n) (hout : ∀ i, n ≤ i → p i = i)
    (hd : ∃ d : Nat → Nat, ∀ i, p i ≠ i → d (p i) < d i) (x : Nat) :
    p (p^[n] x) = p^[n] x := by
  rcases Nat.lt_or_ge x n with hx | hx
  · obtain ⟨k, hk, hfix⟩ := exists_fixed hlt hd hx
    rw [iter_fixed_of_le hfix (le_of_lt hk)]; exact hfix
  · rw [Function.iterate_fixed (hout x hx)]; exact hout x hx

/-- A map that is constant along pointers and fixes the roots is the root map. -/
theorem iter_n_unique (hfix : ∀ x, p (p^[n] x) = p^[n] x) (ρ : Nat → Nat)
    (h1 : ∀ x, ρ (p x) = ρ x) (h2 : ∀ x, p x = x → ρ x = x) (x : Nat) :
    ρ x = p^[n] x := by
  have h : ∀ k, ρ (p^[k] x) = ρ x := by
    intro k
    induction k with
    | zero => rfl
    | succ k ih => rw [Function.iterate_succ_apply', h1, ih]
  rw [← h n]; exact h2 _ (hfix x)

end Pointers

/-! ## Field accesses and assignments -/

theorem parentOf_of_ge {g : Graph} {i : Nat} (h : size g ≤ i) : parentOf g i = i := by
  unfold parentOf size at *
  rw [List.getElem?_eq_none h]

theorem lt_of_parentOf_ne {g : Graph} {i : Nat} (h : parentOf g i ≠ i) : i < size g := by
  by_contra hc
  exact h (parentOf_of_ge (Nat.le_of_not_lt hc))

theorem size_setParent (g : Graph) (n p : Nat) : size (setParent g n p) = size g := by
  unfold setParent size
  split <;> simp

theorem vertex_map_setParent (g : Graph) (n p : Nat) :
    (setParent g n p).vertex_map = g.vertex_map := by
  unfold setParent
  split <;> rfl

theorem parentOf_setParent (g : Graph) (n p m : Nat) (hn : n < size g) :
    parentOf (setParent g n p) m = if m = n then p else parentOf g m := by
  unfold size at hn
  unfold setParent parentOf
  rw [List.getElem?_eq_getElem hn]
  simp only [List.getElem?_set]
  by_cases h : n = m
  · subst h; simp [hn]
  · have h2 : ¬ m = n := fun e => h e.symm
    simp [h, h2]

theorem nameOf_setParent (g : Graph) (n p : Nat) : nameOf (setParent g n p) = nameOf g := by
  funext m
  unfold setParent
  cases hv : g.vertex_vector[n]? with
  | none => rfl
  | some v =>
    unfold nameOf
    simp only [List.getElem?_set]
    by_cases h : n = m
    · subst h
      have hn : n < g.vertex_vector.length := by
        by_contra hc
        rw [List.getElem?_eq_none (Nat.le_of_not_lt hc)] at hv
        exact Option.noConfusion hv
      simp [hn, hv]
    · simp [h]

theorem rankOf_setParent (g : Graph) (n p : Nat) : rankOf (setParent g n p) = rankOf g := by
  funext m
  unfold setParent
  cases hv : g.vertex_vector[n]? with
  | none => rfl
  | some v =>
    unfold rankOf
    simp only [List.getElem?_set]
    by_cases h : n = m
    · subst h
      have hn : n < g.vertex_vector.length := by
        by_contra hc
        rw [List.getElem?_eq_none (Nat.le_of_not_lt hc)] at hv
        exact Option.noConfusion hv
      simp [hn, hv]
    · simp [h]

theorem size_setRank (g : Graph) (n r : Nat) : size (setRank g n r) = size g := by
  unfold setRank size
  split <;> simp

theorem vertex_map_setRank (g : Graph) (n r : Nat) :
    (setRank g n r).vertex_map = g.vertex_map := by
  unfold setRank
  split <;> rfl

theorem parentOf_setRank (g : Graph) (n r : Nat) : parentOf (setRank g n r) = parentOf g := by
  funext m
  unfold setRank
  cases hv : g.vertex_vector[n]? with
  | none => rfl
  | some v =>
    unfold parentOf
    simp only [List.getElem?_set]
    by_cases h : n = m
    · subst h
      have hn : n < g.vertex_vector.length := by
        by_contra hc
        rw [List.getElem?_eq_none (Nat.le_of_not_lt hc)] at hv
        exact Option.noConfusion hv
      simp [hn, hv]
    · simp [h]

theorem nameOf_setRank (g : Graph) (n r : Nat) : nameOf (setRank g n r) = nameOf g := by
  funext m
  unfold setRank
  cases hv : g.vertex_vector[n]? with
  | none => rfl
  | some v =>
    unfold nameOf
    simp only [List.getElem?_set]
    by_cases h : n = m
    · subst h
      have hn : n < g.vertex_vector.length := by
        by_contra hc
        rw [List.getElem?_eq_none (Nat.le_of_not_lt hc)] at hv
        exact Option.noConfusion hv
      simp [hn, hv]
    · simp [h]

theorem rankOf_setRank (g : Graph) (n r m : Nat) (hn : n < size g) :
    rankOf (setRank g n r) m = if m = n then r else rankOf g m := by
  unfold size at hn
  unfold setRank rankOf
  rw [List.getElem?_eq_getElem hn]
  simp only [List.getElem?_set]
  by_cases h : n = m
  · subst h; simp [hn]
  · have h2 : ¬ m = n := fun e => h e.symm
    simp [h, h2]

theorem lookup_congr {g g1 : Graph} (h : g1.vertex_map = g.vertex_map) : lookup g1 = lookup g := by
  funext k; unfold lookup; rw [h]

/-! ## Roots -/

theorem root_fixed {g : Graph} (hf : Forest g) (x : Nat) : parentOf g (root g x) = root g x :=
  iter_n_fixed hf.closed (fun _ h => parentOf_of_ge h) hf.acyclic x

theorem root_parent {g : Graph} (hf : Forest g) (x : Nat) : root g (parentOf g x) = root g x := by
  unfold root
  rw [← Function.iterate_succ_apply, Function.iterate_succ_apply']
  exact root_fixed hf x

theorem root_of_self {g : Graph} {x : Nat} (h : parentOf g x = x) : root g x = x :=
  Function.iterate_fixed h _

theorem root_root {g : Graph} (hf : Forest g) (x : Nat) : root g (root g x) = root g x :=
  root_of_self (root_fixed hf x)

theorem root_lt {g : Graph} (hf : Forest g) {x : Nat} (hx : x < size g) : root g x < size g :=
  iter_lt hf.closed hx _

theorem root_unique {g : Graph} (hf : Forest g) (ρ : Nat → Nat)
    (h1 : ∀ x, ρ (parentOf g x) = ρ x) (h2 : ∀ x, parentOf g x = x → ρ x = x) (x : Nat) :
    ρ x = root g x :=
  iter_n_unique (root_fixed hf) ρ h1 h2 x

theorem root_eq_iter {g : Graph} {x k : Nat}
    (hk : parentOf g ((parentOf g)^[k] x) = (parentOf g)^[k] x) (hle : k ≤ size g) :
    root g x = (parentOf g)^[k] x :=
  iter_fixed_of_le hk hle

/-! ## Path compression -/

theorem compress_refl (g : Graph) : Compress g g :=
  ⟨rfl, rfl, rfl, rfl, fun _ => Or.inl rfl⟩

theorem compress_isRoot {g g1 : Graph} (hf : Forest g) (hc : Compress g g1) (y : Nat) :
    parentOf g1 y = y ↔ parentOf g y = y := by
  constructor
  · intro h
    rcases hc.parent y with h1 | h1
    · rw [← h1]; exact h
    · have h2 : root g y = y := by rw [← h1]; exact h
      have := root_fixed hf y
      rw [h2] at this; exact this
  · intro h
    rcases hc.parent y with h1 | h1
    · rw [h1]; exact h
    · rw [h1]; exact root_of_self h

theorem compress_forest {g g1 : Graph} (hf : Forest g) (hc : Compress g g1) : Forest g1 := by
  refine ⟨?_, ?_⟩
  · intro i hi
    rw [hc.size] at hi ⊢
    rcases hc.parent i with h | h
    · rw [h]; exact hf.closed i hi
    · rw [h]; exact root_lt hf hi
  · obtain ⟨d, hd⟩ := hf.acyclic
    refine ⟨d, ?_⟩
    intro i hi
    have hi0 : parentOf g i ≠ i := fun e => hi ((compress_isRoot hf hc i).mpr e)
    rcases hc.parent i with h | h
    · rw [h]; exact hd i hi0
    · rw [h, ← root_parent hf i]
      exact lt_of_le_of_lt (measure_iter_le hd _ _) (hd i hi0)

theorem compress_root {g g1 : Graph} (hf : Forest g) (hc : Compress g g1) :
    root g1 = root g := by
  funext x
  symm
  refine root_unique (compress_forest hf hc) (root g) ?_ ?_ x
  · intro y
    rcases hc.parent y with h | h
    · rw [h]; exact root_parent hf y
    · rw [h]; exact root_root hf y
  · intro y hy
    exact root_of_self ((compress_isRoot hf hc y).mp hy)

theorem compress_numRoots {g g1 : Graph} (hf : Forest g) (hc : Compress g g1) :
    numRoots g1 = numRoots g := by
  unfold numRoots
  rw [hc.size]
  congr 1
  apply Finset.filter_congr
  intro y _
  exact compress_isRoot hf hc y

theorem compress_trans {g g1 g2 : Graph} (hf : Forest g) (h1 : Compress g g1)
    (h2 : Compress g1 g2) : Compress g g2 := by
  refine ⟨h2.size.trans h1.size, h2.names.trans h1.names, h2.ranks.trans h1.ranks,
    h2.map.trans h1.map, ?_⟩
  intro y
  rcases h2.parent y with h | h
  · rw [h]; exact h1.parent y
  · right; rw [h, compress_root hf h1]

theorem findAux_spec {g : Graph} (hf : Forest g) :
    ∀ (fuel x : Nat),
      (∃ k, k < fuel ∧ parentOf g ((parentOf g)^[k] x) = (parentOf g)^[k] x) →
      ∃ g1, findAux fuel g x = some (g1, root g x) ∧ Compress g g1 := by
  intro fuel
  induction fuel with
  | zero => rintro x ⟨k, hk, _⟩; omega
  | succ fuel ih =>
    rintro x ⟨k, hk, hfix⟩
    unfold findAux
    by_cases hx : x = parentOf g x
    · refine ⟨g, ?_, compress_refl g⟩
      rw [if_neg (not_not.mpr hx), ← hx, root_of_self hx.symm]
    · rw [if_pos hx]
      have hk0 : k ≠ 0 := by
        rintro rfl
        exact hx hfix.symm
      obtain ⟨j, rfl⟩ := Nat.exists_eq_succ_of_ne_zero hk0
      obtain ⟨g1, hg1, hc⟩ := ih (parentOf g x) ⟨j, by omega, by
        rw [← Function.iterate_succ_apply]; exact hfix⟩
      rw [hg1]
      have hxl : x < size g1 := by
        rw [hc.size]; exact lt_of_parentOf_ne (fun e => hx e.symm)
      refine ⟨setParent g1 x (root g (parentOf g x)), ?_, ?_⟩
      · simp only [parentOf_setParent g1 x _ x hxl, if_true, root_parent hf]
      · refine ⟨(size_setParent _ _ _).trans hc.size, (nameOf_setParent _ _ _).trans hc.names,
          (rankOf_setParent _ _ _).trans hc.ranks, (vertex_map_setParent _ _ _).trans hc.map, ?_⟩
        intro y
        rw [parentOf_setParent g1 x _ y hxl]
        by_cases hy : y = x
        · subst hy; right; rw [if_pos rfl, root_parent hf]
        · rw [if_neg hy]; exact hc.parent y

/-- On a forest `find` returns the root and only compresses paths. -/
theorem find_spec {g : Graph} (hf : Forest g) {x : Nat} (hx : x < size g) :
    ∃ g1, find g x = some (g1, root g x) ∧ Compress g g1 :=
  findAux_spec hf _ x (exists_fixed hf.closed hf.acyclic hx)

/-! ## Linking two roots -/

theorem root_congr {g g1 : Graph} (hs : size g1 = size g) (hp : parentOf g1 = parentOf g) :
    root g1 = root g := by
  funext x; unfold root; rw [hs, hp]

theorem forest_congr {g g1 : Graph} (hs : size g1 = size g) (hp : parentOf g1 = parentOf g)
    (hf : Forest g) : Forest g1 := by
  refine ⟨?_, ?_⟩
  · rw [hs, hp]; exact hf.closed
  · rw [hp]; exact hf.acyclic

theorem link_spec {g g1 : Graph} (hf : Forest g) {a b : Nat} (ha : parentOf g a = a)
    (hb : parentOf g b = b) (hab : a ≠ b) (hbl : b < size g) (hs : size g1 = size g)
    (hp : ∀ y, parentOf g1 y = if y = a then b else parentOf g y) :
    Forest g1 ∧ (∀ y, root g1 y = if root g y = a then b else root g y) ∧
      (∀ y, parentOf g1 y = y ↔ (parentOf g y = y ∧ y ≠ a)) := by
  have hrb : root g b = b := root_of_self hb
  have hra : root g a = a := root_of_self ha
  have hF : Forest g1 := by
    refine ⟨?_, ?_⟩
    · intro i hi
      rw [hs] at hi ⊢
      rw [hp]
      by_cases h : i = a
      · rw [if_pos h]; exact hbl
      · rw [if_neg h]; exact hf.closed i hi
    · obtain ⟨d, hd⟩ := hf.acyclic
      refine ⟨fun y => if root g y = a then d y + d b + 1 else d y, ?_⟩
      intro i hi
      rw [hp] at hi ⊢
      by_cases h : i = a
      · subst h
        simp only [if_true, hrb, hra, if_neg (Ne.symm hab)]
        omega
      · rw [if_neg h] at hi ⊢
        simp only [root_parent hf]
        have := hd i hi
        by_cases h2 : root g i = a
        · simp only [if_pos h2]; omega
        · simp only [if_neg h2]; exact this
  refine ⟨hF, ?_, ?_⟩
  · intro y
    symm
    refine root_unique hF (fun y => if root g y = a then b else root g y) ?_ ?_ y
    · intro x
      simp only
      rw [hp]
      by_cases h : x = a
      · subst h
        simp only [if_true, hrb, hra, if_neg (Ne.symm hab)]
      · rw [if_neg h, root_parent hf]
    · intro x hx
      simp only
      rw [hp] at hx
      by_cases h : x = a
      · subst h
        rw [if_pos rfl] at hx
        exact absurd hx.symm hab
      · rw [if_neg h] at hx
        rw [root_of_self hx, if_neg h]
  · intro y
    rw [hp]
    by_cases h : y = a
    · subst h
      simp only [if_true]
      constructor
      · intro e; exact absurd e.symm hab
      · intro e; exact absurd rfl e.2
    · rw [if_neg h]
      exact ⟨fun e => ⟨e, h⟩, fun e => e.1⟩

/-- On a forest `merge` always returns, keeps a forest, and joins the two trees. -/
theorem merge_spec {g : Graph} (hf : Forest g) {u v : Nat} (hu : u < size g)
    (hv : v < size g) : ∃ g1, merge g u v = some g1 ∧ Merged g u v g1 := by
  obtain ⟨ga, hga, hca⟩ := find_spec hf hu
  have hfa := compress_forest hf hca
  obtain ⟨gb, hgb, hcb⟩ := find_spec hfa (x := v) (by rw [hca.size]; exact hv)
  have hc := compress_trans hf hca hcb
  have hfb := compress_forest hf hc
  have hroot := compress_root hf hc
  rw [compress_root hf hca] at hgb
  unfold merge
  rw [hga]; simp only
  rw [hgb]; simp only
  have hul : root g u < size gb := by rw [hc.size]; exact root_lt hf hu
  have hvl : root g v < size gb := by rw [hc.size]; exact root_lt hf hv
  have hur : parentOf gb (root g u) = root g u :=
    (compress_isRoot hf hc _).mpr (root_fixed hf u)
  have hvr : parentOf gb (root g v) = root g v :=
    (compress_isRoot hf hc _).mpr (root_fixed hf v)
  -- the graph after the pointer assignment, whatever happens to the ranks afterwards
  have key : ∀ (a b : Nat) (g3 g4 : Graph), g3 = setParent gb a b →
      ((a = root g u ∧ b = root g v) ∨ (a = root g v ∧ b = root g u)) →
      size g4 = size g3 → parentOf g4 = parentOf g3 → nameOf g4 = nameOf g3 →
      g4.vertex_map = g3.vertex_map → Merged g u v g4 := by
    intro a b g3 g4 hg3 hab hs4 hp4 hn4 hm4
    have hal : a < size gb := by rcases hab with ⟨h, _⟩ | ⟨h, _⟩ <;> rw [h] <;> assumption
    have hbl : b < size gb := by rcases hab with ⟨_, h⟩ | ⟨_, h⟩ <;> rw [h] <;> assumption
    have har : parentOf gb a = a := by rcases hab with ⟨h, _⟩ | ⟨h, _⟩ <;> rw [h] <;> assumption
    have hbr : parentOf gb b = b := by rcases hab with ⟨_, h⟩ | ⟨_, h⟩ <;> rw [h] <;> assumption
    have hs : size g4 = size gb := by rw [hs4, hg3, size_setParent]
    have hp : ∀ y, parentOf g4 y = if y = a then b else parentOf gb y := by
      intro y; rw [hp4, hg3, parentOf_setParent gb a b y hal]
    have hnames : nameOf g4 = nameOf g := by
      rw [hn4, hg3, nameOf_setParent, hc.names]
    have hmap : g4.vertex_map = g.vertex_map := by
      rw [hm4, hg3, vertex_map_setParent, hc.map]
    by_cases hne : a = b
    · -- both vertices already had the same root: the assignment changes nothing
      have hp0 : parentOf g4 = parentOf gb := by
        funext y
        rw [hp]
        by_cases h : y = a
        · rw [if_pos h, h, har, hne]
        · rw [if_neg h]
      have hsame : root g u = root g v := by
        rcases hab with ⟨h1, h2⟩ | ⟨h1, h2⟩
        · rw [← h1, ← h2, hne]
        · rw [← h1, ← h2, hne]
      refine ⟨hs.trans hc.size, hnames, hmap, forest_congr hs hp0 hfb, ?_, ?_⟩
      · intro h; exact absurd hsame h
      · intro _
        refine ⟨(root_congr hs hp0).trans hroot, ?_⟩
        intro y
        rw [hp0]
        exact compress_isRoot hf hc y
    · obtain ⟨hF, hr, hi⟩ := link_spec hfb har hbr hne hbl hs hp
      refine ⟨hs.trans hc.size, hnames, hmap, hF, ?_, ?_⟩
      · intro _
        refine ⟨a, b, hne, hab, ?_, ?_⟩
        · intro y; rw [hr y, hroot]
        · intro y; rw [hi y, compress_isRoot hf hc y]
      · intro hsame
        exfalso
        rcases hab with ⟨h1, h2⟩ | ⟨h1, h2⟩
        · exact hne (by rw [h1, h2, hsame])
        · exact hne (by rw [h1, h2, hsame])
  by_cases hrk : rankOf gb (root g u) > rankOf gb (root g v)
  · simp only [if_pos hrk]
    split
    · exact ⟨_, rfl, key (root g v) (root g u) _ _ rfl (Or.inr ⟨rfl, rfl⟩)
        (size_setRank _ _ _) (parentOf_setRank _ _ _) (nameOf_setRank _ _ _)
        (vertex_map_setRank _ _ _)⟩
    · exact ⟨_, rfl, key (root g v) (root g u) _ _ rfl (Or.inr ⟨rfl, rfl⟩) rfl rfl rfl rfl⟩
  · simp only [if_neg hrk]
    split
    · exact ⟨_, rfl, key (root g u) (root g v) _ _ rfl (Or.inl ⟨rfl, rfl⟩)
        (size_setRank _ _ _) (parentOf_setRank _ _ _) (nameOf_setRank _ _ _)
        (vertex_map_setRank _ _ _)⟩
    · exact ⟨_, rfl, key (root g u) (root g v) _ _ rfl (Or.inl ⟨rfl, rfl⟩) rfl rfl rfl rfl⟩

/-! ## Loading -/

theorem nameOf_eq (g : Graph) (i : Nat) : nameOf g i = ((names g)[i]?).getD 0 := by
  unfold nameOf names
  rw [List.getElem?_map]
  cases g.vertex_vector[i]? <;> rfl

theorem size_names (g : Graph) : (names g).length = size g := by
  unfold names size; simp

theorem nameOf_eq_getElem (g : Graph) (i : Nat) (h : i < (names g).length) :
    nameOf g i = (names g)[i] := by
  rw [nameOf_eq, List.getElem?_eq_getElem h]; rfl

theorem mem_names_iff (g : Graph) (v : Nat) :
    v ∈ names g ↔ ∃ i, i < size g ∧ nameOf g i = v := by
  rw [List.mem_iff_getElem]
  constructor
  · rintro ⟨i, hi, rfl⟩
    exact ⟨i, by rw [← size_names]; exact hi, nameOf_eq_getElem g i hi⟩
  · rintro ⟨i, hi, rfl⟩
    have hi2 : i < (names g).length := by rw [size_names]; exact hi
    exact ⟨i, hi2, (nameOf_eq_getElem g i hi2).symm⟩

theorem names_inj {g : Graph} (hn : (names g).Nodup) {i j : Nat} (hi : i < size g)
    (hj : j < size g) (h : nameOf g i = nameOf g j) : i = j := by
  have hi2 : i < (names g).length := by rw [size_names]; exact hi
  have hj2 : j < (names g).length := by rw [size_names]; exact hj
  rw [nameOf_eq_getElem g i hi2, nameOf_eq_getElem g j hj2] at h
  exact (List.Nodup.getElem_inj_iff hn).mp h

theorem loaded_empty : Loaded Graph.empty := by
  refine ⟨List.nodup_nil, ?_, ?_, ?_, ?_, ?_⟩
  · intro i hi; exact absurd hi (Nat.not_lt_zero i)
  · intro k i
    constructor
    · intro h; exact Option.noConfusion h
    · rintro ⟨h, _⟩; exact absurd h (Nat.not_lt_zero i)
  · intro k h; exact Option.noConfusion h
  · intro i; rfl
  · intro i; rfl

/-- On a loaded store the loop body leaves a known label alone and appends a fresh vertex
for a new one. -/
theorem loadLabel_eq {g : Graph} (hl : Loaded g) (v : Nat) :
    loadLabel g v =
      if v ∈ names g then g
      else ⟨fun k => if k = v then some (some (size g)) else g.vertex_map k,
            g.vertex_vector ++ [⟨v, 0, size g⟩]⟩ := by
  unfold loadLabel mapIndex
  cases hm : g.vertex_map v with
  | none =>
    have hnot : v ∉ names g := by
      intro hmem
      obtain ⟨i, hi, hiv⟩ := (mem_names_iff g v).mp hmem
      have := (hl.look v i).mpr ⟨hi, hiv⟩
      unfold lookup at this
      rw [hm] at this
      exact Option.noConfusion this
    rw [if_neg hnot]
    simp only
    congr 1
    funext k
    unfold mapAssign
    by_cases hk : k = v
    · simp [hk, size]
    · simp [hk]
  | some q =>
    cases q with
    | none => exact absurd hm (hl.nonull v)
    | some i =>
      have hlook : lookup g v = some i := by unfold lookup; rw [hm]
      have hmem : v ∈ names g := by
        obtain ⟨h1, h2⟩ := (hl.look v i).mp hlook
        exact (mem_names_iff g v).mpr ⟨i, h1, h2⟩
      rw [if_pos hmem]

theorem loadLabel_names {g : Graph} (hl : Loaded g) (v : Nat) :
    names (loadLabel g v) = if v ∈ names g then names g else names g ++ [v] := by
  rw [loadLabel_eq hl]
  by_cases h : v ∈ names g
  · simp only [if_pos h]
  · simp only [if_neg h]
    unfold names
    simp

theorem loadLabel_loaded {g : Graph} (hl : Loaded g) {v : Nat} (hv : v < 2 ^ NUM_BITS) :
    Loaded (loadLabel g v) := by
  by_cases h : v ∈ names g
  · rw [loadLabel_eq hl, if_pos h]; exact hl
  · have hnames := loadLabel_names hl v
    rw [if_neg h] at hnames
    rw [loadLabel_eq hl, if_neg h] at hnames ⊢
    set g1 : Graph := ⟨fun k => if k = v then some (some (size g)) else g.vertex_map k,
            g.vertex_vector ++ [⟨v, 0, size g⟩]⟩ with hg1
    have hsize : size g1 = size g + 1 := by
      unfold size; simp [hg1]
    have hget : ∀ i, g1.vertex_vector[i]? =
        if i < size g then g.vertex_vector[i]? else
          if i = size g then some ⟨v, 0, size g⟩ else none := by
      intro i
      simp only [hg1, size]
      by_cases hi : i < g.vertex_vector.length
      · rw [if_pos hi, List.getElem?_append_left hi]
      · rw [if_neg hi, List.getElem?_append_right (Nat.le_of_not_lt hi)]
        by_cases hi2 : i = g.vertex_vector.length
        · simp [hi2]
        · rw [if_neg hi2]
          have : i - g.vertex_vector.length ≠ 0 := by omega
          obtain ⟨j, hj⟩ := Nat.exists_eq_succ_of_ne_zero this
          rw [hj]; rfl
    have hname : ∀ i, nameOf g1 i = if i < size g then nameOf g i else
        if i = size g then v else 0 := by
      intro i
      unfold nameOf
      rw [hget]
      by_cases hi : i < size g
      · simp only [if_pos hi]
      · simp only [if_neg hi]
        by_cases hi2 : i = size g
        · simp only [if_pos hi2]
        · simp only [if_neg hi2]
    refine ⟨?_, ?_, ?_, ?_, ?_, ?_⟩
    · rw [hnames]
      refine List.Nodup.append hl.nodup (List.nodup_singleton v) ?_
      intro a ha hb
      rw [List.mem_singleton] at hb
      exact h (hb ▸ ha)
    · intro i hi
      rw [hname]
      by_cases hi1 : i < size g
      · rw [if_pos hi1]; exact hl.bound i hi1
      · rw [if_neg hi1, if_pos (by omega)]; exact hv
    · intro k i
      rw [hsize, hname]
      unfold lookup
      simp only [hg1]
      by_cases hk : k = v
      · subst hk
        simp only [if_true]
        constructor
        · intro e
          have : size g = i := Option.some.inj e
          subst this
          simp
        · rintro ⟨h1, h2⟩
          by_cases hi1 : i < size g
          · rw [if_pos hi1] at h2
            exact absurd ((mem_names_iff g k).mpr ⟨i, hi1, h2⟩) h
          · have : i = size g := by omega
            rw [this]
      · simp only [if_neg hk]
        have := hl.look k i
        unfold lookup at this
        rw [this]
        constructor
        · rintro ⟨h1, h2⟩
          exact ⟨by omega, by rw [if_pos h1]; exact h2⟩
        · rintro ⟨h1, h2⟩
          by_cases hi1 : i < size g
          · rw [if_pos hi1] at h2; exact ⟨hi1, h2⟩
          · rw [if_neg hi1, if_pos (by omega)] at h2
            exact absurd h2.symm hk
    · intro k
      simp only [hg1]
      by_cases hk : k = v
      · simp [hk]
      · simp only [if_neg hk]; exact hl.nonull k
    · intro i
      unfold parentOf
      rw [hget]
      by_cases hi : i < size g
      · simp only [if_pos hi]; exact hl.self i
      · simp only [if_neg hi]
        by_cases hi2 : i = size g
        · simp only [if_pos hi2]; exact hi2.symm
        · simp only [if_neg hi2]
    · intro i
      unfold rankOf
      rw [hget]
      by_cases hi : i < size g
      · simp only [if_pos hi]; exact hl.rank0 i
      · simp only [if_neg hi]
        by_cases hi2 : i = size g
        · simp only [if_pos hi2]
        · simp only [if_neg hi2]

theorem loadLabels_loaded (labels : List Nat) :
    ∀ {g : Graph}, Loaded g → (∀ v ∈ labels, v < 2 ^ NUM_BITS) →
      Loaded (loadLabels g labels) := by
  induction labels with
  | nil => intro g hl _; exact hl
  | cons v vs ih =>
    intro g hl hb
    unfold loadLabels
    rw [List.foldl_cons]
    exact ih (loadLabel_loaded hl (hb v (List.mem_cons_self v vs)))
      (fun w hw => hb w (List.mem_cons_of_mem v hw))

theorem loadLabels_names (labels : List Nat) :
    ∀ {g : Graph}, Loaded g → (∀ v ∈ labels, v < 2 ^ NUM_BITS) →
      names (loadLabels g labels) =
        names g ++ (distinctInOrder labels).filter (fun y => y ∉ names g) := by
  induction labels with
  | nil => intro g _ _; simp [loadLabels, distinctInOrder]
  | cons v vs ih =>
    intro g hl hb
    have hl1 := loadLabel_loaded hl (hb v (List.mem_cons_self v vs))
    have h1 := ih hl1 (fun w hw => hb w (List.mem_cons_of_mem v hw))
    have h2 := loadLabel_names hl v
    have hd : distinctInOrder (v :: vs) = v :: (distinctInOrder vs).filter (fun y => y ≠ v) :=
      rfl
    show names (loadLabels (loadLabel g v) vs) = _
    rw [h1, h2, hd]
    by_cases h : v ∈ names g
    · rw [if_pos h, List.filter_cons, if_neg (by simpa using h), List.filter_filter]
      congr 1
      apply List.filter_congr
      intro x _
      by_cases hx : x ∈ names g
      · simp [hx]
      · have : x ≠ v := fun e => hx (e ▸ h)
        simp [hx, this]
    · rw [if_neg h, List.filter_cons, if_pos (by simpa using h), List.filter_filter,
        List.append_assoc, List.singleton_append]
      congr 2
      apply List.filter_congr
      intro x _
      by_cases hx : x ∈ names g
      · simp [hx]
      · by_cases hxv : x = v
        · simp [hx, hxv]
        · simp [hx, hxv]

theorem loaded_forest {g : Graph} (hl : Loaded g) : Forest g := by
  refine ⟨?_, ⟨fun _ => 0, ?_⟩⟩
  · intro i hi; rw [hl.self]; exact hi
  · intro i hi; exact absurd (hl.self i) hi

theorem bits_foldl_lt (cs : List Char) :
    ∀ (acc k : Nat), acc < 2 ^ k →
      cs.foldl (fun acc c => 2 * acc + (if c == '1' then 1 else 0)) acc < 2 ^ (k + cs.length) := by
  induction cs with
  | nil => intro acc k h; simpa using h
  | cons c cs ih =>
    intro acc k h
    rw [List.foldl_cons, List.length_cons, ← Nat.add_assoc, Nat.add_right_comm]
    apply ih
    have : (if (c == '1') = true then 1 else 0) ≤ 1 := by split <;> omega
    rw [Nat.pow_succ]
    omega

theorem bitsetOfString_valid {line : String} (h : ValidLine line) :
    bitsetOfString (line.data.filter (fun c => c != ' ')) = some (lineLabel line) ∧
      lineLabel line < 2 ^ NUM_BITS := by
  obtain ⟨hlen, hch⟩ := h
  have hall : ((line.data.filter (fun c => c != ' ')).take NUM_BITS).all
      (fun c => c == '0' || c == '1') = true := by
    rw [List.all_eq_true]
    intro c hc
    rcases hch c (List.mem_of_mem_take hc) with e | e <;> simp [e]
  have hval : bitsetOfString (line.data.filter (fun c => c != ' ')) =
      some (((line.data.filter (fun c => c != ' ')).take NUM_BITS).foldl
        (fun acc c => 2 * acc + (if c == '1' then 1 else 0)) 0) := by
    unfold bitsetOfString
    rw [if_pos hall]
  refine ⟨?_, ?_⟩
  · unfold lineLabel
    rw [hval]; rfl
  · unfold lineLabel
    rw [hval]
    simp only [Option.getD_some]
    have := bits_foldl_lt ((line.data.filter (fun c => c != ' ')).take NUM_BITS) 0 0
      (by decide)
    rw [List.length_take, hlen] at this
    simpa using this

theorem loadLines_valid (lines : List String) :
    ∀ (g : Graph), (∀ l ∈ lines, ValidLine l) →
      loadLines lines g = some (loadLabels g (lines.map lineLabel)) := by
  induction lines with
  | nil => intro g _; rfl
  | cons l ls ih =>
    intro g h
    unfold loadLines
    rw [(bitsetOfString_valid (h l (List.mem_cons_self l ls))).1]
    simp only
    rw [ih _ (fun w hw => h w (List.mem_cons_of_mem l hw))]
    rfl

theorem mem_distinctInOrder (l : List Nat) (v : Nat) : v ∈ distinctInOrder l ↔ v ∈ l := by
  induction l with
  | nil => simp [distinctInOrder]
  | cons x xs ih =>
    unfold distinctInOrder
    simp only [List.mem_cons, List.mem_filter, ih, decide_eq_true_eq]
    by_cases h : v = x
    · simp [h]
    · simp [h]

theorem loadLabels_empty_names (labels : List Nat) (h : ∀ v ∈ labels, v < 2 ^ NUM_BITS) :
    names (loadLabels Graph.empty labels) = distinctInOrder labels := by
  rw [loadLabels_names labels loaded_empty h]
  have : names Graph.empty = [] := rfl
  rw [this]
  simp

theorem reachable_forest {g : Graph} (h : Reachable g) : Forest g := by
  induction h with
  | load labels hb => exact loaded_forest (loadLabels_loaded labels loaded_empty hb)
  | find g x g1 r _ hx hfind ih =>
    obtain ⟨g2, h2, hc⟩ := find_spec ih hx
    rw [hfind] at h2
    have : g1 = g2 := congrArg Prod.fst (Option.some.inj h2)
    rw [this]; exact compress_forest ih hc
  | merge g u v g1 _ hu hv hm ih =>
    obtain ⟨g2, h2, hmg⟩ := merge_spec ih hu hv
    rw [hm] at h2
    rw [Option.some.inj h2]; exact hmg.forest

/-! ## Hamming distance and bit flips -/

theorem testBit_flip (x i k : Nat) :
    (flip x i).testBit k = (x.testBit k ^^ decide (i = k)) := by
  unfold flip
  rw [Nat.testBit_xor, Nat.testBit_two_pow]

theorem testBit_of_bound {x k : Nat} (hx : x < 2 ^ NUM_BITS) (hk : NUM_BITS ≤ k) :
    x.testBit k = false :=
  Nat.testBit_lt_two_pow (lt_of_lt_of_le hx (Nat.pow_le_pow_right (by decide) hk))

theorem flip_lt {x i : Nat} (hx : x < 2 ^ NUM_BITS) (hi : i < NUM_BITS) :
    flip x i < 2 ^ NUM_BITS :=
  Nat.xor_lt_two_pow hx (Nat.pow_lt_pow_right (by decide) hi)

theorem hamming_comm (x y : Nat) : hamming x y = hamming y x := by
  unfold hamming
  apply List.countP_congr
  intro k _
  cases x.testBit k <;> cases y.testBit k <;> simp

set_option maxRecDepth 100000 in
theorem count_one_flip : ∀ i, i < 24 →
    (List.range 24).countP (fun k => decide (i = k)) = 1 := by decide

set_option maxRecDepth 100000 in
theorem count_two_flips : ∀ i, i < 24 → ∀ j, j < 24 → i < j →
    (List.range 24).countP (fun k => decide (i = k) ^^ decide (j = k)) = 2 := by decide

theorem hamming_flip (x : Nat) {i : Nat} (hi : i < NUM_BITS) : hamming x (flip x i) = 1 := by
  unfold hamming
  rw [← count_one_flip i hi]
  apply List.countP_congr
  intro k _
  rw [testBit_flip]
  cases x.testBit k <;> cases decide (i = k) <;> simp

theorem hamming_flip_flip (x : Nat) {i j : Nat} (hij : i < j) (hj : j < NUM_BITS) :
    hamming x (flip (flip x i) j) = 2 := by
  unfold hamming
  rw [← count_two_flips i (lt_trans hij hj) j hj hij]
  apply List.countP_congr
  intro k _
  rw [testBit_flip, testBit_flip]
  cases x.testBit k <;> cases decide (i = k) <;> cases decide (j = k) <;> simp

theorem hamming_filter (x y : Nat) :
    hamming x y = ((List.range NUM_BITS).filter (fun i => x.testBit i != y.testBit i)).length := by
  unfold hamming
  rw [List.countP_eq_length_filter]

theorem eq_of_hamming_zero {x y : Nat} (hx : x < 2 ^ NUM_BITS) (hy : y < 2 ^ NUM_BITS)
    (h : hamming x y = 0) : x = y := by
  rw [hamming_filter, List.length_eq_zero, List.filter_eq_nil_iff] at h
  apply Nat.eq_of_testBit_eq
  intro k
  rcases Nat.lt_or_ge k NUM_BITS with hk | hk
  · have := h k (List.mem_range.mpr hk)
    simpa using this
  · rw [testBit_of_bound hx hk, testBit_of_bound hy hk]

theorem flip_of_hamming_one {x y : Nat} (hx : x < 2 ^ NUM_BITS) (hy : y < 2 ^ NUM_BITS)
    (h : hamming x y = 1) : ∃ i, i < NUM_BITS ∧ y = flip x i := by
  rw [hamming_filter, List.length_eq_one] at h
  obtain ⟨i, hi⟩ := h
  have hmem : ∀ k, (k < NUM_BITS ∧ (x.testBit k != y.testBit k) = true) ↔ k = i := by
    intro k
    have := @List.mem_filter _ (fun k => x.testBit k != y.testBit k) (List.range NUM_BITS) k
    rw [hi, List.mem_singleton, List.mem_range] at this
    exact this.symm
  have hi1 := (hmem i).mpr rfl
  refine ⟨i, hi1.1, ?_⟩
  apply Nat.eq_of_testBit_eq
  intro k
  rw [testBit_flip]
  rcases Nat.lt_or_ge k NUM_BITS with hk | hk
  · by_cases hki : k = i
    · subst hki
      have := hi1.2
      revert this
      cases x.testBit k <;> cases y.testBit k <;> simp
    · have h1 : ¬ (x.testBit k != y.testBit k) = true := fun e => hki ((hmem k).mp ⟨hk, e⟩)
      have h2 : decide (i = k) = false := decide_eq_false (fun e => hki e.symm)
      rw [h2]
      revert h1
      cases x.testBit k <;> cases y.testBit k <;> simp
  · have h2 : decide (i = k) = false := decide_eq_false (by omega)
    rw [testBit_of_bound hx hk, testBit_of_bound hy hk, h2]; rfl

theorem flips_of_hamming_two {x y : Nat} (hx : x < 2 ^ NUM_BITS) (hy : y < 2 ^ NUM_BITS)
    (h : hamming x y = 2) : ∃ i j, i < j ∧ j < NUM_BITS ∧ y = flip (flip x i) j := by
  rw [hamming_filter, List.length_eq_two] at h
  obtain ⟨i, j, hij⟩ := h
  have hmem : ∀ k, (k < NUM_BITS ∧ (x.testBit k != y.testBit k) = true) ↔ k = i ∨ k = j := by
    intro k
    have := @List.mem_filter _ (fun k => x.testBit k != y.testBit k) (List.range NUM_BITS) k
    rw [hij, List.mem_range] at this
    rw [← this]
    simp
  have hpw := List.Pairwise.filter (fun k => x.testBit k != y.testBit k)
    (List.pairwise_lt_range NUM_BITS)
  rw [hij] at hpw
  have hlt : i < j := by
    rw [List.pairwise_cons] at hpw
    exact hpw.1 j (List.mem_singleton_self j)
  have hi1 := (hmem i).mpr (Or.inl rfl)
  have hj1 := (hmem j).mpr (Or.inr rfl)
  refine ⟨i, j, hlt, hj1.1, ?_⟩
  apply Nat.eq_of_testBit_eq
  intro k
  rw [testBit_flip, testBit_flip]
  rcases Nat.lt_or_ge k NUM_BITS with hk | hk
  · by_cases hki : k = i
    · subst hki
      have h2 : decide (j = k) = false := decide_eq_false (by omega)
      have := hi1.2
      rw [h2]
      revert this
      cases x.testBit k <;> cases y.testBit k <;> simp
    · by_cases hkj : k = j
      · subst hkj
        have h2 : decide (i = k) = false := decide_eq_false (by omega)
        have := hj1.2
        rw [h2]
        revert this
        cases x.testBit k <;> cases y.testBit k <;> simp
      · have h1 : ¬ (x.testBit k != y.testBit k) = true := by
          intro e
          rcases (hmem k).mp ⟨hk, e⟩ with e1 | e1
          · exact hki e1
          · exact hkj e1
        have h2 : decide (i = k) = false := decide_eq_false (fun e => hki e.symm)
        have h3 : decide (j = k) = false := decide_eq_false (fun e => hkj e.symm)
        rw [h2, h3]
        revert h1
        cases x.testBit k <;> cases y.testBit k <;> simp
  · have h2 : decide (i = k) = false := decide_eq_false (by omega)
    have h3 : decide (j = k) = false := decide_eq_false (by omega)
    rw [testBit_of_bound hx hk, testBit_of_bound hy hk, h2, h3]; rfl

/-! ## Loops over a state that may fail -/

theorem foldlM_inv {σ α : Type} (f : σ → α → Option σ) (I : σ → Prop) (R : σ → σ → Prop)
    (Q : α → σ → Prop) (hrefl : ∀ s, R s s) (htrans : ∀ a b c, R a b → R b c → R a c)
    (hQ : ∀ a s s1, Q a s → R s s1 → Q a s1) (l : List α) :
    (∀ s a, a ∈ l → I s → ∃ s1, f s a = some s1 ∧ I s1 ∧ R s s1 ∧ Q a s1) →
    ∀ s, I s → ∃ s1, l.foldlM f s = some s1 ∧ I s1 ∧ R s s1 ∧ ∀ a ∈ l, Q a s1 := by
  induction l with
  | nil =>
    intro _ s hs
    exact ⟨s, rfl, hs, hrefl s, fun a ha => absurd ha (List.not_mem_nil a)⟩
  | cons a l ih =>
    intro hstep s hs
    obtain ⟨s1, h1, hI1, hR1, hQ1⟩ := hstep s a (List.mem_cons_self a l) hs
    obtain ⟨s2, h2, hI2, hR2, hQ2⟩ :=
      ih (fun s b hb => hstep s b (List.mem_cons_of_mem a hb)) s1 hI1
    refine ⟨s2, ?_, hI2, htrans _ _ _ hR1 hR2, ?_⟩
    · rw [List.foldlM_cons, h1]; exact h2
    · intro b hb
      rcases List.mem_cons.mp hb with e | e
      · rw [e]; exact hQ a s1 s2 hQ1 hR2
      · exact hQ2 b e

theorem keeps_refl (s : Graph × Nat) : Keeps s s := fun _ _ h => h

theorem keeps_trans (a b c : Graph × Nat) (h1 : Keeps a b) (h2 : Keeps b c) : Keeps a c :=
  fun x y h => h2 x y (h1 x y h)

/-! ## One candidate edge -/

theorem merged_numRoots {g g1 : Graph} {u v : Nat} (hf : Forest g) (hu : u < size g)
    (hv : v < size g) (hm : Merged g u v g1) (hne : root g u ≠ root g v) :
    numRoots g1 + 1 = numRoots g := by
  obtain ⟨a, b, _, hab, _, hroots⟩ := hm.diff hne
  have ha : a < size g ∧ parentOf g a = a := by
    rcases hab with ⟨h, _⟩ | ⟨h, _⟩
    · rw [h]; exact ⟨root_lt hf hu, root_fixed hf u⟩
    · rw [h]; exact ⟨root_lt hf hv, root_fixed hf v⟩
  have hmem : a ∈ (Finset.range (size g)).filter (fun i => parentOf g i = i) := by
    rw [Finset.mem_filter, Finset.mem_range]; exact ha
  have herase : (Finset.range (size g1)).filter (fun i => parentOf g1 i = i) =
      ((Finset.range (size g)).filter (fun i => parentOf g i = i)).erase a := by
    ext y
    rw [Finset.mem_erase, Finset.mem_filter, Finset.mem_filter, hm.size, hroots y]
    tauto
  unfold numRoots
  rw [herase, Finset.card_erase_of_mem hmem]
  have := Finset.card_pos.mpr ⟨a, hmem⟩
  omega

theorem merged_root_iff {g g1 : Graph} {u v : Nat} (hm : Merged g u v g1)
    (hne : root g u ≠ root g v) (x y : Nat) :
    root g1 x = root g1 y ↔ (root g x = root g y ∨
      (root g x = root g u ∧ root g y = root g v) ∨
      (root g x = root g v ∧ root g y = root g u)) := by
  obtain ⟨a, b, hne2, hab, hr, _⟩ := hm.diff hne
  rw [hr x, hr y]
  rcases hab with ⟨rfl, rfl⟩ | ⟨rfl, rfl⟩
  · by_cases hx : root g x = root g u <;> by_cases hy : root g y = root g u
    · rw [if_pos hx, if_pos hy]
      exact ⟨fun _ => Or.inl (hx.trans hy.symm), fun _ => rfl⟩
    · rw [if_pos hx, if_neg hy]
      constructor
      · intro e; right; left; exact ⟨hx, e.symm⟩
      · rintro (e | ⟨_, e⟩ | ⟨e, _⟩)
        · exact absurd (e.symm.trans hx) hy
        · exact e.symm
        · exact absurd (hx.symm.trans e) hne
    · rw [if_neg hx, if_pos hy]
      constructor
      · intro e; right; right; exact ⟨e, hy⟩
      · rintro (e | ⟨e, _⟩ | ⟨e, _⟩)
        · exact absurd (e.trans hy) hx
        · exact absurd e hx
        · exact e
    · rw [if_neg hx, if_neg hy]
      constructor
      · intro e; left; exact e
      · rintro (e | ⟨e, _⟩ | ⟨_, e⟩)
        · exact e
        · exact absurd e hx
        · exact absurd e hy
  · by_cases hx : root g x = root g v <;> by_cases hy : root g y = root g v
    · rw [if_pos hx, if_pos hy]
      exact ⟨fun _ => Or.inl (hx.trans hy.symm), fun _ => rfl⟩
    · rw [if_pos hx, if_neg hy]
      constructor
      · intro e; right; right; exact ⟨hx, e.symm⟩
      · rintro (e | ⟨e, _⟩ | ⟨_, e⟩)
        · exact absurd (e.symm.trans hx) hy
        · exact absurd (e.symm.trans hx) hne
        · exact e.symm
    · rw [if_neg hx, if_pos hy]
      constructor
      · intro e; right; left; exact ⟨e, hy⟩
      · rintro (e | ⟨e, _⟩ | ⟨e, _⟩)
        · exact absurd (e.trans hy) hx
        · exact e
        · exact absurd e hx
    · rw [if_neg hx, if_neg hy]
      constructor
      · intro e; left; exact e
      · rintro (e | ⟨_, e⟩ | ⟨e, _⟩)
        · exact e
        · exact absurd e hy
        · exact absurd e hx

theorem cinv_of_vector_eq {g0 g : Graph} (g1 : Graph) {t : Nat} (hi : CInv g0 (g, t))
    (hv : g1.vertex_vector = g.vertex_vector) (hl : lookup g1 = lookup g) :
    CInv g0 (g1, t) ∧ Keeps (g, t) (g1, t) := by
  have hs : size g1 = size g := by unfold size; rw [hv]
  have hp : parentOf g1 = parentOf g := by funext i; unfold parentOf; rw [hv]
  have hn : nameOf g1 = nameOf g := by funext i; unfold nameOf; rw [hv]
  have hr : root g1 = root g := root_congr hs hp
  have hnr : numRoots g1 = numRoots g := by unfold numRoots; rw [hs, hp]
  refine ⟨⟨hs.trans hi.len, hn.trans hi.names, hl.trans hi.look,
    forest_congr hs hp hi.forest, ?_, ?_⟩, ?_⟩
  · show numRoots g1 + t = size g0
    rw [hnr]; exact hi.count
  · intro x y hx hy h
    apply hi.sound x y hx hy
    show root g x = root g y
    rw [← hr]; exact h
  · intro x y h
    show root g1 x = root g1 y
    rw [hr]; exact h

theorem cinv_of_compress {g0 g g1 : Graph} {t : Nat} (hi : CInv g0 (g, t))
    (hc : Compress g g1) : CInv g0 (g1, t) ∧ root g1 = root g := by
  have hf : Forest g := hi.forest
  have hr := compress_root hf hc
  refine ⟨⟨hc.size.trans hi.len, hc.names.trans hi.names,
    (lookup_congr hc.map).trans hi.look, compress_forest hf hc, ?_, ?_⟩, hr⟩
  · show numRoots g1 + t = size g0
    rw [compress_numRoots hf hc]; exact hi.count
  · intro x y hx hy h
    apply hi.sound x y hx hy
    show root g x = root g y
    rw [← hr]; exact h

theorem tryEdge_found {g : Graph} {t it current cv : Nat}
    (hm : g.vertex_map current = some (some cv)) :
    tryEdge it current (g, t) =
      match find g cv with
      | none => none
      | some (g1, currentParent) =>
        match find g1 it with
        | none => none
        | some (g2, itParent) =>
          if currentParent ≠ itParent then
            match merge g2 cv it with
            | none => none
            | some g3 => some (g3, (t + 1) % 2 ^ UINT_BITS)
          else some (g2, t) := by
  unfold tryEdge mapIndex
  simp only [hm]

theorem tryEdge_null {g : Graph} {t it current : Nat}
    (hm : g.vertex_map current = some none) :
    tryEdge it current (g, t) = some (g, t) := by
  unfold tryEdge mapIndex
  simp only [hm]

theorem tryEdge_absent {g : Graph} {t it current : Nat}
    (hm : g.vertex_map current = none) :
    tryEdge it current (g, t) =
      some (⟨fun k => if k = current then some none else g.vertex_map k, g.vertex_vector⟩, t) := by
  unfold tryEdge mapIndex
  simp only [hm]

theorem adj_symm {g : Graph} {i j : Nat} (h : Adj g i j) : Adj g j i :=
  ⟨h.2.1, h.1, by rw [hamming_comm]; exact h.2.2⟩

/-- One pass through the body of either loop of `cluster`. -/
theorem tryEdge_spec {g0 : Graph} (hl : Loaded g0) (hsz : size g0 < 2 ^ UINT_BITS)
    {st : Graph × Nat} (hi : CInv g0 st) {it current : Nat} (hit : it < size g0)
    (hadj : ∀ cv, lookup g0 current = some cv →
      hamming (nameOf g0 cv) (nameOf g0 it) ≤ 2) :
    ∃ st1, tryEdge it current st = some st1 ∧ CInv g0 st1 ∧ Keeps st st1 ∧
      ∀ cv, lookup g0 current = some cv → root st1.1 cv = root st1.1 it := by
  obtain ⟨g, t⟩ := st
  have hlook : lookup g current = lookup g0 current := by rw [hi.look]
  cases hm : g.vertex_map current with
  | none =>
    have hnone : lookup g0 current = none := by
      rw [← hlook]; unfold lookup; rw [hm]
    obtain ⟨h1, h2⟩ := cinv_of_vector_eq
      ⟨fun k => if k = current then some none else g.vertex_map k, g.vertex_vector⟩
      hi rfl (by
        funext k
        unfold lookup
        by_cases hk : k = current
        · simp [hk, hm]
        · simp [hk])
    refine ⟨_, tryEdge_absent hm, h1, h2, ?_⟩
    intro cv hcv
    rw [hnone] at hcv
    exact Option.noConfusion hcv
  | some q =>
    cases q with
    | none =>
      have hnone : lookup g0 current = none := by
        rw [← hlook]; unfold lookup; rw [hm]
      refine ⟨_, tryEdge_null hm, hi, keeps_refl _, ?_⟩
      intro cv hcv
      rw [hnone] at hcv
      exact Option.noConfusion hcv
    | some cv =>
      have hsome : lookup g0 current = some cv := by
        rw [← hlook]; unfold lookup; rw [hm]
      obtain ⟨hcv, hname⟩ := (hl.look current cv).mp hsome
      have hf : Forest g := hi.forest
      have hsg : size g = size g0 := hi.len
      obtain ⟨g1, hg1, hc1⟩ := find_spec hf (x := cv) (by rw [hsg]; exact hcv)
      obtain ⟨hi1, hr1⟩ := cinv_of_compress hi hc1
      have hf1 : Forest g1 := hi1.forest
      have hsg1 : size g1 = size g0 := hi1.len
      obtain ⟨g2, hg2, hc2⟩ := find_spec hf1 (x := it) (by rw [hsg1]; exact hit)
      obtain ⟨hi2, hr2⟩ := cinv_of_compress hi1 hc2
      have hf2 : Forest g2 := hi2.forest
      have hsg2 : size g2 = size g0 := hi2.len
      have hr : root g2 = root g := hr2.trans hr1
      rw [tryEdge_found hm, hg1]
      simp only
      rw [hg2]
      simp only
      rw [hr1]
      by_cases hne : root g cv = root g it
      · rw [if_neg (not_not.mpr hne)]
        refine ⟨_, rfl, hi2, ?_, ?_⟩
        · intro x y h
          show root g2 x = root g2 y
          rw [hr]; exact h
        · intro cv1 hcv1
          rw [hsome] at hcv1
          have : cv = cv1 := Option.some.inj hcv1
          subst this
          show root g2 cv = root g2 it
          rw [hr]; exact hne
      · rw [if_pos hne]
        obtain ⟨g3, hg3, hm3⟩ := merge_spec hf2 (u := cv) (v := it)
          (by rw [hsg2]; exact hcv) (by rw [hsg2]; exact hit)
        have hne2 : root g2 cv ≠ root g2 it := by rw [hr]; exact hne
        have hiff := merged_root_iff hm3 hne2
        have hnum := merged_numRoots hf2 (by rw [hsg2]; exact hcv) (by rw [hsg2]; exact hit)
          hm3 hne2
        have hcount : numRoots g2 + t = size g0 := hi2.count
        have hedge : Adj g0 cv it := ⟨hcv, hit, hadj cv hsome⟩
        rw [hg3]
        simp only
        have ht : (t + 1) % 2 ^ UINT_BITS = t + 1 := by
          apply Nat.mod_eq_of_lt
          omega
        rw [ht]
        refine ⟨_, rfl, ⟨hm3.size.trans hsg2, hm3.names.trans hi2.names,
          (lookup_congr hm3.map).trans hi2.look, hm3.forest, ?_, ?_⟩, ?_, ?_⟩
        · show numRoots g3 + (t + 1) = size g0
          omega
        · intro x y hx hy h
          have h' : root g3 x = root g3 y := h
          rcases (hiff x y).mp h' with e | ⟨e1, e2⟩ | ⟨e1, e2⟩
          · exact hi2.sound x y hx hy e
          · exact (hi2.sound x cv hx hcv e1).trans
              ((Relation.ReflTransGen.single hedge).trans (hi2.sound it y hit hy e2.symm))
          · exact (hi2.sound x it hx hit e1).trans
              ((Relation.ReflTransGen.single (adj_symm hedge)).trans
                (hi2.sound cv y hcv hy e2.symm))
        · intro x y h
          have h' : root g2 x = root g2 y := by rw [hr]; exact h
          exact (hiff x y).mpr (Or.inl h')
        · intro cv1 hcv1
          rw [hsome] at hcv1
          have : cv = cv1 := Option.some.inj hcv1
          subst this
          exact (hiff cv it).mpr (Or.inr (Or.inl ⟨rfl, rfl⟩))

/-! ## The two loops -/

theorem loaded_size_le {g : Graph} (hl : Loaded g) : size g ≤ 2 ^ NUM_BITS := by
  have hsub : (names g).toFinset ⊆ Finset.range (2 ^ NUM_BITS) := by
    intro v hv
    rw [List.mem_toFinset, mem_names_iff] at hv
    obtain ⟨i, hi, rfl⟩ := hv
    exact Finset.mem_range.mpr (hl.bound i hi)
  have := Finset.card_le_card hsub
  rw [List.toFinset_card_of_nodup hl.nodup, Finset.card_range, size_names] at this
  exact this

theorem loaded_size_lt {g : Graph} (hl : Loaded g) : size g < 2 ^ UINT_BITS :=
  lt_of_le_of_lt (loaded_size_le hl) (by decide)

theorem cinv_init {g0 : Graph} (hl : Loaded g0) : CInv g0 (g0, 0) := by
  refine ⟨rfl, rfl, rfl, loaded_forest hl, ?_, ?_⟩
  · show numRoots g0 + 0 = size g0
    unfold numRoots
    rw [Finset.filter_true_of_mem (fun i _ => hl.self i), Finset.card_range]
    rfl
  · intro x y _ _ h
    have h' : root g0 x = root g0 y := h
    rw [root_of_self (hl.self x), root_of_self (hl.self y)] at h'
    rw [h']
    exact Relation.ReflTransGen.refl

theorem phase1Vertex_spec {g0 : Graph} (hl : Loaded g0) {st : Graph × Nat}
    (hi : CInv g0 st) {it : Nat} (hit : it < size g0) :
    ∃ st1, phase1Vertex st it = some st1 ∧ CInv g0 st1 ∧ Keeps st st1 ∧
      ∀ i ∈ List.range NUM_BITS, ∀ cv,
        lookup g0 (flip (nameOf g0 it) i) = some cv → root st1.1 cv = root st1.1 it := by
  unfold phase1Vertex
  refine foldlM_inv _ (CInv g0) Keeps
    (fun i s => ∀ cv, lookup g0 (flip (nameOf g0 it) i) = some cv →
      root s.1 cv = root s.1 it) keeps_refl keeps_trans ?_ _ ?_ st hi
  · intro i s s1 hq hk cv hcv
    exact hk _ _ (hq cv hcv)
  · intro s i hmem hs
    have hn : nameOf s.1 it = nameOf g0 it := by rw [hs.names]
    simp only
    rw [hn]
    apply tryEdge_spec hl (loaded_size_lt hl) hs hit
    intro cv hcv
    obtain ⟨_, hname⟩ := (hl.look _ cv).mp hcv
    rw [hname, hamming_comm, hamming_flip _ (List.mem_range.mp hmem)]
    exact Nat.le_succ 1

theorem phase2Vertex_spec {g0 : Graph} (hl : Loaded g0) {st : Graph × Nat}
    (hi : CInv g0 st) {it : Nat} (hit : it < size g0) :
    ∃ st1, phase2Vertex st it = some st1 ∧ CInv g0 st1 ∧ Keeps st st1 ∧
      ∀ i ∈ List.range (NUM_BITS - 1), ∀ j ∈ List.range' (i + 1) (NUM_BITS - (i + 1)), ∀ cv,
        lookup g0 (flip (flip (nameOf g0 it) i) j) = some cv →
          root st1.1 cv = root st1.1 it := by
  unfold phase2Vertex
  refine foldlM_inv _ (CInv g0) Keeps
    (fun i s => ∀ j ∈ List.range' (i + 1) (NUM_BITS - (i + 1)), ∀ cv,
      lookup g0 (flip (flip (nameOf g0 it) i) j) = some cv →
        root s.1 cv = root s.1 it) keeps_refl keeps_trans ?_ _ ?_ st hi
  · intro i s s1 hq hk j hj cv hcv
    exact hk _ _ (hq j hj cv hcv)
  · intro s i hmem hs
    simp only
    refine foldlM_inv _ (CInv g0) Keeps
      (fun j s => ∀ cv, lookup g0 (flip (flip (nameOf g0 it) i) j) = some cv →
        root s.1 cv = root s.1 it) keeps_refl keeps_trans ?_ _ ?_ s hs
    · intro j s s1 hq hk cv hcv
      exact hk _ _ (hq cv hcv)
    · intro s2 j hj hs2
      have hn : nameOf s2.1 it = nameOf g0 it := by rw [hs2.names]
      simp only
      rw [hn]
      apply tryEdge_spec hl (loaded_size_lt hl) hs2 hit
      intro cv hcv
      obtain ⟨_, hname⟩ := (hl.look _ cv).mp hcv
      have hi1 : i < NUM_BITS - 1 := List.mem_range.mp hmem
      have hj1 := List.mem_range'_1.mp hj
      have hN : NUM_BITS = 24 := rfl
      rw [hname, hamming_comm, hamming_flip_flip _ (i := i) (j := j) (by omega) (by omega)]

/-- On a loaded graph `cluster` returns, and its final state has the stated properties. -/
theorem cluster_spec {g0 : Graph} (hl : Loaded g0) :
    ∃ g1 k, cluster g0 = some (g1, k) ∧ Clustered g0 g1 k := by
  -- first loop
  obtain ⟨s1, h1, hi1, _, hq1⟩ := foldlM_inv phase1Vertex (CInv g0) Keeps
    (fun it s => ∀ i ∈ List.range NUM_BITS, ∀ cv,
      lookup g0 (flip (nameOf g0 it) i) = some cv → root s.1 cv = root s.1 it)
    keeps_refl keeps_trans
    (fun it s s1 hq hk i hi cv hcv => hk _ _ (hq i hi cv hcv))
    (List.range (size g0))
    (fun s it hit hs => phase1Vertex_spec hl hs (List.mem_range.mp hit))
    (g0, 0) (cinv_init hl)
  -- second loop
  obtain ⟨s2, h2, hi2, hk2, hq2⟩ := foldlM_inv phase2Vertex (CInv g0) Keeps
    (fun it s => ∀ i ∈ List.range (NUM_BITS - 1),
      ∀ j ∈ List.range' (i + 1) (NUM_BITS - (i + 1)), ∀ cv,
        lookup g0 (flip (flip (nameOf g0 it) i) j) = some cv → root s.1 cv = root s.1 it)
    keeps_refl keeps_trans
    (fun it s s1 hq hk i hi j hj cv hcv => hk _ _ (hq i hi j hj cv hcv))
    (List.range (size g0))
    (fun s it hit hs => phase2Vertex_spec hl hs (List.mem_range.mp hit))
    s1 hi1
  have hlen1 : s1.1.vertex_vector.length = size g0 := hi1.len
  have hlen2 : s2.1.vertex_vector.length = size g0 := hi2.len
  have hcount := hi2.count
  have hlt := loaded_size_lt hl
  refine ⟨s2.1, numRoots s2.1, ?_, ⟨hi2.len, hi2.names, hi2.forest, rfl, hi2.sound, ?_⟩⟩
  · unfold cluster
    show (match (List.range (size g0)).foldlM phase1Vertex (g0, 0) with
      | none => none
      | some st1 =>
        match (List.range st1.1.vertex_vector.length).foldlM phase2Vertex st1 with
        | none => none
        | some st2 =>
          some (st2.1, (st2.1.vertex_vector.length + 2 ^ UINT_BITS - st2.2) % 2 ^ UINT_BITS))
      = _
    rw [h1]
    simp only
    rw [hlen1, h2]
    simp only
    rw [hlen2]
    congr 2
    have e : size g0 + 2 ^ UINT_BITS - s2.2 = numRoots s2.1 + 2 ^ UINT_BITS := by omega
    rw [e, Nat.add_mod_right]
    exact Nat.mod_eq_of_lt (by omega)
  · intro x y hx hy hd
    have hbx := hl.bound x hx
    have hby := hl.bound y hy
    have hyl : lookup g0 (nameOf g0 y) = some y := (hl.look _ y).mpr ⟨hy, rfl⟩
    rcases Nat.lt_or_ge (hamming (nameOf g0 x) (nameOf g0 y)) 1 with h0 | h0
    · have := eq_of_hamming_zero hbx hby (by omega)
      rw [names_inj hl.nodup hx hy this]
    · rcases Nat.lt_or_ge (hamming (nameOf g0 x) (nameOf g0 y)) 2 with h1' | h1'
      · obtain ⟨i, hi, he⟩ := flip_of_hamming_one hbx hby (by omega)
        rw [he] at hyl
        exact (hk2 _ _ (hq1 x (List.mem_range.mpr hx) i (List.mem_range.mpr hi) y hyl)).symm
      · obtain ⟨i, j, hij, hj, he⟩ := flips_of_hamming_two hbx hby (by omega)
        rw [he] at hyl
        have hN : NUM_BITS = 24 := rfl
        exact (hq2 x (List.mem_range.mpr hx) i (List.mem_range.mpr (by omega)) j
          (List.mem_range'_1.mpr (by omega)) y hyl).symm

/-! ## Consequences for the final partition -/

theorem findRep_eq {g : Graph} (hf : Forest g) {x : Nat} (hx : x < size g) :
    findRep g x = some (root g x) := by
  obtain ⟨g1, h1, _⟩ := find_spec hf hx
  unfold findRep
  rw [h1]; rfl

theorem roots_eq_image {g : Graph} (hf : Forest g) :
    (Finset.range (size g)).filter (fun i => parentOf g i = i) =
      (Finset.range (size g)).image (root g) := by
  ext r
  rw [Finset.mem_filter, Finset.mem_image]
  constructor
  · rintro ⟨hr, hp⟩
    exact ⟨r, hr, root_of_self hp⟩
  · rintro ⟨x, hx, rfl⟩
    rw [Finset.mem_range] at hx ⊢
    exact ⟨root_lt hf hx, root_fixed hf x⟩

theorem numRoots_eq_image {g : Graph} (hf : Forest g) :
    numRoots g = ((Finset.range (size g)).image (root g)).card := by
  unfold numRoots
  rw [roots_eq_image hf]

theorem numRoots_le (g : Graph) : numRoots g ≤ size g := by
  unfold numRoots
  have := Finset.card_filter_le (Finset.range (size g)) (fun i => parentOf g i = i)
  rw [Finset.card_range] at this
  exact this

theorem numRoots_pos {g : Graph} (hf : Forest g) (h : 0 < size g) : 0 < numRoots g := by
  unfold numRoots
  apply Finset.card_pos.mpr
  exact ⟨root g 0, by
    rw [Finset.mem_filter, Finset.mem_range]
    exact ⟨root_lt hf h, root_fixed hf 0⟩⟩

/-- A labelling that separates only vertices at distance at least 3 is constant on the
final clusters, so it has at most as many blocks as `cluster` returns. -/
theorem part_le {g0 g : Graph} {k : Nat} (hc : Clustered g0 g k) (c : Nat → Nat)
    (hsep : ∀ x y, x < size g0 → y < size g0 → c x ≠ c y →
      3 ≤ hamming (nameOf g0 x) (nameOf g0 y)) :
    ((Finset.range (size g0)).image c).card ≤ k := by
  have hadj : ∀ x y, Adj g0 x y → c x = c y := by
    rintro x y ⟨hx, hy, hd⟩
    by_contra hne
    have := hsep x y hx hy hne
    omega
  have hconn : ∀ x y, Conn g0 x y → c x = c y := by
    intro x y h
    induction h with
    | refl => rfl
    | tail _ hbc ih => exact ih.trans (hadj _ _ hbc)
  have hroot : ∀ x, x < size g0 → c x = c (root g x) := by
    intro x hx
    have hrl : root g x < size g0 := by
      rw [← hc.len]; exact root_lt hc.forest (by rw [hc.len]; exact hx)
    exact hconn x (root g x) (hc.sound x (root g x) hx hrl (root_root hc.forest x).symm)
  have hsub : (Finset.range (size g0)).image c ⊆
      ((Finset.range (size g)).filter (fun i => parentOf g i = i)).image c := by
    intro b hb
    rw [Finset.mem_image] at hb ⊢
    obtain ⟨x, hx, rfl⟩ := hb
    rw [Finset.mem_range] at hx
    refine ⟨root g x, ?_, (hroot x hx).symm⟩
    rw [Finset.mem_filter, Finset.mem_range]
    exact ⟨root_lt hc.forest (by rw [hc.len]; exact hx), root_fixed hc.forest x⟩
  calc ((Finset.range (size g0)).image c).card
      ≤ (((Finset.range (size g)).filter (fun i => parentOf g i = i)).image c).card :=
        Finset.card_le_card hsub
    _ ≤ ((Finset.range (size g)).filter (fun i => parentOf g i = i)).card :=
        Finset.card_image_le
    _ = k := hc.count.symm

/-- A connection is a path of vertices of the graph with consecutive labels at distance
at most 2. -/
theorem conn_path {g0 : Graph} {x y : Nat} (h : Conn g0 x y) (hx : x < size g0) :
    ∃ path : List Nat, path.head? = some x ∧ path.getLast? = some y ∧
      (∀ v ∈ path, v < size g0) ∧
      List.Chain' (fun a b => hamming (nameOf g0 a) (nameOf g0 b) ≤ 2) path := by
  revert hx
  refine Relation.ReflTransGen.head_induction_on
    (P := fun a _ => a < size g0 → ∃ path : List Nat, path.head? = some a ∧
      path.getLast? = some y ∧ (∀ v ∈ path, v < size g0) ∧
      List.Chain' (fun a b => hamming (nameOf g0 a) (nameOf g0 b) ≤ 2) path) h ?_ ?_
  · intro hy
    refine ⟨[y], rfl, rfl, ?_, List.chain'_singleton y⟩
    intro v hv
    rw [List.mem_singleton] at hv
    rw [hv]; exact hy
  · intro a c hac _ ih ha
    obtain ⟨path, hh, hlast, hmem, hch⟩ := ih hac.2.1
    cases path with
    | nil => exact Option.noConfusion hh
    | cons z zs =>
      have hz : z = c := Option.some.inj hh
      subst hz
      refine ⟨a :: z :: zs, rfl, ?_, ?_, ?_⟩
      · rw [List.getLast?_cons_cons]; exact hlast
      · intro v hv
        rcases List.mem_cons.mp hv with e | e
        · rw [e]; exact ha
        · exact hmem v e
      · refine List.Chain'.cons' hch ?_
        intro w hw
        have : z = w := Option.some.inj hw
        rw [← this]
        exact hac.2.2

/-- Two clustered graphs over the same set of labels: the first count is at most the
second. -/
theorem clustered_le {gA0 gA gB0 gB : Graph} {kA kB : Nat} (hlA : Loaded gA0)
    (hcA : Clustered gA0 gA kA) (hcB : Clustered gB0 gB kB)
    (hmem : ∀ v, v ∈ names gA0 ↔ v ∈ names gB0) : kA ≤ kB := by
  have hτ : ∀ j, j < size gB0 →
      (names gA0).indexOf (nameOf gB0 j) < size gA0 ∧
      nameOf gA0 ((names gA0).indexOf (nameOf gB0 j)) = nameOf gB0 j := by
    intro j hj
    have h1 : nameOf gB0 j ∈ names gA0 :=
      (hmem _).mpr ((mem_names_iff gB0 _).mpr ⟨j, hj, rfl⟩)
    have h2 := List.indexOf_lt_length.mpr h1
    refine ⟨by rw [← size_names]; exact h2, ?_⟩
    rw [nameOf_eq_getElem gA0 _ h2]
    exact List.getElem_indexOf h2
  have hle := part_le hcB (fun j => root gA ((names gA0).indexOf (nameOf gB0 j))) (by
    intro x y hx hy hne
    by_contra hlt
    apply hne
    obtain ⟨hx1, hx2⟩ := hτ x hx
    obtain ⟨hy1, hy2⟩ := hτ y hy
    apply hcA.complete _ _ hx1 hy1
    rw [hx2, hy2]
    omega)
  refine le_trans ?_ hle
  rw [hcA.count]
  unfold numRoots
  apply Finset.card_le_card
  intro r hr
  rw [Finset.mem_filter, Finset.mem_range, hcA.len] at hr
  obtain ⟨hr1, hr2⟩ := hr
  have h1 : nameOf gA0 r ∈ names gB0 :=
    (hmem _).mp ((mem_names_iff gA0 _).mpr ⟨r, hr1, rfl⟩)
  obtain ⟨j, hj, hjn⟩ := (mem_names_iff gB0 _).mp h1
  rw [Finset.mem_image]
  refine ⟨j, Finset.mem_range.mpr hj, ?_⟩
  have hr3 : r < (names gA0).length := by rw [size_names]; exact hr1
  have : (names gA0).indexOf (nameOf gB0 j) = r := by
    rw [hjn, nameOf_eq_getElem gA0 r hr3]
    exact List.indexOf_getElem hlA.nodup r hr3
  rw [this]
  exact root_of_self hr2

/-! ## Claims on loading and on `find` -/

/-- C6: for a file that holds only the header line, `loadFromFile` succeeds with zero
vertices and `cluster` then returns 0. -/
theorem empty_input_zero (header : String) :
    ∃ g, loadFromFile (some [header]) Graph.empty = some (true, g) ∧
      g.vertex_vector = [] ∧ (cluster g).map Prod.snd = some 0 :=
  ⟨Graph.empty, rfl, rfl, rfl⟩

theorem bits_foldl_eq (cs : List Char) :
    ∀ acc : Nat,
      cs.foldl (fun acc c => 2 * acc + (if c == '1' then 1 else 0)) acc =
        acc * 2 ^ cs.length +
          Nat.ofDigits 2 (cs.reverse.map (fun c => if c == '1' then 1 else 0)) := by
  induction cs with
  | nil => intro acc; simp
  | cons c cs ih =>
    intro acc
    rw [List.foldl_cons, ih, List.reverse_cons, List.map_append, Nat.ofDigits_append,
      List.map_singleton, Nat.ofDigits_singleton, List.length_map, List.length_reverse,
      List.length_cons, Nat.pow_succ]
    ring

theorem ofDigits_two_inj :
    ∀ (l1 l2 : List Nat), l1.length = l2.length → (∀ d ∈ l1, d < 2) → (∀ d ∈ l2, d < 2) →
      Nat.ofDigits 2 l1 = Nat.ofDigits 2 l2 → l1 = l2 := by
  intro l1
  induction l1 with
  | nil =>
    intro l2 hlen _ _ _
    cases l2 with
    | nil => rfl
    | cons b l2 => exact absurd hlen (by simp)
  | cons a l1 ih =>
    intro l2 hlen h1 h2 h
    cases l2 with
    | nil => exact absurd hlen (by simp)
    | cons b l2 =>
      rw [Nat.ofDigits_cons, Nat.ofDigits_cons] at h
      have ha := h1 a (List.mem_cons_self _ _)
      have hb := h2 b (List.mem_cons_self _ _)
      have hab : a = b := by omega
      have hrest : Nat.ofDigits 2 l1 = Nat.ofDigits 2 l2 := by omega
      rw [hab, ih l2 (by simpa using hlen) (fun d hd => h1 d (List.mem_cons_of_mem _ hd))
        (fun d hd => h2 d (List.mem_cons_of_mem _ hd)) hrest]

theorem digit_map_inj :
    ∀ (cs1 cs2 : List Char), (∀ c ∈ cs1, c = '0' ∨ c = '1') → (∀ c ∈ cs2, c = '0' ∨ c = '1') →
      cs1.map (fun c => if c == '1' then 1 else 0) =
        cs2.map (fun c => if c == '1' then 1 else 0) → cs1 = cs2 := by
  intro cs1
  induction cs1 with
  | nil =>
    intro cs2 _ _ h
    cases cs2 with
    | nil => rfl
    | cons b cs2 => exact absurd h (by simp)
  | cons a cs1 ih =>
    intro cs2 h1 h2 h
    cases cs2 with
    | nil => exact absurd h (by simp)
    | cons b cs2 =>
      rw [List.map_cons, List.map_cons] at h
      have hhead := (List.cons.inj h).1
      have htail := (List.cons.inj h).2
      have hab : a = b := by
        rcases h1 a (List.mem_cons_self _ _) with ea | ea <;>
          rcases h2 b (List.mem_cons_self _ _) with eb | eb <;>
          rw [ea, eb] at hhead ⊢ <;> first | rfl | exact absurd hhead (by decide)
      rw [hab, ih cs2 (fun c hc => h1 c (List.mem_cons_of_mem _ hc))
        (fun c hc => h2 c (List.mem_cons_of_mem _ hc)) htail]

/-- On a valid line the loader's label is the vector the digits denote. -/
theorem lineLabel_eq_lineVector {line : String} (h : ValidLine line) :
    lineLabel line = lineVector line := by
  have hv := (bitsetOfString_valid h).1
  obtain ⟨hlen, hch⟩ := h
  have hall : ((line.data.filter (fun c => c != ' ')).take NUM_BITS).all
      (fun c => c == '0' || c == '1') = true := by
    rw [List.all_eq_true]
    intro c hc
    rcases hch c (List.mem_of_mem_take hc) with e | e <;> simp [e]
  unfold bitsetOfString at hv
  rw [if_pos hall, List.take_of_length_le (le_of_eq hlen), bits_foldl_eq] at hv
  have := Option.some.inj hv
  rw [← this]
  unfold lineVector
  simp

/-- Valid lines that denote the same vector have the same digits. -/
theorem lineVector_inj {l1 l2 : String} (h1 : ValidLine l1) (h2 : ValidLine l2)
    (h : lineVector l1 = lineVector l2) :
    l1.data.filter (fun c => c != ' ') = l2.data.filter (fun c => c != ' ') := by
  unfold lineVector at h
  have hd : ∀ (cs : List Char), ∀ d ∈ cs.map (fun c => if c == '1' then 1 else 0), d < 2 := by
    intro cs d hd
    obtain ⟨c, _, rfl⟩ := List.mem_map.mp hd
    split <;> omega
  have hmap := ofDigits_two_inj _ _
    (by rw [List.length_map, List.length_map, List.length_reverse, List.length_reverse,
      h1.1, h2.1]) (hd _) (hd _) h
  have hrev := digit_map_inj _ _
    (fun c hc => h1.2 c (List.mem_reverse.mp hc))
    (fun c hc => h2.2 c (List.mem_reverse.mp hc)) hmap
  exact List.reverse_injective hrev

/-- C9: for valid input lines after the header, `loadFromFile` succeeds and the labels of
`vertex_vector` are the distinct vectors that the lines denote (`lineVector`: the binary
number written by the digits), each once, in order of first occurrence; lines with
different digits denote different vectors; every vertex has rank 0 and is its own
parent; loading a label that was already seen leaves `vertex_vector` as it is. -/
theorem loadFromFile_dedup (header : String) (lines : List String)
    (hv : ∀ l ∈ lines, ValidLine l) :
    ∃ g, loadFromFile (some (header :: lines)) Graph.empty = some (true, g) ∧
      names g = distinctInOrder (lines.map lineVector) ∧
      (names g).Nodup ∧
      (∀ v, v ∈ names g ↔ v ∈ lines.map lineVector) ∧
      (∀ l1 ∈ lines, ∀ l2 ∈ lines, lineVector l1 = lineVector l2 →
        l1.data.filter (fun c => c != ' ') = l2.data.filter (fun c => c != ' ')) ∧
      (∀ i, i < size g → rankOf g i = 0 ∧ parentOf g i = i) ∧
      (∀ v, v ∈ names g → (loadLabel g v).vertex_vector = g.vertex_vector) := by
  have hmap : lines.map lineLabel = lines.map lineVector :=
    List.map_congr_left (fun l hl => lineLabel_eq_lineVector (hv l hl))
  have hb : ∀ v ∈ lines.map lineLabel, v < 2 ^ NUM_BITS := by
    intro v hmem
    obtain ⟨l, hl, rfl⟩ := List.mem_map.mp hmem
    exact (bitsetOfString_valid (hv l hl)).2
  have hl := loadLabels_loaded (lines.map lineLabel) loaded_empty hb
  have hn : names (loadLabels Graph.empty (lines.map lineLabel)) =
      distinctInOrder (lines.map lineVector) := by
    rw [loadLabels_empty_names (lines.map lineLabel) hb, hmap]
  refine ⟨loadLabels Graph.empty (lines.map lineLabel), ?_, hn, hl.nodup, ?_, ?_, ?_, ?_⟩
  · unfold loadFromFile
    simp only [IfStream.open, IfStream.getline, IfStream.pending, Bool.false_eq_true,
      if_false]
    rw [loadLines_valid lines _ hv]
  · intro v; rw [hn]; exact mem_distinctInOrder _ v
  · intro l1 hl1 l2 hl2 h
    exact lineVector_inj (hv l1 hl1) (hv l2 hl2) h
  · intro i _; exact ⟨hl.rank0 i, hl.self i⟩
  · intro v hmem
    rw [loadLabel_eq hl, if_pos hmem]

/-- Witness for C9: the lines `0…0`, `0…0` written with blanks, and `0…0101` load as the
two vertices 0 and 5. -/
theorem loadFromFile_dedup_witness :
    (∀ l ∈ ["000000000000000000000000", "0000 0000 0000 0000 0000 0000",
      "000000000000000000000101"], ValidLine l) ∧
    ∃ g, loadFromFile (some ("3 24" :: ["000000000000000000000000",
        "0000 0000 0000 0000 0000 0000", "000000000000000000000101"])) Graph.empty
          = some (true, g) ∧
      names g = [0, 5] ∧
      (names g).Nodup ∧
      (∀ v, v ∈ names g ↔ v ∈ ["000000000000000000000000",
        "0000 0000 0000 0000 0000 0000", "000000000000000000000101"].map lineVector) ∧
      (∀ i, i < size g → rankOf g i = 0 ∧ parentOf g i = i) ∧
      (∀ v, v ∈ names g → (loadLabel g v).vertex_vector = g.vertex_vector) := by
  have h : ∀ l ∈ ["000000000000000000000000", "0000 0000 0000 0000 0000 0000",
      "000000000000000000000101"], ValidLine l := by
    intro l hl
    simp only [List.mem_cons, List.mem_singleton, List.not_mem_nil, or_false] at hl
    rcases hl with rfl | rfl | rfl
    · exact ⟨by decide, by decide⟩
    · exact ⟨by decide, by decide⟩
    · exact ⟨by decide, by decide⟩
  obtain ⟨g, h1, h2, h3, h4, _, h6, h7⟩ := loadFromFile_dedup "3 24" _ h
  have hval : distinctInOrder (["000000000000000000000000",
      "0000 0000 0000 0000 0000 0000", "000000000000000000000101"].map lineVector)
      = [0, 5] := by decide
  rw [hval] at h2
  exact ⟨h, g, h1, h2, h3, h4, h6, h7⟩

/-- The input of two equal vectors (the all-zero vector twice) loads as one vertex, and
`cluster` returns 1 for it. -/
theorem load_twice_one_cluster :
    ∃ g, loadFromFile (some ["2 24", "000000000000000000000000",
        "0000 0000 0000 0000 0000 0000"]) Graph.empty = some (true, g) ∧
      size g = 1 ∧ ∃ g1, cluster g = some (g1, 1) := by
  have hl : Loaded (loadLabels Graph.empty [0, 0]) :=
    loadLabels_loaded [0, 0] loaded_empty (by decide)
  obtain ⟨g1, k, hcl, hc⟩ := cluster_spec hl
  have hs : size (loadLabels Graph.empty [0, 0]) = 1 := rfl
  have h1 : k ≤ 1 := by
    rw [hc.count, ← hs, ← hc.len]; exact numRoots_le g1
  have h2 : 0 < k := by
    rw [hc.count]; exact numRoots_pos hc.forest (by rw [hc.len, hs]; exact Nat.one_pos)
  have hk : k = 1 := by omega
  rw [hk] at hcl
  exact ⟨loadLabels Graph.empty [0, 0], rfl, hs, g1, hcl⟩

/-- C10: in every forest state reachable from a loaded graph by calls of `find` and
`merge`, `find x` returns some `r`, `find r` in the state left behind returns `r` again,
and so does a further `find x`. -/
theorem find_idempotent (g : Graph) (hr : Reachable g) (x : Nat) (hx : x < size g) :
    ∃ g1 r g2 g3, find g x = some (g1, r) ∧ find g1 r = some (g2, r) ∧
      find g2 x = some (g3, r) := by
  have hf := reachable_forest hr
  obtain ⟨g1, h1, hc1⟩ := find_spec hf hx
  have hf1 := compress_forest hf hc1
  have hr1 : root g x < size g1 := by rw [hc1.size]; exact root_lt hf hx
  obtain ⟨g2, h2, hc2⟩ := find_spec hf1 hr1
  have hf2 := compress_forest hf1 hc2
  have hx2 : x < size g2 := by rw [hc2.size, hc1.size]; exact hx
  obtain ⟨g3, h3, _⟩ := find_spec hf2 hx2
  rw [compress_root hf hc1, root_root hf] at h2
  rw [compress_root hf1 hc2, compress_root hf hc1] at h3
  exact ⟨g1, root g x, g2, g3, h1, h2, h3⟩

/-! ## Claims on clustering -/

/-- C1: after `cluster` has run on any loaded list of vectors, two vertices whose
`find` representatives differ have labels at Hamming distance at least 3. -/
theorem cluster_separation (labels : List Nat) (hb : ∀ v ∈ labels, v < 2 ^ NUM_BITS) :
    ∃ g k, cluster (loadLabels Graph.empty labels) = some (g, k) ∧
      ∀ x y, x < size g → y < size g →
        ∃ rx ry, findRep g x = some rx ∧ findRep g y = some ry ∧
          (rx ≠ ry → 3 ≤ hamming (nameOf g x) (nameOf g y)) := by
  have hl := loadLabels_loaded labels loaded_empty hb
  obtain ⟨g, k, hcl, hc⟩ := cluster_spec hl
  refine ⟨g, k, hcl, ?_⟩
  intro x y hx hy
  refine ⟨root g x, root g y, findRep_eq hc.forest hx, findRep_eq hc.forest hy, ?_⟩
  intro hne
  by_contra hlt
  apply hne
  rw [hc.names] at hlt
  rw [hc.len] at hx hy
  exact hc.complete x y hx hy (by omega)

/-- Witness for C1: the labels 0 and 7. -/
theorem cluster_separation_witness :
    (∀ v ∈ [0, 7], v < 2 ^ NUM_BITS) ∧
    ∃ g k, cluster (loadLabels Graph.empty [0, 7]) = some (g, k) ∧
      ∀ x y, x < size g → y < size g →
        ∃ rx ry, findRep g x = some rx ∧ findRep g y = some ry ∧
          (rx ≠ ry → 3 ≤ hamming (nameOf g x) (nameOf g y)) :=
  ⟨by decide, cluster_separation [0, 7] (by decide)⟩

/-- C3: after `cluster` has run on any loaded list of vectors, two vertices with the same
`find` representative are joined by a finite path of vertices of the graph in which
consecutive labels are at Hamming distance at most 2. -/
theorem cluster_connectivity (labels : List Nat) (hb : ∀ v ∈ labels, v < 2 ^ NUM_BITS) :
    ∃ g k, cluster (loadLabels Graph.empty labels) = some (g, k) ∧
      ∀ x y, x < size g → y < size g → findRep g x = findRep g y →
        ∃ path : List Nat, path.head? = some x ∧ path.getLast? = some y ∧
          (∀ v ∈ path, v < size g) ∧
          List.Chain' (fun a b => hamming (nameOf g a) (nameOf g b) ≤ 2) path := by
  have hl := loadLabels_loaded labels loaded_empty hb
  obtain ⟨g, k, hcl, hc⟩ := cluster_spec hl
  refine ⟨g, k, hcl, ?_⟩
  intro x y hx hy heq
  rw [findRep_eq hc.forest hx, findRep_eq hc.forest hy] at heq
  rw [hc.len] at hx hy ⊢
  rw [hc.names]
  exact conn_path (hc.sound x y hx hy (Option.some.inj heq)) hx

/-- Witness for C3: the labels 0, 3 and 15. -/
theorem cluster_connectivity_witness :
    (∀ v ∈ [0, 3, 15], v < 2 ^ NUM_BITS) ∧
    ∃ g k, cluster (loadLabels Graph.empty [0, 3, 15]) = some (g, k) ∧
      ∀ x y, x < size g → y < size g → findRep g x = findRep g y →
        ∃ path : List Nat, path.head? = some x ∧ path.getLast? = some y ∧
          (∀ v ∈ path, v < size g) ∧
          List.Chain' (fun a b => hamming (nameOf g a) (nameOf g b) ≤ 2) path :=
  ⟨by decide, cluster_connectivity [0, 3, 15] (by decide)⟩

/-- C4: the value returned by `cluster` (the size of `vertex_vector` minus `treeEdges`) is
the number of vertices that are their own parent in the final forest. -/
theorem cluster_count_roots (labels : List Nat) (hb : ∀ v ∈ labels, v < 2 ^ NUM_BITS) :
    ∃ g k, cluster (loadLabels Graph.empty labels) = some (g, k) ∧ k = numRoots g := by
  have hl := loadLabels_loaded labels loaded_empty hb
  obtain ⟨g, k, hcl, hc⟩ := cluster_spec hl
  exact ⟨g, k, hcl, hc.count⟩

/-- Witness for C4: the labels 0, 1, 3 and 7. -/
theorem cluster_count_roots_witness :
    (∀ v ∈ [0, 1, 3, 7], v < 2 ^ NUM_BITS) ∧
    ∃ g k, cluster (loadLabels Graph.empty [0, 1, 3, 7]) = some (g, k) ∧ k = numRoots g :=
  ⟨by decide, cluster_count_roots [0, 1, 3, 7] (by decide)⟩

/-- C5, as stated, fails on the empty input: `cluster` returns 0 there, which is not
positive. -/
theorem cluster_count_empty_not_pos :
    ¬ ∃ g k, cluster (loadLabels Graph.empty []) = some (g, k) ∧ 0 < k ∧ k ≤ size g := by
  rintro ⟨g, k, h, hk, _⟩
  have h0 : cluster (loadLabels Graph.empty []) = some (Graph.empty, 0) := rfl
  rw [h0] at h
  have : 0 = k := congrArg Prod.snd (Option.some.inj h)
  omega

/-- C5, amended: the number returned by `cluster` is at most the number of vertices, and
it is positive as soon as there is at least one vertex. -/
theorem cluster_count_bounds (labels : List Nat) (hb : ∀ v ∈ labels, v < 2 ^ NUM_BITS) :
    ∃ g k, cluster (loadLabels Graph.empty labels) = some (g, k) ∧
      k ≤ size g ∧ (0 < size g → 0 < k) := by
  have hl := loadLabels_loaded labels loaded_empty hb
  obtain ⟨g, k, hcl, hc⟩ := cluster_spec hl
  refine ⟨g, k, hcl, ?_, ?_⟩
  · rw [hc.count]; exact numRoots_le g
  · intro h; rw [hc.count]; exact numRoots_pos hc.forest h

/-- Witness for the amended C5: the labels 5 and 6. -/
theorem cluster_count_bounds_witness :
    (∀ v ∈ [5, 6], v < 2 ^ NUM_BITS) ∧
    ∃ g k, cluster (loadLabels Graph.empty [5, 6]) = some (g, k) ∧
      k ≤ size g ∧ (0 < size g → 0 < k) :=
  ⟨by decide, cluster_count_bounds [5, 6] (by decide)⟩

/-- C7: loading a permutation of the input list and running `cluster` returns the same
number of clusters as for the original list. -/
theorem cluster_perm (l1 l2 : List Nat) (hp : l1.Perm l2)
    (hb : ∀ v ∈ l1, v < 2 ^ NUM_BITS) :
    ∃ g1 g2 k, cluster (loadLabels Graph.empty l1) = some (g1, k) ∧
      cluster (loadLabels Graph.empty l2) = some (g2, k) := by
  have hb2 : ∀ v ∈ l2, v < 2 ^ NUM_BITS := fun v hv => hb v (hp.mem_iff.mpr hv)
  have hl1 := loadLabels_loaded l1 loaded_empty hb
  have hl2 := loadLabels_loaded l2 loaded_empty hb2
  obtain ⟨g1, k1, hcl1, hc1⟩ := cluster_spec hl1
  obtain ⟨g2, k2, hcl2, hc2⟩ := cluster_spec hl2
  have hmem : ∀ v, v ∈ names (loadLabels Graph.empty l1) ↔
      v ∈ names (loadLabels Graph.empty l2) := by
    intro v
    rw [loadLabels_empty_names l1 hb, loadLabels_empty_names l2 hb2,
      mem_distinctInOrder, mem_distinctInOrder]
    exact hp.mem_iff
  have h12 := clustered_le hl1 hc1 hc2 hmem
  have h21 := clustered_le hl2 hc2 hc1 (fun v => (hmem v).symm)
  have : k2 = k1 := Nat.le_antisymm h21 h12
  rw [this] at hcl2
  exact ⟨g1, g2, k1, hcl1, hcl2⟩

/-- Witness for C7: the labels 0, 1, 7 and their rotation 7, 0, 1. -/
theorem cluster_perm_witness :
    List.Perm [0, 1, 7] [7, 0, 1] ∧ (∀ v ∈ [0, 1, 7], v < 2 ^ NUM_BITS) ∧
    ∃ g1 g2 k, cluster (loadLabels Graph.empty [0, 1, 7]) = some (g1, k) ∧
      cluster (loadLabels Graph.empty [7, 0, 1]) = some (g2, k) :=
  ⟨by decide, by decide, cluster_perm [0, 1, 7] [7, 0, 1] (by decide) (by decide)⟩

/-- C8: for an input of two distinct vectors `a` and `b`, `cluster` returns 1 when their
Hamming distance is 1 or 2 and 2 when it is 3 or more. -/
theorem cluster_two (a b : Nat) (ha : a < 2 ^ NUM_BITS) (hb : b < 2 ^ NUM_BITS)
    (hab : a ≠ b) :
    ∃ g k, cluster (loadLabels Graph.empty [a, b]) = some (g, k) ∧
      ((hamming a b = 1 ∨ hamming a b = 2) → k = 1) ∧ (3 ≤ hamming a b → k = 2) := by
  have hbd : ∀ v ∈ [a, b], v < 2 ^ NUM_BITS := by
    intro v hv
    simp only [List.mem_cons, List.mem_singleton, List.not_mem_nil, or_false] at hv
    rcases hv with rfl | rfl
    · exact ha
    · exact hb
  have hl := loadLabels_loaded [a, b] loaded_empty hbd
  have hnames : names (loadLabels Graph.empty [a, b]) = [a, b] := by
    rw [loadLabels_empty_names [a, b] hbd]
    have hba : b ≠ a := fun e => hab e.symm
    simp [distinctInOrder, hba]
  have hsize : size (loadLabels Graph.empty [a, b]) = 2 := by
    rw [← size_names, hnames]; rfl
  have hn0 : nameOf (loadLabels Graph.empty [a, b]) 0 = a := by
    rw [nameOf_eq, hnames]; rfl
  have hn1 : nameOf (loadLabels Graph.empty [a, b]) 1 = b := by
    rw [nameOf_eq, hnames]; rfl
  obtain ⟨g, k, hcl, hc⟩ := cluster_spec hl
  refine ⟨g, k, hcl, ?_, ?_⟩
  · intro hd
    have hroot : root g 0 = root g 1 := by
      apply hc.complete 0 1 (by rw [hsize]; decide) (by rw [hsize]; decide)
      rw [hn0, hn1]
      omega
    rw [hc.count, numRoots_eq_image hc.forest, hc.len, hsize]
    have : Finset.range 2 = {0, 1} := by decide
    rw [this, Finset.image_insert, Finset.image_singleton, hroot]
    simp
  · intro hd
    have hle : k ≤ 2 := by
      rw [hc.count, ← hsize, ← hc.len]; exact numRoots_le g
    have hge := part_le hc id (by
      intro x y hx hy hne
      rw [hsize] at hx hy
      have hxy : (x = 0 ∧ y = 1) ∨ (x = 1 ∧ y = 0) := by
        simp only [id] at hne
        omega
      rcases hxy with ⟨rfl, rfl⟩ | ⟨rfl, rfl⟩
      · rw [hn0, hn1]; exact hd
      · rw [hn0, hn1, hamming_comm]; exact hd)
    rw [Finset.image_id, Finset.card_range, hsize] at hge
    omega

/-- Witness for C8: the inputs 000/001, 000/011 and 000/111 (padded to 24 bits). -/
theorem cluster_two_witness :
    (∃ g k, cluster (loadLabels Graph.empty [0, 1]) = some (g, k) ∧ k = 1) ∧
    (∃ g k, cluster (loadLabels Graph.empty [0, 3]) = some (g, k) ∧ k = 1) ∧
    (∃ g k, cluster (loadLabels Graph.empty [0, 7]) = some (g, k) ∧ k = 2) := by
  refine ⟨?_, ?_, ?_⟩
  · obtain ⟨g, k, h, h1, _⟩ := cluster_two 0 1 (by decide) (by decide) (by decide)
    exact ⟨g, k, h, h1 (Or.inl (by decide))⟩
  · obtain ⟨g, k, h, h1, _⟩ := cluster_two 0 3 (by decide) (by decide) (by decide)
    exact ⟨g, k, h, h1 (Or.inr (by decide))⟩
  · obtain ⟨g, k, h, _, h2⟩ := cluster_two 0 7 (by decide) (by decide) (by decide)
    exact ⟨g, k, h, h2 (by decide)⟩

/-! ## Sequences of calls -/

theorem merged_keeps {g g1 : Graph} {u v : Nat} (hm : Merged g u v g1) {x y : Nat}
    (h : root g x = root g y) : root g1 x = root g1 y := by
  by_cases hne : root g u = root g v
  · rw [(hm.same hne).1]; exact h
  · exact (merged_root_iff hm hne x y).mpr (Or.inl h)

theorem find_result {g g1 : Graph} {x r : Nat} (hf : Forest g) (hx : x < size g)
    (h : find g x = some (g1, r)) : r = root g x ∧ Compress g g1 := by
  obtain ⟨g2, h2, hc⟩ := find_spec hf hx
  rw [h] at h2
  have e := Option.some.inj h2
  have e1 : g1 = g2 := congrArg Prod.fst e
  have e2 : r = root g x := congrArg Prod.snd e
  rw [e1]; exact ⟨e2, hc⟩

theorem merge_result {g g1 : Graph} {u v : Nat} (hf : Forest g) (hu : u < size g)
    (hv : v < size g) (h : merge g u v = some g1) : Merged g u v g1 := by
  obtain ⟨g2, h2, hm⟩ := merge_spec hf hu hv
  rw [h] at h2
  rw [Option.some.inj h2]; exact hm

theorem root_ne_of_findRep_ne {g : Graph} (hf : Forest g) {u v : Nat} (hu : u < size g)
    (hv : v < size g) (h : findRep g u ≠ findRep g v) : root g u ≠ root g v := by
  rw [findRep_eq hf hu, findRep_eq hf hv] at h
  intro e; exact h (by rw [e])

theorem proper_reachable {g : Graph} (h : Proper g) : Reachable g := by
  induction h with
  | load labels hb => exact Reachable.load labels hb
  | find g x g1 r _ hx hfind ih => exact Reachable.find g x g1 r ih hx hfind
  | merge g u v g1 _ hu hv _ hm ih => exact Reachable.merge g u v g1 ih hu hv hm

theorem later_keeps {g g2 : Graph} (hf : Forest g) (h : Later g g2) :
    Forest g2 ∧ size g2 = size g ∧ ∀ x y, root g x = root g y → root g2 x = root g2 y := by
  induction h with
  | refl => exact ⟨hf, rfl, fun _ _ e => e⟩
  | find g1 x g2 r _ hx hfind ih =>
    obtain ⟨hf1, hs1, hk1⟩ := ih
    obtain ⟨_, hc⟩ := find_result hf1 hx hfind
    refine ⟨compress_forest hf1 hc, hc.size.trans hs1, ?_⟩
    intro a b e
    rw [compress_root hf1 hc]; exact hk1 a b e
  | merge g1 u v g2 _ hu hv _ hm ih =>
    obtain ⟨hf1, hs1, hk1⟩ := ih
    have hmg := merge_result hf1 hu hv hm
    exact ⟨hmg.forest, hmg.size.trans hs1, fun a b e => merged_keeps hmg (hk1 a b e)⟩

/-! ## Claims on `merge` -/

/-- C11: after `merge u v` on vertices in different components of a reachable state,
`find u` and `find v` return the same vertex, and they still do after any further calls
of `find` and of `merge` on vertices in different components. -/
theorem merge_joins_for_good (g : Graph) (hr : Reachable g) (u v : Nat) (hu : u < size g)
    (hv : v < size g) (hne : findRep g u ≠ findRep g v) :
    ∃ g1, merge g u v = some g1 ∧
      ∀ g2, Later g1 g2 → ∃ r, findRep g2 u = some r ∧ findRep g2 v = some r := by
  have hf := reachable_forest hr
  obtain ⟨g1, hm, hmg⟩ := merge_spec hf hu hv
  refine ⟨g1, hm, ?_⟩
  intro g2 hl
  obtain ⟨hf2, hs2, hk2⟩ := later_keeps hmg.forest hl
  have hroot : root g1 u = root g1 v :=
    (merged_root_iff hmg (root_ne_of_findRep_ne hf hu hv hne) u v).mpr
      (Or.inr (Or.inl ⟨rfl, rfl⟩))
  have hu2 : u < size g2 := by rw [hs2, hmg.size]; exact hu
  have hv2 : v < size g2 := by rw [hs2, hmg.size]; exact hv
  refine ⟨root g2 u, findRep_eq hf2 hu2, ?_⟩
  rw [findRep_eq hf2 hv2, hk2 u v hroot]

/-- Witness for C11: the graph loaded from the labels 0 and 1, vertices 0 and 1. -/
theorem merge_joins_for_good_witness :
    Reachable (loadLabels Graph.empty [0, 1]) ∧
    findRep (loadLabels Graph.empty [0, 1]) 0 ≠ findRep (loadLabels Graph.empty [0, 1]) 1 ∧
    ∃ g1, merge (loadLabels Graph.empty [0, 1]) 0 1 = some g1 ∧
      ∀ g2, Later g1 g2 → ∃ r, findRep g2 0 = some r ∧ findRep g2 1 = some r :=
  ⟨Reachable.load [0, 1] (by decide), by decide,
    merge_joins_for_good _ (Reachable.load [0, 1] (by decide)) 0 1 (by decide) (by decide)
      (by decide)⟩

/-- C12: in a reachable state, `merge u v` on vertices with different `find` results
lowers the number of roots by exactly one, and `find` leaves the number of roots as it
is. -/
theorem merge_find_numRoots (g : Graph) (hr : Reachable g) :
    (∀ u v, u < size g → v < size g → findRep g u ≠ findRep g v →
      ∃ g1, merge g u v = some g1 ∧ numRoots g1 + 1 = numRoots g) ∧
    (∀ x, x < size g → ∃ g1 r, find g x = some (g1, r) ∧ numRoots g1 = numRoots g) := by
  have hf := reachable_forest hr
  refine ⟨?_, ?_⟩
  · intro u v hu hv hne
    obtain ⟨g1, hm, hmg⟩ := merge_spec hf hu hv
    exact ⟨g1, hm, merged_numRoots hf hu hv hmg (root_ne_of_findRep_ne hf hu hv hne)⟩
  · intro x hx
    obtain ⟨g1, h1, hc⟩ := find_spec hf hx
    exact ⟨g1, root g x, h1, compress_numRoots hf hc⟩

/-! ## Claims on the command line program and on the forest -/

/-- C13 fails on the code: for a file that cannot be opened `loadFromFile` returns true
(with no vertex loaded) and `main` prints the count 0 and ends with exit code 0. -/
theorem unreadable_input_exit_zero :
    (loadFromFile none Graph.empty).map Prod.fst = some true ∧
    (loadFromFile none Graph.empty).map (fun r => size r.2) = some 0 ∧
    main 2 none = some (some 0, 0) :=
  ⟨rfl, rfl, rfl⟩

theorem no_cycle {p : Nat → Nat} (hd : ∃ d : Nat → Nat, ∀ i, p i ≠ i → d (p i) < d i)
    (x k : Nat) (hk : 0 < k) (h : p^[k] x = x) : p x = x := by
  by_contra hx
  obtain ⟨d, hd⟩ := hd
  have hnf : ∀ j, j < k → p (p^[j] x) ≠ p^[j] x := by
    intro j hj hfix
    have := iter_fixed_of_le hfix (le_of_lt hj)
    rw [h] at this
    rw [← this] at hfix
    exact hx hfix
  have := measure_strict hd x k hnf 0 k hk (le_refl k)
  rw [h] at this
  exact lt_irrefl _ this

/-- C15: in the state produced by loading and in every state reached from it by calls of
`find` and of `merge` on vertices in different components, every vertex reaches a vertex
that is its own parent in fewer steps than there are vertices, the only cycles are the
self-loops, and `find` returns on every vertex. -/
theorem proper_forest (g : Graph) (hp : Proper g) (x : Nat) (hx : x < size g) :
    (∃ k, k < size g ∧ parentOf g ((parentOf g)^[k] x) = (parentOf g)^[k] x) ∧
    (∀ k, 0 < k → (parentOf g)^[k] x = x → parentOf g x = x) ∧
    ∃ g1 r, find g x = some (g1, r) := by
  have hf := reachable_forest (proper_reachable hp)
  refine ⟨exists_fixed hf.closed hf.acyclic hx, no_cycle hf.acyclic x, ?_⟩
  obtain ⟨g1, h1, _⟩ := find_spec hf hx
  exact ⟨g1, root g x, h1⟩

theorem findAux_path {g : Graph} (hf : Forest g) :
    ∀ (fuel x : Nat),
      (∃ k, k < fuel ∧ parentOf g ((parentOf g)^[k] x) = (parentOf g)^[k] x) →
      ∃ g1, findAux fuel g x = some (g1, root g x) ∧ size g1 = size g ∧
        rankOf g1 = rankOf g ∧
        (∀ y, (∃ k, (parentOf g)^[k] x = y) → parentOf g1 y = root g x) ∧
        (∀ y, (¬ ∃ k, (parentOf g)^[k] x = y) → parentOf g1 y = parentOf g y) := by
  intro fuel
  induction fuel with
  | zero => rintro x ⟨k, hk, _⟩; omega
  | succ fuel ih =>
    rintro x ⟨k, hk, hfix⟩
    unfold findAux
    by_cases hx : x = parentOf g x
    · refine ⟨g, ?_, rfl, rfl, ?_, fun _ _ => rfl⟩
      · rw [if_neg (not_not.mpr hx), ← hx, root_of_self hx.symm]
      · rintro y ⟨j, rfl⟩
        rw [Function.iterate_fixed hx.symm j, root_of_self hx.symm]
        exact hx.symm
    · rw [if_pos hx]
      have hk0 : k ≠ 0 := by
        rintro rfl
        exact hx hfix.symm
      obtain ⟨j, rfl⟩ := Nat.exists_eq_succ_of_ne_zero hk0
      obtain ⟨g1, hg1, hs, hrk, hon, hoff⟩ := ih (parentOf g x) ⟨j, by omega, by
        rw [← Function.iterate_succ_apply]; exact hfix⟩
      rw [hg1]
      have hxl : x < size g1 := by
        rw [hs]; exact lt_of_parentOf_ne (fun e => hx e.symm)
      refine ⟨setParent g1 x (root g (parentOf g x)), ?_, ?_, ?_, ?_, ?_⟩
      · simp only [parentOf_setParent g1 x _ x hxl, if_true, root_parent hf]
      · rw [size_setParent, hs]
      · rw [rankOf_setParent, hrk]
      · rintro y ⟨i, hi⟩
        rw [parentOf_setParent g1 x _ y hxl, root_parent hf]
        by_cases hy : y = x
        · rw [if_pos hy]
        · rw [if_neg hy]
          have hi0 : i ≠ 0 := by
            rintro rfl
            exact hy hi.symm
          obtain ⟨i1, rfl⟩ := Nat.exists_eq_succ_of_ne_zero hi0
          rw [hon y ⟨i1, by rw [← Function.iterate_succ_apply]; exact hi⟩, root_parent hf]
      · intro y hy
        have hyx : y ≠ x := fun e => hy ⟨0, e.symm⟩
        rw [parentOf_setParent g1 x _ y hxl, if_neg hyx]
        apply hoff
        rintro ⟨i, hi⟩
        exact hy ⟨i + 1, by rw [Function.iterate_succ_apply]; exact hi⟩

/-- C16: on a forest, `find x` returns the root `r` of the tree of `x`; afterwards every
vertex on the parent path from `x` to `r` has `r` as its parent, every other vertex has
the parent it had, and no rank has changed. -/
theorem find_compresses_path (g : Graph) (hf : Forest g) (x : Nat) (hx : x < size g) :
    ∃ g1 r, find g x = some (g1, r) ∧
      parentOf g r = r ∧ (∃ k, (parentOf g)^[k] x = r) ∧
      (∀ y, (∃ k, (parentOf g)^[k] x = y) → parentOf g1 y = r) ∧
      (∀ y, (¬ ∃ k, (parentOf g)^[k] x = y) → parentOf g1 y = parentOf g y) ∧
      rankOf g1 = rankOf g := by
  obtain ⟨g1, h1, _, hrk, hon, hoff⟩ :=
    findAux_path hf (size g) x (exists_fixed hf.closed hf.acyclic hx)
  exact ⟨g1, root g x, h1, root_fixed hf x, ⟨size g, rfl⟩, hon, hoff, hrk⟩

/-! ## Union by rank -/

/-- The three ways `merge` ends, in terms of the graph left by its two calls of `find`. -/
theorem merge_cases {g : Graph} (hf : Forest g) {u v : Nat} (hu : u < size g)
    (hv : v < size g) :
    ∃ g2, Compress g g2 ∧
      (rankOf g (root g v) < rankOf g (root g u) →
        merge g u v = some (setParent g2 (root g v) (root g u))) ∧
      (rankOf g (root g u) < rankOf g (root g v) →
        merge g u v = some (setParent g2 (root g u) (root g v))) ∧
      (rankOf g (root g u) = rankOf g (root g v) →
        merge g u v = some (setRank (setParent g2 (root g u) (root g v)) (root g v)
          ((rankOf g (root g v) + 1) % 2 ^ UINT_BITS))) := by
  obtain ⟨ga, hga, hca⟩ := find_spec hf hu
  have hfa := compress_forest hf hca
  obtain ⟨gb, hgb, hcb⟩ := find_spec hfa (x := v) (by rw [hca.size]; exact hv)
  have hc := compress_trans hf hca hcb
  rw [compress_root hf hca] at hgb
  have hmerge : merge g u v =
      (if rankOf (if rankOf gb (root g u) > rankOf gb (root g v)
            then setParent gb (root g v) (root g u)
            else setParent gb (root g u) (root g v)) (root g u) =
          rankOf (if rankOf gb (root g u) > rankOf gb (root g v)
            then setParent gb (root g v) (root g u)
            else setParent gb (root g u) (root g v)) (root g v) then
        some (setRank (if rankOf gb (root g u) > rankOf gb (root g v)
            then setParent gb (root g v) (root g u)
            else setParent gb (root g u) (root g v)) (root g v)
          ((rankOf (if rankOf gb (root g u) > rankOf gb (root g v)
            then setParent gb (root g v) (root g u)
            else setParent gb (root g u) (root g v)) (root g v) + 1) % 2 ^ UINT_BITS))
      else some (if rankOf gb (root g u) > rankOf gb (root g v)
            then setParent gb (root g v) (root g u)
            else setParent gb (root g u) (root g v))) := by
    unfold merge
    rw [hga]; simp only
    rw [hgb]
  rw [hmerge, hc.ranks]
  refine ⟨gb, hc, ?_, ?_, ?_⟩
  · intro hrk
    have h1 : rankOf g (root g u) > rankOf g (root g v) := hrk
    rw [if_pos h1, rankOf_setParent, hc.ranks, if_neg (by omega)]
  · intro hrk
    have h1 : ¬ rankOf g (root g u) > rankOf g (root g v) := by omega
    rw [if_neg h1, rankOf_setParent, hc.ranks, if_neg (by omega)]
  · intro hrk
    have h1 : ¬ rankOf g (root g u) > rankOf g (root g v) := by omega
    rw [if_neg h1, rankOf_setParent, hc.ranks, if_pos hrk]

theorem rank_le_iter {g : Graph} (hm : ∀ x, parentOf g x ≠ x → rankOf g x < rankOf g (parentOf g x))
    (x k : Nat) : rankOf g x ≤ rankOf g ((parentOf g)^[k] x) := by
  induction k with
  | zero => exact le_refl _
  | succ k ih =>
    rw [Function.iterate_succ_apply']
    by_cases h : parentOf g ((parentOf g)^[k] x) = (parentOf g)^[k] x
    · rw [h]; exact ih
    · exact le_trans ih (le_of_lt (hm _ h))

theorem rank_lt_root {g : Graph} (hf : Forest g)
    (hm : ∀ x, parentOf g x ≠ x → rankOf g x < rankOf g (parentOf g x))
    {x : Nat} (hx : parentOf g x ≠ x) : rankOf g x < rankOf g (root g x) := by
  rw [← root_parent hf x]
  exact lt_of_lt_of_le (hm x hx) (rank_le_iter hm _ _)

theorem rank_add_le_iter {g : Graph}
    (hm : ∀ x, parentOf g x ≠ x → rankOf g x < rankOf g (parentOf g x)) (x k : Nat)
    (hnf : ∀ j, j < k → parentOf g ((parentOf g)^[j] x) ≠ (parentOf g)^[j] x) :
    rankOf g x + k ≤ rankOf g ((parentOf g)^[k] x) := by
  induction k with
  | zero => exact le_refl _
  | succ k ih =>
    rw [Function.iterate_succ_apply']
    have h1 := ih (fun j hj => hnf j (by omega))
    have h2 := hm _ (hnf k (by omega))
    omega

theorem treeSize_le (g : Graph) (r : Nat) : treeSize g r ≤ size g := by
  unfold treeSize
  have := Finset.card_le_card (Finset.filter_subset (fun i => root g i = r)
    (Finset.range (size g)))
  rw [Finset.card_range] at this
  exact this

theorem treeSize_congr {g g1 : Graph} (hs : size g1 = size g) (hr : root g1 = root g)
    (r : Nat) : treeSize g1 r = treeSize g r := by
  unfold treeSize
  rw [hs, hr]

theorem treeSize_link {g g1 : Graph} {a b : Nat} (hab : a ≠ b) (hs : size g1 = size g)
    (hr : ∀ y, root g1 y = if root g y = a then b else root g y) :
    treeSize g1 b = treeSize g a + treeSize g b ∧
      ∀ c, c ≠ a → c ≠ b → treeSize g1 c = treeSize g c := by
  refine ⟨?_, ?_⟩
  · unfold treeSize
    rw [hs]
    have hfil : (Finset.range (size g)).filter (fun i => root g1 i = b) =
        (Finset.range (size g)).filter (fun i => root g i = a ∨ root g i = b) := by
      apply Finset.filter_congr
      intro y _
      rw [hr y]
      by_cases h : root g y = a
      · rw [if_pos h]; exact ⟨fun _ => Or.inl h, fun _ => rfl⟩
      · rw [if_neg h]; exact ⟨fun e => Or.inr e, fun e => e.resolve_left h⟩
    rw [hfil, Finset.filter_or, Finset.card_union_of_disjoint]
    rw [Finset.disjoint_filter]
    intro y _ h1 h2
    exact hab (h1.symm.trans h2)
  · intro c hca hcb
    unfold treeSize
    rw [hs]
    congr 1
    apply Finset.filter_congr
    intro y _
    rw [hr y]
    by_cases h : root g y = a
    · rw [if_pos h]
      constructor
      · intro e; exact absurd e.symm hcb
      · intro e; exact absurd (e.symm.trans h) hca
    · rw [if_neg h]

theorem ranked_loaded {g : Graph} (hl : Loaded g) : Ranked g := by
  refine ⟨loaded_forest hl, loaded_size_lt hl, ?_, ?_⟩
  · intro x hx; exact absurd (hl.self x) hx
  · intro r hr hp
    rw [hl.rank0 r]
    unfold treeSize
    apply Finset.card_pos.mpr
    exact ⟨r, by rw [Finset.mem_filter, Finset.mem_range]; exact ⟨hr, root_of_self hp⟩⟩

theorem ranked_compress {g g1 : Graph} (hr : Ranked g) (hc : Compress g g1) : Ranked g1 := by
  have hf := hr.forest
  refine ⟨compress_forest hf hc, by rw [hc.size]; exact hr.bound, ?_, ?_⟩
  · intro x hx
    have hx0 : parentOf g x ≠ x := fun e => hx ((compress_isRoot hf hc x).mpr e)
    rw [hc.ranks]
    rcases hc.parent x with h | h
    · rw [h]; exact hr.mono x hx0
    · rw [h]; exact rank_lt_root hf hr.mono hx0
  · intro r hrl hp
    rw [hc.ranks, treeSize_congr hc.size (compress_root hf hc)]
    exact hr.big r (by rw [← hc.size]; exact hrl) ((compress_isRoot hf hc r).mp hp)

/-- Hanging the root `a` under the root `b` keeps the invariant when `a` has the smaller
rank, or when the ranks are equal and the rank of `b` goes up by one. -/
theorem ranked_link {g g1 : Graph} (hr : Ranked g) {a b : Nat} (ha : parentOf g a = a)
    (hb : parentOf g b = b) (hab : a ≠ b) (hal : a < size g) (hbl : b < size g)
    (hs : size g1 = size g)
    (hp : ∀ y, parentOf g1 y = if y = a then b else parentOf g y)
    (hrank : (rankOf g a < rankOf g b ∧ rankOf g1 = rankOf g) ∨
      (rankOf g a = rankOf g b ∧
        ∀ y, rankOf g1 y = if y = b then rankOf g b + 1 else rankOf g y)) :
    Ranked g1 := by
  obtain ⟨hF, hroot, hisroot⟩ := link_spec hr.forest ha hb hab hbl hs hp
  obtain ⟨hts, htsc⟩ := treeSize_link hab hs hroot
  refine ⟨hF, by rw [hs]; exact hr.bound, ?_, ?_⟩
  · intro y hy
    rw [hp] at hy ⊢
    by_cases hya : y = a
    · subst hya
      rw [if_pos rfl]
      rcases hrank with ⟨h1, h2⟩ | ⟨h1, h2⟩
      · rw [h2]; exact h1
      · rw [h2 y, h2 b, if_neg hab, if_pos rfl]; omega
    · rw [if_neg hya] at hy ⊢
      have hyb : y ≠ b := fun e => hy (by rw [e]; exact hb)
      have := hr.mono y hy
      rcases hrank with ⟨_, h2⟩ | ⟨_, h2⟩
      · rw [h2]; exact this
      · rw [h2 y, h2 (parentOf g y), if_neg hyb]
        by_cases hpb : parentOf g y = b
        · rw [if_pos hpb]; rw [hpb] at this; omega
        · rw [if_neg hpb]; exact this
  · intro r hrl hpr
    rw [hs] at hrl
    obtain ⟨hpr0, hra⟩ := (hisroot r).mp hpr
    by_cases hrb : r = b
    · subst hrb
      rw [hts]
      have hba := hr.big a hal ha
      have hbb := hr.big r hrl hb
      rcases hrank with ⟨_, h2⟩ | ⟨h1, h2⟩
      · rw [h2]; omega
      · rw [h2 r, if_pos rfl, Nat.pow_succ]
        rw [h1] at hba
        omega
    · rw [htsc r hra hrb]
      have := hr.big r hrl hpr0
      rcases hrank with ⟨_, h2⟩ | ⟨_, h2⟩
      · rw [h2]; exact this
      · rw [h2 r, if_neg hrb]; exact this

theorem rank_small {g : Graph} (hr : Ranked g) {r : Nat} (hrl : r < size g)
    (hp : parentOf g r = r) : rankOf g r + 1 < 2 ^ UINT_BITS := by
  have h1 := hr.big r hrl hp
  have h2 := treeSize_le g r
  have h3 := hr.bound
  have h4 : 2 ^ rankOf g r < 2 ^ UINT_BITS := by omega
  have h5 : rankOf g r < UINT_BITS := (Nat.pow_lt_pow_iff_right (by decide)).mp h4
  have h6 : UINT_BITS + 1 < 2 ^ UINT_BITS := by decide
  omega

/-- On a state with the rank invariant, `merge` of vertices in different trees: where the
pointers and ranks of the two roots end up, and the invariant holds again. -/
theorem merge_ranked {g : Graph} (hr : Ranked g) {u v : Nat} (hu : u < size g)
    (hv : v < size g) (hne : root g u ≠ root g v) :
    ∃ g1, merge g u v = some g1 ∧ Ranked g1 ∧
      (rankOf g (root g v) < rankOf g (root g u) →
        parentOf g1 (root g v) = root g u ∧ parentOf g1 (root g u) = root g u ∧
        rankOf g1 = rankOf g) ∧
      (rankOf g (root g u) < rankOf g (root g v) →
        parentOf g1 (root g u) = root g v ∧ parentOf g1 (root g v) = root g v ∧
        rankOf g1 = rankOf g) ∧
      (rankOf g (root g u) = rankOf g (root g v) →
        parentOf g1 (root g u) = root g v ∧ parentOf g1 (root g v) = root g v ∧
        rankOf g1 (root g v) = rankOf g (root g v) + 1 ∧
        ∀ y, y ≠ root g v → rankOf g1 y = rankOf g y) := by
  have hf := hr.forest
  obtain ⟨g2, hc, h1, h2, h3⟩ := merge_cases hf hu hv
  have hr2 := ranked_compress hr hc
  have hul : root g u < size g2 := by rw [hc.size]; exact root_lt hf hu
  have hvl : root g v < size g2 := by rw [hc.size]; exact root_lt hf hv
  have hur : parentOf g2 (root g u) = root g u :=
    (compress_isRoot hf hc _).mpr (root_fixed hf u)
  have hvr : parentOf g2 (root g v) = root g v :=
    (compress_isRoot hf hc _).mpr (root_fixed hf v)
  rcases Nat.lt_trichotomy (rankOf g (root g u)) (rankOf g (root g v)) with hlt | heq | hgt
  · have hp : ∀ y, parentOf (setParent g2 (root g u) (root g v)) y =
        if y = root g u then root g v else parentOf g2 y :=
      fun y => parentOf_setParent g2 _ _ y hul
    have hrk : rankOf (setParent g2 (root g u) (root g v)) = rankOf g := by
      rw [rankOf_setParent, hc.ranks]
    refine ⟨_, h2 hlt, ?_, fun h => absurd h (by omega), ?_, fun h => absurd h (by omega)⟩
    · refine ranked_link hr2 hur hvr hne hul hvl (size_setParent _ _ _) hp (Or.inl ⟨?_, ?_⟩)
      · rw [hc.ranks]; exact hlt
      · rw [rankOf_setParent]
    · intro _
      refine ⟨?_, ?_, hrk⟩
      · rw [hp, if_pos rfl]
      · rw [hp, if_neg (Ne.symm hne)]; exact hvr
  · have hp : ∀ y, parentOf (setRank (setParent g2 (root g u) (root g v)) (root g v)
          ((rankOf g (root g v) + 1) % 2 ^ UINT_BITS)) y =
        if y = root g u then root g v else parentOf g2 y := by
      intro y
      rw [parentOf_setRank]
      exact parentOf_setParent g2 _ _ y hul
    have hmod : (rankOf g (root g v) + 1) % 2 ^ UINT_BITS = rankOf g (root g v) + 1 := by
      apply Nat.mod_eq_of_lt
      have := rank_small hr2 hvl hvr
      rw [hc.ranks] at this
      exact this
    have hrk : ∀ y, rankOf (setRank (setParent g2 (root g u) (root g v)) (root g v)
          ((rankOf g (root g v) + 1) % 2 ^ UINT_BITS)) y =
        if y = root g v then rankOf g (root g v) + 1 else rankOf g y := by
      intro y
      rw [rankOf_setRank _ _ _ y (by rw [size_setParent]; exact hvl), rankOf_setParent,
        hc.ranks, hmod]
    refine ⟨_, h3 heq, ?_, fun h => absurd h (by omega), fun h => absurd h (by omega), ?_⟩
    · refine ranked_link hr2 hur hvr hne hul hvl
        ((size_setRank _ _ _).trans (size_setParent _ _ _)) hp (Or.inr ⟨?_, ?_⟩)
      · rw [hc.ranks]; exact heq
      · intro y; rw [hrk y, hc.ranks]
    · intro _
      refine ⟨?_, ?_, ?_, ?_⟩
      · rw [hp, if_pos rfl]
      · rw [hp, if_neg (Ne.symm hne)]; exact hvr
      · rw [hrk, if_pos rfl]
      · intro y hy; rw [hrk, if_neg hy]
  · have hp : ∀ y, parentOf (setParent g2 (root g v) (root g u)) y =
        if y = root g v then root g u else parentOf g2 y :=
      fun y => parentOf_setParent g2 _ _ y hvl
    have hrk : rankOf (setParent g2 (root g v) (root g u)) = rankOf g := by
      rw [rankOf_setParent, hc.ranks]
    refine ⟨_, h1 hgt, ?_, ?_, fun h => absurd h (by omega), fun h => absurd h (by omega)⟩
    · refine ranked_link hr2 hvr hur (Ne.symm hne) hvl hul (size_setParent _ _ _) hp
        (Or.inl ⟨?_, ?_⟩)
      · rw [hc.ranks]; exact hgt
      · rw [rankOf_setParent]
    · intro _
      refine ⟨?_, ?_, hrk⟩
      · rw [hp, if_pos rfl]
      · rw [hp, if_neg hne]; exact hur

theorem proper_ranked {g : Graph} (h : Proper g) : Ranked g := by
  induction h with
  | load labels hb => exact ranked_loaded (loadLabels_loaded labels loaded_empty hb)
  | find g x g1 r _ hx hfind ih =>
    exact ranked_compress ih (find_result ih.forest hx hfind).2
  | merge g u v g1 _ hu hv hne hm ih =>
    obtain ⟨g2, h2, hr2, _⟩ := merge_ranked ih hu hv
      (root_ne_of_findRep_ne ih.forest hu hv hne)
    rw [hm] at h2
    rw [Option.some.inj h2]; exact hr2

theorem root_iff_reach {g : Graph} (hf : Forest g) {x r : Nat} (hr : parentOf g r = r) :
    root g x = r ↔ ∃ k, (parentOf g)^[k] x = r := by
  constructor
  · intro h; exact ⟨size g, h⟩
  · rintro ⟨k, rfl⟩
    have h1 : ∀ j, root g ((parentOf g)^[j] x) = root g x := by
      intro j
      induction j with
      | zero => rfl
      | succ j ih => rw [Function.iterate_succ_apply', root_parent hf, ih]
    rw [← h1 k]; exact root_of_self hr

/-- The number of steps from a vertex to its root is at most the rank of the root. -/
theorem depth_le_rank {g : Graph} (hr : Ranked g) {x : Nat} (hx : x < size g) :
    ∃ k, k ≤ rankOf g (root g x) ∧ (parentOf g)^[k] x = root g x := by
  have hf := hr.forest
  have hex : ∃ k, parentOf g ((parentOf g)^[k] x) = (parentOf g)^[k] x := by
    obtain ⟨k, _, hk⟩ := exists_fixed hf.closed hf.acyclic hx
    exact ⟨k, hk⟩
  have hspec := Nat.find_spec hex
  have hmin : ∀ j, j < Nat.find hex →
      parentOf g ((parentOf g)^[j] x) ≠ (parentOf g)^[j] x :=
    fun j hj => Nat.find_min hex hj
  have hroot : root g x = (parentOf g)^[Nat.find hex] x :=
    ((root_iff_reach hf hspec).mpr ⟨Nat.find hex, rfl⟩)
  refine ⟨Nat.find hex, ?_, hroot.symm⟩
  have := rank_add_le_iter hr.mono x (Nat.find hex) hmin
  rw [hroot]
  omega

/-! ## Claims on ranks -/

/-- C18: in a state reached by loading, `find` and `merge` on different components, for
every root `r`: the tree of `r` (the vertices that reach `r` along parent pointers) has
at least `2 ^ rank r` vertices, and every vertex of the tree reaches `r` in at most
`rank r` steps, hence in at most `log2` of the number of vertices of the tree. -/
theorem rank_bounds_height (g : Graph) (hp : Proper g) (r : Nat) (hrl : r < size g)
    (hroot : parentOf g r = r) :
    (∀ x, root g x = r ↔ ∃ k, (parentOf g)^[k] x = r) ∧
    2 ^ rankOf g r ≤ treeSize g r ∧
    (∀ x, x < size g → root g x = r →
      ∃ k, (parentOf g)^[k] x = r ∧ k ≤ rankOf g r ∧ k ≤ Nat.log 2 (treeSize g r)) := by
  have hr := proper_ranked hp
  have hbig := hr.big r hrl hroot
  refine ⟨fun x => root_iff_reach hr.forest hroot, hbig, ?_⟩
  intro x hx hxr
  obtain ⟨k, hk, hkr⟩ := depth_le_rank hr hx
  rw [hxr] at hk hkr
  refine ⟨k, hkr, hk, ?_⟩
  have hpos : treeSize g r ≠ 0 := by
    have := Nat.pos_pow_of_pos (rankOf g r) (by decide : 0 < 2)
    omega
  apply (Nat.pow_le_iff_le_log (by decide) hpos).mp
  exact le_trans (Nat.pow_le_pow_right (by decide) hk) hbig

/-! ## What the calls leave untouched -/

theorem findAux_frame : ∀ (fuel : Nat) (g : Graph) (x : Nat) (g1 : Graph) (r : Nat),
    findAux fuel g x = some (g1, r) →
      size g1 = size g ∧ nameOf g1 = nameOf g ∧ g1.vertex_map = g.vertex_map := by
  intro fuel
  induction fuel with
  | zero => intro g x g1 r h; exact Option.noConfusion h
  | succ fuel ih =>
    intro g x g1 r h
    unfold findAux at h
    by_cases hx : x = parentOf g x
    · rw [if_neg (not_not.mpr hx)] at h
      have e : g = g1 := congrArg Prod.fst (Option.some.inj h)
      rw [← e]; exact ⟨rfl, rfl, rfl⟩
    · rw [if_pos hx] at h
      cases hrec : findAux fuel g (parentOf g x) with
      | none => rw [hrec] at h; exact Option.noConfusion h
      | some q =>
        obtain ⟨g2, r2⟩ := q
        rw [hrec] at h
        have e : setParent g2 x r2 = g1 := congrArg Prod.fst (Option.some.inj h)
        obtain ⟨h1, h2, h3⟩ := ih g (parentOf g x) g2 r2 hrec
        rw [← e]
        exact ⟨(size_setParent _ _ _).trans h1, (nameOf_setParent _ _ _).trans h2,
          (vertex_map_setParent _ _ _).trans h3⟩

theorem find_frame {g g1 : Graph} {x r : Nat} (h : find g x = some (g1, r)) :
    size g1 = size g ∧ nameOf g1 = nameOf g ∧ g1.vertex_map = g.vertex_map :=
  findAux_frame _ g x g1 r h

theorem merge_frame {g g1 : Graph} {u v : Nat} (h : merge g u v = some g1) :
    size g1 = size g ∧ nameOf g1 = nameOf g ∧ g1.vertex_map = g.vertex_map := by
  unfold merge at h
  cases h1 : find g u with
  | none => rw [h1] at h; exact Option.noConfusion h
  | some q1 =>
    obtain ⟨ga, ru⟩ := q1
    rw [h1] at h
    simp only at h
    cases h2 : find ga v with
    | none => rw [h2] at h; exact Option.noConfusion h
    | some q2 =>
      obtain ⟨gb, rv⟩ := q2
      rw [h2] at h
      simp only at h
      obtain ⟨a1, a2, a3⟩ := find_frame h1
      obtain ⟨b1, b2, b3⟩ := find_frame h2
      have key : ∀ g3 : Graph, (g3 = setParent gb rv ru ∨ g3 = setParent gb ru rv) →
          (g1 = g3 ∨ ∃ k, g1 = setRank g3 rv k) →
          size g1 = size g ∧ nameOf g1 = nameOf g ∧ g1.vertex_map = g.vertex_map := by
        intro g3 h3 h4
        have c : size g3 = size g ∧ nameOf g3 = nameOf g ∧ g3.vertex_map = g.vertex_map := by
          rcases h3 with e | e <;> rw [e] <;>
            exact ⟨(size_setParent _ _ _).trans (b1.trans a1),
              (nameOf_setParent _ _ _).trans (b2.trans a2),
              (vertex_map_setParent _ _ _).trans (b3.trans a3)⟩
        rcases h4 with e | ⟨k, e⟩
        · rw [e]; exact c
        · rw [e]
          exact ⟨(size_setRank _ _ _).trans c.1, (nameOf_setRank _ _ _).trans c.2.1,
            (vertex_map_setRank _ _ _).trans c.2.2⟩
      by_cases hrk : rankOf gb ru > rankOf gb rv
      · rw [if_pos hrk] at h
        by_cases heq : rankOf (setParent gb rv ru) ru = rankOf (setParent gb rv ru) rv
        · rw [if_pos heq] at h
          exact key _ (Or.inl rfl) (Or.inr ⟨_, (Option.some.inj h).symm⟩)
        · rw [if_neg heq] at h
          exact key _ (Or.inl rfl) (Or.inl (Option.some.inj h).symm)
      · rw [if_neg hrk] at h
        by_cases heq : rankOf (setParent gb ru rv) ru = rankOf (setParent gb ru rv) rv
        · rw [if_pos heq] at h
          exact key _ (Or.inr rfl) (Or.inr ⟨_, (Option.some.inj h).symm⟩)
        · rw [if_neg heq] at h
          exact key _ (Or.inr rfl) (Or.inl (Option.some.inj h).symm)

/-- Whenever the loop body returns, the vector has kept its size and labels, and the map
is the one left by `vertex_map[current]`. -/
theorem tryEdge_frame {it current : Nat} {st st1 : Graph × Nat}
    (h : tryEdge it current st = some st1) :
    size st1.1 = size st.1 ∧ nameOf st1.1 = nameOf st.1 ∧
      st1.1.vertex_map = (mapIndex st.1.vertex_map current).1 := by
  obtain ⟨g, t⟩ := st
  cases hm : g.vertex_map current with
  | none =>
    rw [tryEdge_absent hm] at h
    have e := congrArg Prod.fst (Option.some.inj h)
    rw [← e]
    refine ⟨rfl, rfl, ?_⟩
    unfold mapIndex
    simp only [hm]
  | some q =>
    have hmi : (mapIndex g.vertex_map current).1 = g.vertex_map := by
      unfold mapIndex
      simp only [hm]
    cases q with
    | none =>
      rw [tryEdge_null hm] at h
      have e := congrArg Prod.fst (Option.some.inj h)
      rw [← e]
      exact ⟨rfl, rfl, hmi.symm⟩
    | some cv =>
      rw [tryEdge_found hm] at h
      show size st1.1 = size g ∧ nameOf st1.1 = nameOf g ∧
        st1.1.vertex_map = (mapIndex g.vertex_map current).1
      rw [hmi]
      cases h1 : find g cv with
      | none => rw [h1] at h; exact Option.noConfusion h
      | some q1 =>
        obtain ⟨ga, r1⟩ := q1
        rw [h1] at h
        simp only at h
        cases h2 : find ga it with
        | none => rw [h2] at h; exact Option.noConfusion h
        | some q2 =>
          obtain ⟨gb, r2⟩ := q2
          rw [h2] at h
          simp only at h
          obtain ⟨a1, a2, a3⟩ := find_frame h1
          obtain ⟨b1, b2, b3⟩ := find_frame h2
          by_cases hne : r1 = r2
          · rw [if_neg (not_not.mpr hne)] at h
            have e := congrArg Prod.fst (Option.some.inj h)
            rw [← e]
            exact ⟨b1.trans a1, b2.trans a2, b3.trans a3⟩
          · rw [if_pos hne] at h
            cases h3 : merge gb cv it with
            | none => rw [h3] at h; exact Option.noConfusion h
            | some gc =>
              rw [h3] at h
              have e := congrArg Prod.fst (Option.some.inj h)
              obtain ⟨c1, c2, c3⟩ := merge_frame h3
              rw [← e]
              exact ⟨c1.trans (b1.trans a1), c2.trans (b2.trans a2),
                c3.trans (b3.trans a3)⟩

/-! ## The labels looked up by the loops -/

theorem foldlM_map_of_const {σ α β : Type} (f : σ → β → Option σ) (c : σ → α → β)
    (hinv : ∀ s b s1, f s b = some s1 → c s1 = c s) :
    ∀ (l : List α) (s : σ),
      l.foldlM (fun s a => f s (c s a)) s = (l.map (c s)).foldlM f s := by
  intro l
  induction l with
  | nil => intro s; rfl
  | cons a l ih =>
    intro s
    rw [List.map_cons, List.foldlM_cons, List.foldlM_cons]
    cases h : f s (c s a) with
    | none => rfl
    | some s1 =>
      show l.foldlM (fun s a => f s (c s a)) s1 = (l.map (c s)).foldlM f s1
      rw [ih s1, hinv s (c s a) s1 h]

theorem foldlM_preserve {σ α γ : Type} (f : σ → α → Option σ) (P : σ → γ)
    (hinv : ∀ s a s1, f s a = some s1 → P s1 = P s) :
    ∀ (l : List α) (s s1 : σ), l.foldlM f s = some s1 → P s1 = P s := by
  intro l
  induction l with
  | nil =>
    intro s s1 h
    have : s = s1 := Option.some.inj h
    rw [this]
  | cons a l ih =>
    intro s s1 h
    rw [List.foldlM_cons] at h
    cases h1 : f s a with
    | none => rw [h1] at h; exact Option.noConfusion h
    | some s2 =>
      rw [h1] at h
      exact (ih s2 s1 h).trans (hinv s a s2 h1)

theorem foldlM_flatMap {σ α β : Type} (f : σ → β → Option σ) (h : α → List β) :
    ∀ (l : List α) (s : σ),
      (l.flatMap h).foldlM f s = l.foldlM (fun s a => (h a).foldlM f s) s := by
  intro l
  induction l with
  | nil => intro s; rfl
  | cons a l ih =>
    intro s
    rw [List.flatMap_cons, List.foldlM_append, List.foldlM_cons]
    cases h1 : (h a).foldlM f s with
    | none => rfl
    | some s1 => exact ih s1

/-- The first loop, for one vertex, is the loop body run over `candidates1` of its label. -/
theorem phase1Vertex_candidates (st : Graph × Nat) (it : Nat) :
    phase1Vertex st it =
      (candidates1 (nameOf st.1 it)).foldlM (fun s c => tryEdge it c s) st := by
  unfold phase1Vertex candidates1
  exact foldlM_map_of_const (fun s c => tryEdge it c s) (fun s i => flip (nameOf s.1 it) i)
    (fun s b s1 h => by
      funext i
      show flip (nameOf s1.1 it) i = flip (nameOf s.1 it) i
      rw [(tryEdge_frame h).2.1]) _ st

/-- The second loop, for one vertex, is the loop body run over `candidates2` of its
label. -/
theorem phase2Vertex_candidates (st : Graph × Nat) (it : Nat) :
    phase2Vertex st it =
      (candidates2 (nameOf st.1 it)).foldlM (fun s c => tryEdge it c s) st := by
  have hname : ∀ (s : Graph × Nat) (b : Nat) (s1 : Graph × Nat),
      tryEdge it b s = some s1 → nameOf s1.1 it = nameOf s.1 it := by
    intro s b s1 h
    rw [(tryEdge_frame h).2.1]
  have hinner : ∀ (i : Nat) (s : Graph × Nat),
      (List.range' (i + 1) (NUM_BITS - (i + 1))).foldlM
        (fun s j => tryEdge it (flip (flip (nameOf s.1 it) i) j) s) s =
      ((List.range' (i + 1) (NUM_BITS - (i + 1))).map
        (fun j => flip (flip (nameOf s.1 it) i) j)).foldlM (fun s c => tryEdge it c s) s := by
    intro i s
    exact foldlM_map_of_const (fun s c => tryEdge it c s)
      (fun s j => flip (flip (nameOf s.1 it) i) j)
      (fun s b s1 h => by
        funext j
        show flip (flip (nameOf s1.1 it) i) j = flip (flip (nameOf s.1 it) i) j
        rw [hname s b s1 h]) _ s
  unfold phase2Vertex candidates2
  rw [foldlM_flatMap]
  have houter := foldlM_map_of_const
    (fun (s : Graph × Nat) (l : List Nat) => l.foldlM (fun s c => tryEdge it c s) s)
    (fun (s : Graph × Nat) (i : Nat) => (List.range' (i + 1) (NUM_BITS - (i + 1))).map
        (fun j => flip (flip (nameOf s.1 it) i) j))
    (fun s l s1 h => by
      funext i
      show (List.range' (i + 1) (NUM_BITS - (i + 1))).map
        (fun j => flip (flip (nameOf s1.1 it) i) j) = _
      rw [foldlM_preserve (fun s c => tryEdge it c s) (fun s => nameOf s.1 it)
        (fun s a s1 h => hname s a s1 h) l s s1 h])
    (List.range (NUM_BITS - 1)) st
  rw [List.foldlM_map] at houter
  rw [← houter]
  congr 1
  funext s i
  exact hinner i s

theorem xor_left_injective (x : Nat) : Function.Injective (fun m : Nat => x ^^^ m) := by
  intro a b h
  have := congrArg (fun m : Nat => x ^^^ m) h
  simp only [Nat.xor_cancel_left] at this
  exact this

theorem candidates1_eq (x : Nat) :
    candidates1 x = ((List.range 24).map (fun i => 2 ^ i)).map (fun m => x ^^^ m) := by
  unfold candidates1
  rw [List.map_map]
  rfl

theorem candidates2_eq (x : Nat) :
    candidates2 x =
      ((List.range 23).flatMap (fun i =>
        (List.range' (i + 1) (24 - (i + 1))).map (fun j => 2 ^ i ^^^ 2 ^ j))).map
        (fun m => x ^^^ m) := by
  unfold candidates2
  rw [List.map_flatMap]
  show (List.range 23).flatMap _ = _
  congr 1
  funext i
  rw [List.map_map]
  apply List.map_congr_left
  intro j _
  show x ^^^ 2 ^ i ^^^ 2 ^ j = x ^^^ (2 ^ i ^^^ 2 ^ j)
  exact Nat.xor_assoc _ _ _

theorem masks1_nodup : ((List.range 24).map (fun i => 2 ^ i)).Nodup := by decide

set_option maxRecDepth 1000000 in
theorem masks2_nodup :
    ((List.range 23).flatMap (fun i =>
      (List.range' (i + 1) (24 - (i + 1))).map (fun j => 2 ^ i ^^^ 2 ^ j))).Nodup := by
  decide

set_option maxRecDepth 100000 in
theorem masks2_length :
    ((List.range 23).flatMap (fun i =>
      (List.range' (i + 1) (24 - (i + 1))).map (fun j => 2 ^ i ^^^ 2 ^ j))).length = 276 := by
  decide

theorem mem_candidates1 (x y : Nat) :
    y ∈ candidates1 x ↔ ∃ i, i < NUM_BITS ∧ y = flip x i := by
  unfold candidates1
  rw [List.mem_map]
  constructor
  · rintro ⟨i, hi, rfl⟩; exact ⟨i, List.mem_range.mp hi, rfl⟩
  · rintro ⟨i, hi, rfl⟩; exact ⟨i, List.mem_range.mpr hi, rfl⟩

theorem mem_candidates2 (x y : Nat) :
    y ∈ candidates2 x ↔ ∃ i j, i < j ∧ j < NUM_BITS ∧ y = flip (flip x i) j := by
  have hN : NUM_BITS = 24 := rfl
  unfold candidates2
  rw [List.mem_flatMap]
  constructor
  · rintro ⟨i, hi, hy⟩
    rw [List.mem_map] at hy
    obtain ⟨j, hj, rfl⟩ := hy
    rw [List.mem_range] at hi
    rw [List.mem_range'_1] at hj
    exact ⟨i, j, by omega, by omega, rfl⟩
  · rintro ⟨i, j, hij, hj, rfl⟩
    refine ⟨i, List.mem_range.mpr (by omega), ?_⟩
    rw [List.mem_map]
    exact ⟨j, List.mem_range'_1.mpr (by omega), rfl⟩

/-! ## Claim on the enumeration of neighbours -/

/-- C20: for a vector `x` of width 24, the labels looked up by the first loop are 24
pairwise distinct vectors at Hamming distance exactly 1 from `x`, those looked up by the
second loop are `C(24, 2) = 276` pairwise distinct vectors at distance exactly 2, and
together they are all vectors of width 24 at distance 1 or 2 from `x`. -/
theorem candidates_enumerate (x : Nat) (hx : x < 2 ^ NUM_BITS) :
    (candidates1 x).length = NUM_BITS ∧ (candidates1 x).Nodup ∧
    (∀ y ∈ candidates1 x, hamming x y = 1) ∧
    (candidates2 x).length = Nat.choose NUM_BITS 2 ∧ Nat.choose NUM_BITS 2 = 276 ∧
    (candidates2 x).Nodup ∧
    (∀ y ∈ candidates2 x, hamming x y = 2) ∧
    (∀ y, y < 2 ^ NUM_BITS →
      ((hamming x y = 1 ∨ hamming x y = 2) ↔ y ∈ candidates1 x ++ candidates2 x)) := by
  have h1 : ∀ y ∈ candidates1 x, hamming x y = 1 := by
    intro y hy
    obtain ⟨i, hi, rfl⟩ := (mem_candidates1 x y).mp hy
    exact hamming_flip x hi
  have h2 : ∀ y ∈ candidates2 x, hamming x y = 2 := by
    intro y hy
    obtain ⟨i, j, hij, hj, rfl⟩ := (mem_candidates2 x y).mp hy
    exact hamming_flip_flip x hij hj
  refine ⟨?_, ?_, h1, ?_, by decide, ?_, h2, ?_⟩
  · unfold candidates1
    rw [List.length_map, List.length_range]
  · rw [candidates1_eq]
    exact List.Nodup.map (xor_left_injective x) masks1_nodup
  · rw [candidates2_eq, List.length_map, masks2_length]
    decide
  · rw [candidates2_eq]
    exact List.Nodup.map (xor_left_injective x) masks2_nodup
  · intro y hy
    rw [List.mem_append]
    constructor
    · rintro (h | h)
      · obtain ⟨i, hi, he⟩ := flip_of_hamming_one hx hy h
        exact Or.inl ((mem_candidates1 x y).mpr ⟨i, hi, he⟩)
      · obtain ⟨i, j, hij, hj, he⟩ := flips_of_hamming_two hx hy h
        exact Or.inr ((mem_candidates2 x y).mpr ⟨i, j, hij, hj, he⟩)
    · rintro (h | h)
      · exact Or.inl (h1 y h)
      · exact Or.inr (h2 y h)

/-- Witness for C20: the vector 5. -/
theorem candidates_enumerate_witness :
    5 < 2 ^ NUM_BITS ∧
    (candidates1 5).length = NUM_BITS ∧ (candidates1 5).Nodup ∧
    (∀ y ∈ candidates1 5, hamming 5 y = 1) ∧
    (candidates2 5).length = Nat.choose NUM_BITS 2 ∧ Nat.choose NUM_BITS 2 = 276 ∧
    (candidates2 5).Nodup ∧
    (∀ y ∈ candidates2 5, hamming 5 y = 2) ∧
    (∀ y, y < 2 ^ NUM_BITS →
      ((hamming 5 y = 1 ∨ hamming 5 y = 2) ↔ y ∈ candidates1 5 ++ candidates2 5)) :=
  ⟨by decide, candidates_enumerate 5 (by decide)⟩

/-! ## The loops once more, with the map and the edges that were used -/

theorem cluster_eq_phases (g : Graph) :
    cluster g =
      match phase1 g with
      | none => none
      | some st1 =>
        match phase2 st1 with
        | none => none
        | some st2 =>
          some (st2.1,
            (st2.1.vertex_vector.length + 2 ^ UINT_BITS - st2.2) % 2 ^ UINT_BITS) :=
  rfl

/-- Which vertices a pass through the loop body can newly join, and that `treeEdges`
does not go down. -/
theorem tryEdge_effect {g0 : Graph} (hl : Loaded g0) {st : Graph × Nat}
    (hi : CInv g0 st) {it : Nat} (current : Nat) (hit : it < size g0) :
    ∃ st1, tryEdge it current st = some st1 ∧ st.2 ≤ st1.2 ∧
      ∀ x y, root st1.1 x = root st1.1 y → root st.1 x = root st.1 y ∨
        ∃ cv, lookup g0 current = some cv ∧
          ((root st.1 x = root st.1 cv ∧ root st.1 y = root st.1 it) ∨
           (root st.1 x = root st.1 it ∧ root st.1 y = root st.1 cv)) := by
  obtain ⟨g, t⟩ := st
  have hlook : lookup g current = lookup g0 current := by rw [hi.look]
  cases hm : g.vertex_map current with
  | none =>
    exact ⟨_, tryEdge_absent hm, le_refl _, fun x y h => Or.inl h⟩
  | some q =>
    cases q with
    | none => exact ⟨_, tryEdge_null hm, le_refl _, fun x y h => Or.inl h⟩
    | some cv =>
      have hsome : lookup g0 current = some cv := by
        rw [← hlook]; unfold lookup; rw [hm]
      obtain ⟨hcv, _⟩ := (hl.look current cv).mp hsome
      have hf : Forest g := hi.forest
      have hsg : size g = size g0 := hi.len
      obtain ⟨g1, hg1, hc1⟩ := find_spec hf (x := cv) (by rw [hsg]; exact hcv)
      obtain ⟨hi1, hr1⟩ := cinv_of_compress hi hc1
      have hf1 : Forest g1 := hi1.forest
      have hsg1 : size g1 = size g0 := hi1.len
      obtain ⟨g2, hg2, hc2⟩ := find_spec hf1 (x := it) (by rw [hsg1]; exact hit)
      obtain ⟨hi2, hr2⟩ := cinv_of_compress hi1 hc2
      have hf2 : Forest g2 := hi2.forest
      have hsg2 : size g2 = size g0 := hi2.len
      have hr : root g2 = root g := hr2.trans hr1
      rw [tryEdge_found hm, hg1]
      simp only
      rw [hg2]
      simp only
      rw [hr1]
      by_cases hne : root g cv = root g it
      · rw [if_neg (not_not.mpr hne)]
        refine ⟨_, rfl, le_refl _, ?_⟩
        intro x y h
        have h' : root g2 x = root g2 y := h
        rw [hr] at h'
        exact Or.inl h'
      · rw [if_pos hne]
        obtain ⟨g3, hg3, hm3⟩ := merge_spec hf2 (u := cv) (v := it)
          (by rw [hsg2]; exact hcv) (by rw [hsg2]; exact hit)
        have hne2 : root g2 cv ≠ root g2 it := by rw [hr]; exact hne
        have hiff := merged_root_iff hm3 hne2
        have hnum := merged_numRoots hf2 (by rw [hsg2]; exact hcv) (by rw [hsg2]; exact hit)
          hm3 hne2
        have hcount : numRoots g2 + t = size g0 := hi2.count
        have hsz := loaded_size_lt hl
        rw [hg3]
        simp only
        have ht : (t + 1) % 2 ^ UINT_BITS = t + 1 := by
          apply Nat.mod_eq_of_lt
          omega
        rw [ht]
        refine ⟨_, rfl, Nat.le_succ t, ?_⟩
        intro x y h
        have h' : root g3 x = root g3 y := h
        rw [hiff x y, hr] at h'
        rcases h' with e | e | e
        · exact Or.inl e
        · exact Or.inr ⟨cv, hsome, Or.inl e⟩
        · exact Or.inr ⟨cv, hsome, Or.inr e⟩

theorem grows_refl (s : Graph × Nat) : Grows s s :=
  ⟨keeps_refl s, le_refl _, fun _ _ => rfl⟩

theorem grows_trans (a b c : Graph × Nat) (h1 : Grows a b) (h2 : Grows b c) : Grows a c := by
  refine ⟨keeps_trans a b c h1.1 h2.1, le_trans h1.2.1 h2.2.1, ?_⟩
  intro k hk
  have e1 := h1.2.2 k hk
  rw [h2.2.2 k (by rw [e1]; exact hk), e1]

theorem mapIndex_effect (m : VertexMap) (c : Nat) :
    (mapIndex m c).1 c ≠ none ∧
    (∀ k, m k ≠ none → (mapIndex m c).1 k = m k) ∧
    (∀ k, m k = none → (mapIndex m c).1 k = none ∨ (mapIndex m c).1 k = some none) := by
  unfold mapIndex
  cases hm : m c with
  | some v =>
    simp only
    refine ⟨by rw [hm]; exact Option.noConfusion, fun _ _ => trivial, fun k hk => Or.inl hk⟩
  | none =>
    simp only
    refine ⟨by simp, ?_, ?_⟩
    · intro k hk
      have : k ≠ c := fun e => hk (by rw [e]; exact hm)
      simp [this]
    · intro k hk
      by_cases e : k = c
      · right; simp [e]
      · left; simp [e, hk]

/-- One pass through the loop body, with everything that is tracked. -/
theorem tryEdge_full {A : Nat → Nat → Prop} {g0 : Graph} (hl : Loaded g0)
    {st : Graph × Nat} (hi : LInv A g0 st) {it current : Nat} (hit : it < size g0)
    (hadj : ∀ cv, lookup g0 current = some cv →
      hamming (nameOf g0 cv) (nameOf g0 it) ≤ 2 ∧ A cv it ∧ A it cv) :
    ∃ st1, tryEdge it current st = some st1 ∧ LInv A g0 st1 ∧ Grows st st1 ∧
      st1.1.vertex_map current ≠ none ∧
      ∀ cv, lookup g0 current = some cv → root st1.1 cv = root st1.1 it := by
  obtain ⟨st1, h1, hc1, hk1, hq1⟩ := tryEdge_spec hl (loaded_size_lt hl) hi.base hit
    (fun cv hcv => (hadj cv hcv).1)
  obtain ⟨st2, h2, hle, heff⟩ := tryEdge_effect hl hi.base current hit
  rw [h1] at h2
  have e : st1 = st2 := Option.some.inj h2
  rw [← e] at hle heff
  obtain ⟨_, _, hmap⟩ := tryEdge_frame h1
  obtain ⟨m1, m2, m3⟩ := mapIndex_effect st.1.vertex_map current
  rw [← hmap] at m1 m2 m3
  refine ⟨st1, h1, ⟨hc1, ?_, ?_, ?_⟩, ⟨hk1, hle, m2⟩, m1, hq1⟩
  · intro x y hx hy h
    rcases heff x y h with e1 | ⟨cv, hcv, e1 | e1⟩
    · exact hi.soundA x y hx hy e1
    · obtain ⟨hcvl, _⟩ := (hl.look current cv).mp hcv
      exact (hi.soundA x cv hx hcvl e1.1).trans
        ((Relation.ReflTransGen.single (hadj cv hcv).2.1).trans
          (hi.soundA it y hit hy e1.2.symm))
    · obtain ⟨hcvl, _⟩ := (hl.look current cv).mp hcv
      exact (hi.soundA x it hx hit e1.1).trans
        ((Relation.ReflTransGen.single (hadj cv hcv).2.2).trans
          (hi.soundA cv y hcvl hy e1.2.symm))
  · intro k hk
    rw [m2 k (by rw [hi.keep k hk]; exact hk)]
    exact hi.keep k hk
  · intro k hk
    rcases hi.fresh k hk with e1 | e1
    · exact m3 k e1
    · right
      rw [m2 k (by rw [e1]; exact Option.noConfusion)]
      exact e1

theorem vertex_loop {A : Nat → Nat → Prop} {g0 : Graph} (hl : Loaded g0)
    (cands : List Nat) {it : Nat} (hit : it < size g0)
    (hc : ∀ c ∈ cands, ∀ cv, lookup g0 c = some cv →
      hamming (nameOf g0 cv) (nameOf g0 it) ≤ 2 ∧ A cv it ∧ A it cv)
    {st : Graph × Nat} (hi : LInv A g0 st) :
    ∃ st1, cands.foldlM (fun s c => tryEdge it c s) st = some st1 ∧ LInv A g0 st1 ∧
      Grows st st1 ∧
      ∀ c ∈ cands, st1.1.vertex_map c ≠ none ∧
        ∀ cv, lookup g0 c = some cv → root st1.1 cv = root st1.1 it := by
  refine foldlM_inv (fun s c => tryEdge it c s) (LInv A g0) Grows
    (fun c s => s.1.vertex_map c ≠ none ∧
      ∀ cv, lookup g0 c = some cv → root s.1 cv = root s.1 it)
    grows_refl grows_trans ?_ cands ?_ st hi
  · intro c s s1 hq hg
    refine ⟨?_, fun cv hcv => hg.1 _ _ (hq.2 cv hcv)⟩
    rw [hg.2.2 c hq.1]; exact hq.1
  · intro s c hmem hs
    obtain ⟨s1, h1, h2, h3, h4, h5⟩ := tryEdge_full hl hs hit (hc c hmem)
    exact ⟨s1, h1, h2, h3, h4, h5⟩

theorem phase_loop {A : Nat → Nat → Prop} {g0 : Graph} (hl : Loaded g0)
    (cand : Nat → List Nat) (f : Graph × Nat → Nat → Option (Graph × Nat))
    (hf : ∀ st it, f st it = (cand (nameOf st.1 it)).foldlM (fun s c => tryEdge it c s) st)
    (hc : ∀ it, it < size g0 → ∀ c ∈ cand (nameOf g0 it), ∀ cv, lookup g0 c = some cv →
      hamming (nameOf g0 cv) (nameOf g0 it) ≤ 2 ∧ A cv it ∧ A it cv)
    {st : Graph × Nat} (hi : LInv A g0 st) :
    ∃ st1, (List.range (size g0)).foldlM f st = some st1 ∧ LInv A g0 st1 ∧ Grows st st1 ∧
      ∀ it, it < size g0 → ∀ c ∈ cand (nameOf g0 it), st1.1.vertex_map c ≠ none ∧
        ∀ cv, lookup g0 c = some cv → root st1.1 cv = root st1.1 it := by
  obtain ⟨st1, h1, h2, h3, h4⟩ := foldlM_inv f (LInv A g0) Grows
    (fun it s => ∀ c ∈ cand (nameOf g0 it), s.1.vertex_map c ≠ none ∧
      ∀ cv, lookup g0 c = some cv → root s.1 cv = root s.1 it)
    grows_refl grows_trans
    (fun it s s1 hq hg c hcm => by
      obtain ⟨q1, q2⟩ := hq c hcm
      refine ⟨?_, fun cv hcv => hg.1 _ _ (q2 cv hcv)⟩
      rw [hg.2.2 c q1]; exact q1)
    (List.range (size g0))
    (fun s it hmem hs => by
      have hit := List.mem_range.mp hmem
      rw [hf s it, hs.base.names]
      exact vertex_loop hl _ hit (hc it hit) hs)
    st hi
  exact ⟨st1, h1, h2, h3, fun it hit => h4 it (List.mem_range.mpr hit)⟩

theorem linv_init {g0 : Graph} (hl : Loaded g0) (A : Nat → Nat → Prop) :
    LInv A g0 (g0, 0) := by
  refine ⟨cinv_init hl, ?_, fun _ _ => rfl, fun _ hk => Or.inl hk⟩
  intro x y _ _ h
  have h' : root g0 x = root g0 y := h
  rw [root_of_self (hl.self x), root_of_self (hl.self y)] at h'
  rw [h']

theorem linv_mono {A B : Nat → Nat → Prop} {g0 : Graph} {st : Graph × Nat}
    (hAB : ∀ i j, A i j → B i j) (hi : LInv A g0 st) : LInv B g0 st :=
  ⟨hi.base, fun x y hx hy h => Relation.ReflTransGen.mono hAB (hi.soundA x y hx hy h),
    hi.keep, hi.fresh⟩

/-- The first loop on a loaded graph: it returns, merged vertices are joined by chains
of distance-1 steps, and every candidate label has been looked up. -/
theorem phase1_spec {g0 : Graph} (hl : Loaded g0) :
    ∃ st1, phase1 g0 = some st1 ∧ LInv (Adj1 g0) g0 st1 ∧ Grows (g0, 0) st1 ∧
      ∀ it, it < size g0 → ∀ c ∈ candidates1 (nameOf g0 it),
        st1.1.vertex_map c ≠ none ∧
        ∀ cv, lookup g0 c = some cv → root st1.1 cv = root st1.1 it := by
  refine phase_loop hl candidates1 phase1Vertex phase1Vertex_candidates ?_
    (linv_init hl (Adj1 g0))
  intro it hit c hcm cv hcv
  obtain ⟨i, hi, rfl⟩ := (mem_candidates1 _ _).mp hcm
  obtain ⟨hcvl, hname⟩ := (hl.look _ cv).mp hcv
  have h1 : hamming (nameOf g0 it) (nameOf g0 cv) = 1 := by
    rw [hname]; exact hamming_flip _ hi
  have h2 : hamming (nameOf g0 cv) (nameOf g0 it) = 1 := by
    rw [hamming_comm]; exact h1
  exact ⟨by omega, ⟨hcvl, hit, h2⟩, ⟨hit, hcvl, h1⟩⟩

/-- The second loop on a state of the first loop: it returns, merged vertices are joined
by chains of steps of distance at most 2, and every candidate label has been looked up. -/
theorem phase2_spec {g0 : Graph} (hl : Loaded g0) {st1 : Graph × Nat}
    (hi : LInv (Adj g0) g0 st1) :
    ∃ st2, phase2 st1 = some st2 ∧ LInv (Adj g0) g0 st2 ∧ Grows st1 st2 ∧
      ∀ it, it < size g0 → ∀ c ∈ candidates2 (nameOf g0 it),
        st2.1.vertex_map c ≠ none ∧
        ∀ cv, lookup g0 c = some cv → root st2.1 cv = root st2.1 it := by
  have hlen : st1.1.vertex_vector.length = size g0 := hi.base.len
  unfold phase2
  rw [hlen]
  refine phase_loop hl candidates2 phase2Vertex phase2Vertex_candidates ?_ hi
  intro it hit c hcm cv hcv
  obtain ⟨i, j, hij, hj, rfl⟩ := (mem_candidates2 _ _).mp hcm
  obtain ⟨hcvl, hname⟩ := (hl.look _ cv).mp hcv
  have h1 : hamming (nameOf g0 it) (nameOf g0 cv) = 2 := by
    rw [hname]; exact hamming_flip_flip _ hij hj
  have h2 : hamming (nameOf g0 cv) (nameOf g0 it) = 2 := by
    rw [hamming_comm]; exact h1
  exact ⟨by omega, ⟨hcvl, hit, by omega⟩, ⟨hit, hcvl, by omega⟩⟩

theorem adj1_adj {g : Graph} (i j : Nat) (h : Adj1 g i j) : Adj g i j :=
  ⟨h.1, h.2.1, by rw [h.2.2]; exact Nat.le_succ 1⟩

/-- Both loops on a loaded graph, with the state between them. -/
theorem phases_spec {g0 : Graph} (hl : Loaded g0) :
    ∃ st1 st2, phase1 g0 = some st1 ∧ phase2 st1 = some st2 ∧
      cluster g0 = some (st2.1, numRoots st2.1) ∧
      LInv (Adj1 g0) g0 st1 ∧ LInv (Adj g0) g0 st2 ∧ Grows st1 st2 ∧
      (∀ it, it < size g0 → ∀ c ∈ candidates1 (nameOf g0 it),
        st1.1.vertex_map c ≠ none ∧
        ∀ cv, lookup g0 c = some cv → root st1.1 cv = root st1.1 it) ∧
      (∀ it, it < size g0 → ∀ c ∈ candidates2 (nameOf g0 it),
        st2.1.vertex_map c ≠ none) := by
  obtain ⟨st1, h1, hi1, _, hq1⟩ := phase1_spec hl
  obtain ⟨st2, h2, hi2, hg2, hq2⟩ := phase2_spec hl (linv_mono adj1_adj hi1)
  refine ⟨st1, st2, h1, h2, ?_, hi1, hi2, hg2, hq1, fun it hit c hc => (hq2 it hit c hc).1⟩
  rw [cluster_eq_phases, h1]
  simp only
  rw [h2]
  simp only
  have hlen : st2.1.vertex_vector.length = size g0 := hi2.base.len
  have hcount := hi2.base.count
  have hlt := loaded_size_lt hl
  rw [hlen]
  congr 2
  have e : size g0 + 2 ^ UINT_BITS - st2.2 = numRoots st2.1 + 2 ^ UINT_BITS := by omega
  rw [e, Nat.add_mod_right]
  exact Nat.mod_eq_of_lt (by omega)

theorem rtg_path {A R : Nat → Nat → Prop} {n : Nat} (hA : ∀ i j, A i j → j < n ∧ R i j)
    {x y : Nat} (h : Relation.ReflTransGen A x y) (hx : x < n) :
    ∃ path : List Nat, path.head? = some x ∧ path.getLast? = some y ∧
      (∀ v ∈ path, v < n) ∧ List.Chain' R path := by
  revert hx
  refine Relation.ReflTransGen.head_induction_on
    (P := fun a _ => a < n → ∃ path : List Nat, path.head? = some a ∧
      path.getLast? = some y ∧ (∀ v ∈ path, v < n) ∧ List.Chain' R path) h ?_ ?_
  · intro hy
    refine ⟨[y], rfl, rfl, ?_, List.chain'_singleton y⟩
    intro v hv
    rw [List.mem_singleton] at hv
    rw [hv]; exact hy
  · intro a c hac _ ih ha
    obtain ⟨path, hh, hlast, hmem, hch⟩ := ih (hA a c hac).1
    cases path with
    | nil => exact Option.noConfusion hh
    | cons z zs =>
      have hz : z = c := Option.some.inj hh
      subst hz
      refine ⟨a :: z :: zs, rfl, ?_, ?_, ?_⟩
      · rw [List.getLast?_cons_cons]; exact hlast
      · intro v hv
        rcases List.mem_cons.mp hv with e | e
        · rw [e]; exact ha
        · exact hmem v e
      · refine List.Chain'.cons' hch ?_
        intro w hw
        have : z = w := Option.some.inj hw
        rw [← this]
        exact (hA a z hac).2

theorem path_rtg {A R : Nat → Nat → Prop} {n : Nat}
    (hA : ∀ i j, i < n → j < n → R i j → A i j) :
    ∀ (path : List Nat) (x y : Nat), path.head? = some x → path.getLast? = some y →
      (∀ v ∈ path, v < n) → List.Chain' R path → Relation.ReflTransGen A x y := by
  intro path
  induction path with
  | nil => intro x y hh; exact Option.noConfusion hh
  | cons a rest ih =>
    intro x y hh hlast hmem hch
    have hax : a = x := Option.some.inj hh
    subst hax
    cases rest with
    | nil =>
      have : a = y := Option.some.inj hlast
      rw [this]
    | cons b rest1 =>
      rw [List.getLast?_cons_cons] at hlast
      rw [List.chain'_cons] at hch
      have hstep : A a b := hA a b (hmem a (List.mem_cons_self _ _))
        (hmem b (List.mem_cons_of_mem _ (List.mem_cons_self _ _))) hch.1
      exact Relation.ReflTransGen.head hstep
        (ih b y rfl hlast (fun v hv => hmem v (List.mem_cons_of_mem _ hv)) hch.2)

/-! ## Claims on the map and on the first loop -/

/-- C14, as stated, fails on the graph loaded from the single label 0: the label 1 has no
entry in `vertex_map` before `cluster` and an entry holding `nullptr` after it. -/
theorem cluster_adds_null_entry :
    ∃ g k, cluster (loadLabels Graph.empty [0]) = some (g, k) ∧
      (loadLabels Graph.empty [0]).vertex_map 1 = none ∧ g.vertex_map 1 = some none := by
  have hl : Loaded (loadLabels Graph.empty [0]) :=
    loadLabels_loaded [0] loaded_empty (by decide)
  obtain ⟨st1, st2, _, _, hcl, _, hi2, hg, hq1, _⟩ := phases_spec hl
  have h0 : (loadLabels Graph.empty [0]).vertex_map 1 = none := rfl
  refine ⟨st2.1, _, hcl, h0, ?_⟩
  have h1 : st1.1.vertex_map 1 ≠ none :=
    (hq1 0 (by decide) 1 (by decide)).1
  have h2 : st2.1.vertex_map 1 ≠ none := by
    rw [hg.2.2 1 h1]; exact h1
  rcases hi2.fresh 1 h0 with e | e
  · exact absurd e h2
  · exact e

/-- C14, amended: `cluster` leaves every entry of `vertex_map` that was there before with
the pointer it had, so every label is still mapped to the same vertex or to none; a new
entry holds `nullptr`, and every neighbour label that was looked up and had no entry has
one afterwards. -/
theorem cluster_map_effect (labels : List Nat) (hb : ∀ v ∈ labels, v < 2 ^ NUM_BITS) :
    ∃ g k, cluster (loadLabels Graph.empty labels) = some (g, k) ∧
      (∀ key, (loadLabels Graph.empty labels).vertex_map key ≠ none →
        g.vertex_map key = (loadLabels Graph.empty labels).vertex_map key) ∧
      (∀ key, lookup g key = lookup (loadLabels Graph.empty labels) key) ∧
      (∀ key, (loadLabels Graph.empty labels).vertex_map key = none →
        g.vertex_map key = none ∨ g.vertex_map key = some none) ∧
      (∀ it, it < size (loadLabels Graph.empty labels) →
        ∀ c ∈ candidates1 (nameOf (loadLabels Graph.empty labels) it) ++
            candidates2 (nameOf (loadLabels Graph.empty labels) it),
          (loadLabels Graph.empty labels).vertex_map c = none →
            g.vertex_map c = some none) := by
  have hl := loadLabels_loaded labels loaded_empty hb
  obtain ⟨st1, st2, _, _, hcl, _, hi2, hg, hq1, hq2⟩ := phases_spec hl
  refine ⟨st2.1, _, hcl, hi2.keep, fun key => by rw [hi2.base.look], hi2.fresh, ?_⟩
  intro it hit c hc h0
  have hne : st2.1.vertex_map c ≠ none := by
    rcases List.mem_append.mp hc with h | h
    · have h1 := (hq1 it hit c h).1
      rw [hg.2.2 c h1]; exact h1
    · exact hq2 it hit c h
  rcases hi2.fresh c h0 with e | e
  · exact absurd e hne
  · exact e

/-- Witness for the amended C14: the labels 0 and 7. -/
theorem cluster_map_effect_witness :
    (∀ v ∈ [0, 7], v < 2 ^ NUM_BITS) ∧
    ∃ g k, cluster (loadLabels Graph.empty [0, 7]) = some (g, k) ∧
      (∀ key, (loadLabels Graph.empty [0, 7]).vertex_map key ≠ none →
        g.vertex_map key = (loadLabels Graph.empty [0, 7]).vertex_map key) ∧
      (∀ key, lookup g key = lookup (loadLabels Graph.empty [0, 7]) key) ∧
      (∀ key, (loadLabels Graph.empty [0, 7]).vertex_map key = none →
        g.vertex_map key = none ∨ g.vertex_map key = some none) ∧
      (∀ it, it < size (loadLabels Graph.empty [0, 7]) →
        ∀ c ∈ candidates1 (nameOf (loadLabels Graph.empty [0, 7]) it) ++
            candidates2 (nameOf (loadLabels Graph.empty [0, 7]) it),
          (loadLabels Graph.empty [0, 7]).vertex_map c = none →
            g.vertex_map c = some none) :=
  ⟨by decide, cluster_map_effect [0, 7] (by decide)⟩

theorem phase1_complete {g0 : Graph} (hl : Loaded g0) {st1 : Graph × Nat}
    (hq1 : ∀ it, it < size g0 → ∀ c ∈ candidates1 (nameOf g0 it),
      st1.1.vertex_map c ≠ none ∧
      ∀ cv, lookup g0 c = some cv → root st1.1 cv = root st1.1 it)
    {x y : Nat} (h : Relation.ReflTransGen (Adj1 g0) x y) : root st1.1 x = root st1.1 y := by
  induction h with
  | refl => rfl
  | @tail b c _ hbc ih =>
    obtain ⟨hb, hc, hd⟩ := hbc
    obtain ⟨i, hi, he⟩ := flip_of_hamming_one (hl.bound b hb) (hl.bound c hc) hd
    have hlk : lookup g0 (flip (nameOf g0 b) i) = some c := by
      rw [← he]; exact (hl.look _ c).mpr ⟨hc, rfl⟩
    have := (hq1 b hb _ ((mem_candidates1 _ _).mpr ⟨i, hi, rfl⟩)).2 c hlk
    exact ih.trans this.symm

/-- C19: when the first loop of `cluster` has run on a loaded list of vectors, two
vertices have the same `find` result exactly when they are joined by a chain of vertices
with consecutive labels at Hamming distance 1; and when consecutive loaded vectors are
at distance 1 from each other (a chain such as 000, 001, 011, 111), the first loop
leaves a single root and the second loop returns with `treeEdges` unchanged, so it
performs no merge, and `cluster` returns 1. -/
theorem phase1_result (labels : List Nat) (hb : ∀ v ∈ labels, v < 2 ^ NUM_BITS) :
    ∃ st1, phase1 (loadLabels Graph.empty labels) = some st1 ∧
      size st1.1 = size (loadLabels Graph.empty labels) ∧
      nameOf st1.1 = nameOf (loadLabels Graph.empty labels) ∧
      (∀ x y, x < size st1.1 → y < size st1.1 →
        (findRep st1.1 x = findRep st1.1 y ↔ Joined1 st1.1 x y)) ∧
      (0 < size st1.1 →
        (∀ x, x + 1 < size st1.1 →
          hamming (nameOf st1.1 x) (nameOf st1.1 (x + 1)) = 1) →
        numRoots st1.1 = 1 ∧
        ∃ st2, phase2 st1 = some st2 ∧ st2.2 = st1.2 ∧
          cluster (loadLabels Graph.empty labels) = some (st2.1, 1)) := by
  have hl := loadLabels_loaded labels loaded_empty hb
  obtain ⟨st1, st2, h1, h2, hcl, hi1, hi2, hg, hq1, _⟩ := phases_spec hl
  have hlen := hi1.base.len
  have hnm := hi1.base.names
  have hf := hi1.base.forest
  refine ⟨st1, h1, hlen, hnm, ?_, ?_⟩
  · intro x y hx hy
    rw [findRep_eq hf hx, findRep_eq hf hy]
    unfold Joined1
    rw [hlen, hnm]
    rw [hlen] at hx hy
    constructor
    · intro h
      exact rtg_path (fun i j hij => ⟨hij.2.1, hij.2.2⟩)
        (hi1.soundA x y hx hy (Option.some.inj h)) hx
    · rintro ⟨path, hh, hlast, hmem, hch⟩
      rw [phase1_complete hl hq1
        (path_rtg (fun i j hi hj hr => ⟨hi, hj, hr⟩) path x y hh hlast hmem hch)]
  · intro hpos hchain
    rw [hlen] at hpos
    rw [hlen, hnm] at hchain
    have hall : ∀ x, x < size (loadLabels Graph.empty labels) →
        root st1.1 x = root st1.1 0 := by
      intro x
      induction x with
      | zero => intro _; rfl
      | succ x ih =>
        intro hx
        have hx0 : x < size (loadLabels Graph.empty labels) := by omega
        have := phase1_complete hl hq1
          (Relation.ReflTransGen.single (⟨hx0, hx, hchain x hx⟩ :
            Adj1 (loadLabels Graph.empty labels) x (x + 1)))
        rw [← this]; exact ih hx0
    have hone : numRoots st1.1 = 1 := by
      rw [numRoots_eq_image hf, hlen]
      have himg : (Finset.range (size (loadLabels Graph.empty labels))).image (root st1.1) =
          {root st1.1 0} := by
        ext r
        rw [Finset.mem_image, Finset.mem_singleton]
        constructor
        · rintro ⟨x, hx, rfl⟩; exact hall x (Finset.mem_range.mp hx)
        · intro e; exact ⟨0, Finset.mem_range.mpr hpos, e.symm⟩
      rw [himg, Finset.card_singleton]
    have hc1 := hi1.base.count
    have hc2 := hi2.base.count
    have hpos2 : 0 < numRoots st2.1 :=
      numRoots_pos hi2.base.forest (by rw [hi2.base.len]; exact hpos)
    have hmono := hg.2.1
    have ht : st2.2 = st1.2 := by omega
    have hk : numRoots st2.1 = 1 := by omega
    rw [hk] at hcl
    exact ⟨hone, st2, h2, ht, hcl⟩

/-- Witness for C19: on the labels 0, 1, 3 and 7 (000, 001, 011, 111) the first loop
leaves one root, the second loop leaves `treeEdges` as it is, and `cluster` returns 1. -/
theorem phase1_result_witness :
    (∀ v ∈ [0, 1, 3, 7], v < 2 ^ NUM_BITS) ∧
    ∃ st1, phase1 (loadLabels Graph.empty [0, 1, 3, 7]) = some st1 ∧
      (∀ x y, x < size st1.1 → y < size st1.1 →
        (findRep st1.1 x = findRep st1.1 y ↔ Joined1 st1.1 x y)) ∧
      numRoots st1.1 = 1 ∧
      ∃ st2, phase2 st1 = some st2 ∧ st2.2 = st1.2 ∧
        cluster (loadLabels Graph.empty [0, 1, 3, 7]) = some (st2.1, 1) := by
  obtain ⟨st1, h1, hlen, hnm, hiff, hchain⟩ := phase1_result [0, 1, 3, 7] (by decide)
  have hs : size (loadLabels Graph.empty [0, 1, 3, 7]) = 4 := rfl
  obtain ⟨hone, st2, h2, ht, hcl⟩ := hchain (by rw [hlen, hs]; decide) (by
    intro x hx
    rw [hlen, hs] at hx
    rw [hnm]
    have hx3 : x < 3 := by omega
    interval_cases x <;> decide)
  exact ⟨by decide, st1, h1, hiff, hone, st2, h2, ht, hcl⟩

/-! ## Example states -/

theorem demo1_eq : merge demo0 0 1 = some demo1 := rfl

theorem demo2_eq : merge demo1 2 3 = some demo2 := rfl

theorem demo3_eq : merge demo2 0 2 = some demo3 := rfl

theorem demo2_vector :
    demo2.vertex_vector = [⟨0, 0, 1⟩, ⟨1, 1, 1⟩, ⟨2, 0, 3⟩, ⟨3, 1, 3⟩] := rfl

theorem demo3_vector :
    demo3.vertex_vector = [⟨0, 0, 1⟩, ⟨1, 1, 3⟩, ⟨2, 0, 3⟩, ⟨3, 2, 3⟩] := rfl

theorem demo2_proper : Proper demo2 :=
  Proper.merge demo1 2 3 demo2
    (Proper.merge demo0 0 1 demo1 (Proper.load [0, 1, 2, 3] (by decide))
      (by decide) (by decide) (by decide) demo1_eq)
    (by decide) (by decide) (by decide) demo2_eq

theorem demo3_proper : Proper demo3 :=
  Proper.merge demo2 0 2 demo3 demo2_proper (by decide) (by decide) (by decide) demo3_eq

theorem demo3_iterates (k : Nat) : (parentOf demo3)^[k + 2] 0 = 3 := by
  rw [Function.iterate_add_apply]
  exact Function.iterate_fixed (by decide) k

theorem demo3_path (y : Nat) (h : ∃ k, (parentOf demo3)^[k] 0 = y) :
    y = 0 ∨ y = 1 ∨ y = 3 := by
  obtain ⟨k, rfl⟩ := h
  match k with
  | 0 => exact Or.inl rfl
  | 1 => exact Or.inr (Or.inl rfl)
  | k + 2 => exact Or.inr (Or.inr (demo3_iterates k))

/-! ## Witnesses on states with parent links -/

/-- Witness for C10: in `demo3` (reached by three merges) vertex 0 has parent 1, whose
parent is the root 3; `find 0` returns 3, and so do `find 3` and a second `find 0`. -/
theorem find_idempotent_witness :
    Reachable demo3 ∧ 0 < size demo3 ∧
    parentOf demo3 0 = 1 ∧ parentOf demo3 1 = 3 ∧
    ∃ g1 g2 g3, find demo3 0 = some (g1, 3) ∧ find g1 3 = some (g2, 3) ∧
      find g2 0 = some (g3, 3) := by
  obtain ⟨g1, r, g2, g3, h1, h2, h3⟩ :=
    find_idempotent demo3 (proper_reachable demo3_proper) 0 (by decide)
  have hr : findRep demo3 0 = some r := by unfold findRep; rw [h1]; rfl
  have h3' : findRep demo3 0 = some 3 := by decide
  have e : r = 3 := Option.some.inj (hr.symm.trans h3')
  subst e
  exact ⟨proper_reachable demo3_proper, by decide, by decide, by decide, g1, g2, g3, h1, h2, h3⟩

/-- Witness for C12: in `demo2` (roots 1 and 3, vertices 0 and 2 hanging under them)
`merge 0 2` joins two different components and takes the number of roots from 2 to 1,
and `find` on the non-root 0 leaves it at 2. -/
theorem merge_find_numRoots_witness :
    Reachable demo2 ∧ findRep demo2 0 ≠ findRep demo2 2 ∧ parentOf demo2 0 ≠ 0 ∧
    numRoots demo2 = 2 ∧
    (∃ g1, merge demo2 0 2 = some g1 ∧ numRoots g1 + 1 = numRoots demo2) ∧
    (∃ g1 r, find demo2 0 = some (g1, r) ∧ numRoots g1 = numRoots demo2) :=
  ⟨proper_reachable demo2_proper, by decide, by decide, by decide,
    (merge_find_numRoots demo2 (proper_reachable demo2_proper)).1 0 2 (by decide) (by decide)
      (by decide),
    (merge_find_numRoots demo2 (proper_reachable demo2_proper)).2 0 (by decide)⟩

/-- Witness for C15: in `demo3` (reached by three merges) vertex 0 has parent 1, whose
parent is the root 3: a root is reached, there is no cycle through 0, and `find 0`
returns. -/
theorem proper_forest_witness :
    Proper demo3 ∧ 0 < size demo3 ∧
    parentOf demo3 0 = 1 ∧ parentOf demo3 1 = 3 ∧ parentOf demo3 3 = 3 ∧
    (∃ k, k < size demo3 ∧
      parentOf demo3 ((parentOf demo3)^[k] 0) = (parentOf demo3)^[k] 0) ∧
    (∀ k, 0 < k → (parentOf demo3)^[k] 0 = 0 → parentOf demo3 0 = 0) ∧
    ∃ g1 r, find demo3 0 = some (g1, r) :=
  ⟨demo3_proper, by decide, by decide, by decide, by decide,
    proper_forest demo3 demo3_proper 0 (by decide)⟩

/-- Witness for C16: in `demo3` the parent path of vertex 0 is 0, 1, 3; `find 0` returns
3 and leaves 0 and 1 with parent 3, vertex 2 (off the path) with the parent it had, and
all ranks as they were. -/
theorem find_compresses_path_witness :
    Forest demo3 ∧ 0 < size demo3 ∧
    parentOf demo3 0 = 1 ∧ parentOf demo3 1 = 3 ∧
    ∃ g1, find demo3 0 = some (g1, 3) ∧
      parentOf g1 0 = 3 ∧ parentOf g1 1 = 3 ∧ parentOf g1 3 = 3 ∧
      parentOf g1 2 = parentOf demo3 2 ∧ rankOf g1 = rankOf demo3 := by
  have hF : Forest demo3 := reachable_forest (proper_reachable demo3_proper)
  obtain ⟨g1, r, h1, _, _, hon, hoff, hrk⟩ := find_compresses_path demo3 hF 0 (by decide)
  have hr : findRep demo3 0 = some r := by unfold findRep; rw [h1]; rfl
  have h3 : findRep demo3 0 = some 3 := by decide
  have e : r = 3 := Option.some.inj (hr.symm.trans h3)
  subst e
  refine ⟨hF, by decide, by decide, by decide, g1, h1, hon 0 ⟨0, rfl⟩, hon 1 ⟨1, rfl⟩,
    hon 3 ⟨2, rfl⟩, hoff 2 ?_, hrk⟩
  intro h
  rcases demo3_path 2 h with e | e | e <;> exact absurd e (by decide)

/-- Witness for C18: in `demo3` the root 3 has rank 2 and a tree of 4 = 2 ^ 2 vertices,
and every vertex reaches it in at most 2 steps. -/
theorem rank_bounds_height_witness :
    Proper demo3 ∧ 3 < size demo3 ∧ parentOf demo3 3 = 3 ∧
    rankOf demo3 3 = 2 ∧ treeSize demo3 3 = 4 ∧
    (∀ x, root demo3 x = 3 ↔ ∃ k, (parentOf demo3)^[k] x = 3) ∧
    2 ^ rankOf demo3 3 ≤ treeSize demo3 3 ∧
    (∀ x, x < size demo3 → root demo3 x = 3 →
      ∃ k, (parentOf demo3)^[k] x = 3 ∧ k ≤ rankOf demo3 3 ∧
        k ≤ Nat.log 2 (treeSize demo3 3)) :=
  ⟨demo3_proper, by decide, by decide, by decide, by decide,
    rank_bounds_height demo3 demo3_proper 3 (by decide) (by decide)⟩

/-! ## Union by rank on any forest -/

/-- On any forest, `merge` of vertices in different trees: where the pointers and ranks
of the two roots end up; the rank of `rv` is incremented as an `unsigned int`. -/
theorem merge_forest_detail {g : Graph} (hf : Forest g) {u v : Nat} (hu : u < size g)
    (hv : v < size g) (hne : root g u ≠ root g v) :
    ∃ g1, merge g u v = some g1 ∧
      (rankOf g (root g v) < rankOf g (root g u) →
        parentOf g1 (root g v) = root g u ∧ parentOf g1 (root g u) = root g u ∧
        rankOf g1 = rankOf g) ∧
      (rankOf g (root g u) < rankOf g (root g v) →
        parentOf g1 (root g u) = root g v ∧ parentOf g1 (root g v) = root g v ∧
        rankOf g1 = rankOf g) ∧
      (rankOf g (root g u) = rankOf g (root g v) →
        parentOf g1 (root g u) = root g v ∧ parentOf g1 (root g v) = root g v ∧
        rankOf g1 (root g v) = (rankOf g (root g v) + 1) % 2 ^ UINT_BITS ∧
        ∀ y, y ≠ root g v → rankOf g1 y = rankOf g y) := by
  obtain ⟨g2, hc, h1, h2, h3⟩ := merge_cases hf hu hv
  have hul : root g u < size g2 := by rw [hc.size]; exact root_lt hf hu
  have hvl : root g v < size g2 := by rw [hc.size]; exact root_lt hf hv
  have hur : parentOf g2 (root g u) = root g u :=
    (compress_isRoot hf hc _).mpr (root_fixed hf u)
  have hvr : parentOf g2 (root g v) = root g v :=
    (compress_isRoot hf hc _).mpr (root_fixed hf v)
  rcases Nat.lt_trichotomy (rankOf g (root g u)) (rankOf g (root g v)) with hlt | heq | hgt
  · have hp : ∀ y, parentOf (setParent g2 (root g u) (root g v)) y =
        if y = root g u then root g v else parentOf g2 y :=
      fun y => parentOf_setParent g2 _ _ y hul
    have hrk : rankOf (setParent g2 (root g u) (root g v)) = rankOf g := by
      rw [rankOf_setParent, hc.ranks]
    refine ⟨_, h2 hlt, fun h => absurd h (by omega), ?_, fun h => absurd h (by omega)⟩
    intro _
    refine ⟨?_, ?_, hrk⟩
    · rw [hp, if_pos rfl]
    · rw [hp, if_neg (Ne.symm hne)]; exact hvr
  · have hp : ∀ y, parentOf (setRank (setParent g2 (root g u) (root g v)) (root g v)
          ((rankOf g (root g v) + 1) % 2 ^ UINT_BITS)) y =
        if y = root g u then root g v else parentOf g2 y := by
      intro y
      rw [parentOf_setRank]
      exact parentOf_setParent g2 _ _ y hul
    have hrk : ∀ y, rankOf (setRank (setParent g2 (root g u) (root g v)) (root g v)
          ((rankOf g (root g v) + 1) % 2 ^ UINT_BITS)) y =
        if y = root g v then (rankOf g (root g v) + 1) % 2 ^ UINT_BITS else rankOf g y := by
      intro y
      rw [rankOf_setRank _ _ _ y (by rw [size_setParent]; exact hvl), rankOf_setParent,
        hc.ranks]
    refine ⟨_, h3 heq, fun h => absurd h (by omega), fun h => absurd h (by omega), ?_⟩
    intro _
    refine ⟨?_, ?_, ?_, ?_⟩
    · rw [hp, if_pos rfl]
    · rw [hp, if_neg (Ne.symm hne)]; exact hvr
    · rw [hrk, if_pos rfl]
    · intro y hy; rw [hrk, if_neg hy]
  · have hp : ∀ y, parentOf (setParent g2 (root g v) (root g u)) y =
        if y = root g v then root g u else parentOf g2 y :=
      fun y => parentOf_setParent g2 _ _ y hvl
    have hrk : rankOf (setParent g2 (root g v) (root g u)) = rankOf g := by
      rw [rankOf_setParent, hc.ranks]
    refine ⟨_, h1 hgt, ?_, fun h => absurd h (by omega), fun h => absurd h (by omega)⟩
    intro _
    refine ⟨?_, ?_, hrk⟩
    · rw [hp, if_pos rfl]
    · rw [hp, if_neg hne]; exact hur

theorem maxRankPair_forest : Forest maxRankPair := by
  unfold maxRankPair
  refine forest_congr ?_ ?_
    (loaded_forest (loadLabels_loaded [0, 1] loaded_empty (by decide)))
  · rw [size_setRank, size_setRank]
  · rw [parentOf_setRank, parentOf_setRank]

/-! ## Claim on union by rank -/

/-- C17, as stated, fails on the forest `maxRankPair`: the roots 0 and 1 both have rank
`2 ^ 32 - 1`, `merge(0, 1)` attaches 0 under 1, and the rank of 1 does not go up by 1
but wraps to 0. -/
theorem merge_rank_wraps :
    Forest maxRankPair ∧
    findRep maxRankPair 0 = some 0 ∧ findRep maxRankPair 1 = some 1 ∧
    rankOf maxRankPair 0 = 4294967295 ∧ rankOf maxRankPair 1 = 4294967295 ∧
    ∃ g1, merge maxRankPair 0 1 = some g1 ∧ parentOf g1 0 = 1 ∧ rankOf g1 1 = 0 :=
  ⟨maxRankPair_forest, by decide, by decide, by decide, by decide,
    (merge maxRankPair 0 1).getD maxRankPair, rfl, by decide, by decide⟩

/-- C17, amended: on every forest, for `u` and `v` with different `find` results `ru` and
`rv`, `merge u v` returns and: if one root has strictly lower rank it is attached under
the other and no rank changes; if the ranks are equal `ru` is attached under `rv`, the
rank of `rv` becomes `rank rv + 1` modulo `2 ^ 32`, which is exactly `rank rv + 1`
whenever `rank rv < 2 ^ 32 - 1`, and no other rank changes. In every state reached by
loading, `find` and `merge` on different components the rank of a root is below
`2 ^ 32 - 1`. -/
theorem merge_union_by_rank (g : Graph) (hf : Forest g) (u v : Nat) (hu : u < size g)
    (hv : v < size g) (hne : findRep g u ≠ findRep g v) :
    ∃ ru rv g1, findRep g u = some ru ∧ findRep g v = some rv ∧
      merge g u v = some g1 ∧
      (rankOf g rv < rankOf g ru →
        parentOf g1 rv = ru ∧ parentOf g1 ru = ru ∧ rankOf g1 = rankOf g) ∧
      (rankOf g ru < rankOf g rv →
        parentOf g1 ru = rv ∧ parentOf g1 rv = rv ∧ rankOf g1 = rankOf g) ∧
      (rankOf g ru = rankOf g rv →
        parentOf g1 ru = rv ∧ parentOf g1 rv = rv ∧
        rankOf g1 rv = (rankOf g rv + 1) % 2 ^ UINT_BITS ∧
        (rankOf g rv + 1 < 2 ^ UINT_BITS → rankOf g1 rv = rankOf g rv + 1) ∧
        ∀ y, y ≠ rv → rankOf g1 y = rankOf g y) ∧
      (Proper g → rankOf g rv + 1 < 2 ^ UINT_BITS) := by
  obtain ⟨g1, hm, h1, h2, h3⟩ := merge_forest_detail hf hu hv
    (root_ne_of_findRep_ne hf hu hv hne)
  refine ⟨root g u, root g v, g1, findRep_eq hf hu, findRep_eq hf hv, hm, h1, h2, ?_, ?_⟩
  · intro heq
    obtain ⟨a1, a2, a3, a4⟩ := h3 heq
    refine ⟨a1, a2, a3, ?_, a4⟩
    intro hlt
    rw [a3, Nat.mod_eq_of_lt hlt]
  · intro hp
    exact rank_small (proper_ranked hp) (root_lt hf hv) (root_fixed hf v)

/-- Witness for the amended C17: in `demo2` the vertices 0 and 2 have the roots 1 and 3,
both of rank 1; `merge 0 2` attaches 1 under 3 and the rank of 3 becomes 2, the ranks of
the other vertices stay. -/
theorem merge_union_by_rank_witness :
    Forest demo2 ∧ findRep demo2 0 ≠ findRep demo2 2 ∧
    findRep demo2 0 = some 1 ∧ findRep demo2 2 = some 3 ∧
    rankOf demo2 1 = 1 ∧ rankOf demo2 3 = 1 ∧
    ∃ g1, merge demo2 0 2 = some g1 ∧ parentOf g1 1 = 3 ∧ parentOf g1 3 = 3 ∧
      rankOf g1 3 = 2 ∧ ∀ y, y ≠ 3 → rankOf g1 y = rankOf demo2 y := by
  have hF : Forest demo2 := reachable_forest (proper_reachable demo2_proper)
  obtain ⟨ru, rv, g1, hru, hrv, hm, _, _, h3, _⟩ :=
    merge_union_by_rank demo2 hF 0 2 (by decide) (by decide) (by decide)
  have e1 : findRep demo2 0 = some 1 := by decide
  have e2 : findRep demo2 2 = some 3 := by decide
  have eu : ru = 1 := Option.some.inj (hru.symm.trans e1)
  have ev : rv = 3 := Option.some.inj (hrv.symm.trans e2)
  subst eu
  subst ev
  obtain ⟨a1, a2, _, a4, a5⟩ := h3 (by decide)
  have a6 := a4 (by decide)
  have hr3 : rankOf demo2 3 = 1 := by decide
  rw [hr3] at a6
  exact ⟨hF, by decide, e1, e2, by decide, hr3, g1, hm, a1, a2, a6, a5⟩

end ClusterBig
